import Mathlib

/-!
# Verification of the `kd_tree` crate

Shallow embedding of `src/kd_tree.rs` together with the `Point` implementation
for vectors from `src/lib.rs`, and proofs checking the specification's claims
against it.

Modelling conventions:

* Points are `List ℚ`.  The Rust `Point<f64> for Vec<f64>` implementation
  computes `sqrt (Σ (aᵢ - bᵢ)²)` in `f64`; `ℚ` has no square root, and every
  use the source makes of a distance value is an order comparison (`<`), an
  equality, or a comparison with `0`, all of which are preserved and reflected
  by the strictly monotone square root on nonnegative reals.  The embedding's
  `distance` therefore returns the sum of squared differences (the squared
  euclidean distance); "distance 0" coincides in the two readings.
* Rust `Vec` indexing panics out of bounds; the embedding uses a total lookup
  (`lookupD`, defaulting to `none` for arena slots, `0` for coordinates).
  Every theorem below confines its hypotheses to inputs on which the source
  performs no out-of-bounds access (structurally sound trees satisfying the
  invariant `Inv`, or explicit arena-length bounds), so a source panic is
  never collapsed into a covered result.
* `BinaryHeap<Closest<_, T>>` is a max-heap keyed by `Closest.distance`, with
  an unspecified internal order among equal keys.  It is modelled as a list
  kept sorted by descending distance (`bhPush` inserts, the head is the max,
  popping drops the head).  Every property proved below is insensitive to the
  order among entries of equal distance, which is the only freedom the Rust
  heap has.  A `Closest` value is modelled as a pair `(point, distance)`.
* Loops that walk the arena through stored indices (`go_down` and the
  backtracking loop of `find_n_closest`) are embedded with an explicit fuel
  parameter, returning `none` on fuel exhaustion; `none` never occurs on trees
  reachable through the public constructors, which is proved below as the
  termination claim.
-/

namespace KD

/-- Total list lookup with a default (models `Vec` indexing; the source panics
out of bounds, the embedding returns the default and all verified runs stay in
bounds). -/
def lookupD {α : Type} : List α → Nat → α → α
  | [], _, d => d
  | x :: _, 0, _ => x
  | _ :: xs, n + 1, d => lookupD xs n d

/-- Total list update (models `v[i] = x`; out of bounds is a no-op where the
source would panic, and all verified runs stay in bounds). -/
def setAt {α : Type} : List α → Nat → α → List α
  | [], _, _ => []
  | _ :: xs, 0, v => v :: xs
  | x :: xs, n + 1, v => x :: setAt xs n v

/-- `Vec::resize_with(n, Default::default)`: truncate or pad with `none` to
exactly length `n`. -/
def resizeTo (l : List (Option α)) (n : Nat) : List (Option α) :=
  l.take n ++ List.replicate (n - l.length) none

/-- Error types (`KdError`). -/
inductive KdError where
  | dimensionError
  | emptyTree
  | nodeMissing
  | binaryHeapError
deriving DecidableEq, Repr

/-- Node type used by the tree to tell which direction to go in search
(`NodeType`). -/
inductive NodeType where
  | rootNode
  | leftChild
  | rightChild
deriving DecidableEq, Repr

/-- Node structure used by the tree (`Node<DataType>`). -/
structure Node where
  point : List ℚ
  child_type : NodeType
  parent : Nat
  left_child : Nat
  right_child : Nat
  dimension : Nat
  level : Nat
deriving DecidableEq, Repr

/-- Tree structure with vector of nodes (`KdTree<DataType, T>`; the
`PhantomData` field is dropped). -/
structure KdTree where
  tree : List (Option Node)
  num_dimensions : Nat
  max_levels : Nat
  last_point : Nat
deriving DecidableEq, Repr

/-- `self.tree[i]` reads of the arena. -/
def arenaGet (t : KdTree) (i : Nat) : Option Node :=
  lookupD t.tree i none

/-! ## The `Point<f64>` implementation for `Vec<f64>` (lib.rs) -/

/-- Sum of squared coordinate differences (the loop body of
`Point::distance`; the final `sqrt` is dropped, see the header). -/
def sqDiffSum : List ℚ → List ℚ → ℚ
  | a :: as, b :: bs => (a - b) * (a - b) + sqDiffSum as bs
  | _, _ => 0

/-- `Point::distance for Vec`: dimension guard, then the squared euclidean
distance. -/
def distance (a b : List ℚ) : Except KdError ℚ :=
  if a.length ≠ b.length then Except.error KdError.dimensionError
  else Except.ok (sqDiffSum a b)

/-- `Point::greater for Vec`: strict comparison along one axis. -/
def greater (a b : List ℚ) (cur_dimension : Nat) : Bool :=
  lookupD a cur_dimension 0 > lookupD b cur_dimension 0

/-- `Point::split_plane for Vec`: a point that is zero everywhere except the
given axis. -/
def split_plane (p : List ℚ) (cur_dimension : Nat) : List ℚ :=
  setAt (List.replicate p.length (0 : ℚ)) cur_dimension (lookupD p cur_dimension 0)

/-- `Point::dimensions for Vec`. -/
def dimensions (p : List ℚ) : Nat := p.length

/-! ## The bounded max-heap (`BinaryHeap<Closest<_, T>>`) -/

/-- `BinaryHeap::push`: insert keeping the list sorted by descending
distance (new entries go after existing entries of equal distance). -/
def bhPush {α : Type} : List (α × ℚ) → α × ℚ → List (α × ℚ)
  | [], x => [x]
  | y :: ys, x => if y.2 < x.2 then x :: y :: ys else y :: bhPush ys x

/-- `KdTree::get_max_min`: peek the maximum distance in the heap, or fail
with `BinaryHeapError` on an empty heap. -/
def get_max_min {α : Type} (bh_closest : List (α × ℚ)) : Except KdError ℚ :=
  match bh_closest with
  | [] => Except.error KdError.binaryHeapError
  | m :: _ => Except.ok m.2

/-! ## Constructors -/

/-- `KdTree::new`: default capacity 100. -/
def new (dims : Nat) : KdTree :=
  { tree := List.replicate 100 none
    num_dimensions := dims
    max_levels := 0
    last_point := 1 }

/-- `KdTree::with_capacity`. -/
def with_capacity (dims capacity : Nat) : KdTree :=
  { tree := List.replicate capacity none
    num_dimensions := dims
    max_levels := 0
    last_point := 1 }

/-! ## Descent (`KdTree::go_down`) -/

/-- The `while let Some(node)` loop of `go_down`, with fuel.  Arguments after
the fuel: `current_index`, `index`, `child_type`. -/
def go_down_loop (t : KdTree) (query_point : List ℚ) :
    Nat → Nat → Nat → NodeType → Option (Nat × NodeType)
  | 0, _, _, _ => none
  | fuel + 1, current_index, index, child_type =>
    match arenaGet t current_index with
    | none => some (index, child_type)
    | some node =>
      if greater node.point query_point node.dimension then
        go_down_loop t query_point fuel node.left_child current_index NodeType.leftChild
      else
        go_down_loop t query_point fuel node.right_child current_index NodeType.rightChild

/-- `KdTree::go_down`: search the tree from `root` to a leaf node.  `none`
models non-termination of the loop (never reached on reachable trees). -/
def go_down (t : KdTree) (query_point : List ℚ) (root : Nat) :
    Option (Except KdError (Nat × NodeType)) :=
  match arenaGet t root with
  | none => some (Except.error KdError.emptyTree)
  | some _ =>
    (go_down_loop t query_point (t.last_point + 1) root root NodeType.rootNode).map Except.ok

/-! ## Insertion (`KdTree::add_point`) -/

/-- The parent's child-link update performed when a child is attached. -/
def linkChild (t : KdTree) (parent_index : Nat) (node : Node) (child_type : NodeType) : KdTree :=
  let node1 :=
    match child_type with
    | NodeType.leftChild => { node with left_child := t.last_point }
    | NodeType.rightChild => { node with right_child := t.last_point }
    | NodeType.rootNode => node
  { t with tree := setAt t.tree parent_index (some node1) }

/-- `KdTree::add_point`.  Returns the updated tree in place of Rust's `&mut`
mutation; `none` models non-termination of the inner `go_down` (never reached
on reachable trees). -/
def add_point (t : KdTree) (query_point : List ℚ) : Option (Except KdError KdTree) :=
  if dimensions query_point ≠ t.num_dimensions then some (Except.error KdError.dimensionError)
  else
    match (if (arenaGet t 1).isNone then some (Except.ok (0, NodeType.rootNode))
           else go_down t query_point 1) with
    | none => none
    | some (Except.error e) => some (Except.error e)
    | some (Except.ok (parent_index, child_type)) =>
      some (
        match (if t.last_point = 1 then Except.ok (t, 0, 0)
               else
                 match arenaGet t parent_index with
                 | some node =>
                   Except.ok (linkChild t parent_index node child_type,
                     (node.dimension + 1) % t.num_dimensions, node.level + 1)
                 | none => Except.error KdError.dimensionError) with
        | Except.error e => Except.error e
        | Except.ok (t1, current_dimension, current_level) =>
          let t2 := { t1 with max_levels := max t1.max_levels current_level }
          let t3 :=
            if t2.tree.length - 1 ≤ t2.last_point then
              { t2 with tree := resizeTo t2.tree (t2.last_point * 2) }
            else t2
          Except.ok
            { t3 with
              tree := setAt t3.tree t3.last_point
                (some { point := query_point
                        child_type := child_type
                        parent := parent_index
                        left_child := 0
                        right_child := 0
                        dimension := current_dimension
                        level := current_level })
              last_point := t3.last_point + 1 })

/-! ## Search (`KdTree::find_n_closest`, `KdTree::find_closest`) -/

/-- The backtracking `while let Some(node)` loop of `find_n_closest`, with
fuel.  Arguments after the fuel: `index`, `child_type`, `searched_table`,
`bh_closest`. -/
def fnc_loop (t : KdTree) (query_point : List ℚ) (n : Nat) :
    Nat → Nat → NodeType → List Int → List (Nat × ℚ) →
    Option (Except KdError (List (Nat × ℚ)))
  | 0, _, _, _, _ => none
  | fuel + 1, index, child_type, searched_table, bh_closest =>
    match arenaGet t index with
    | none => some (Except.ok bh_closest)
    | some node =>
      -- if node has already been searched go up
      if lookupD searched_table node.level (-1) = (index : Int) then
        fnc_loop t query_point n fuel node.parent node.child_type searched_table bh_closest
      else
        match distance node.point query_point with
        | Except.error e => some (Except.error e)
        | Except.ok dist =>
          match (if bh_closest.length < n then
                   Except.ok (bhPush bh_closest (index, dist))
                 else
                   match get_max_min bh_closest with
                   | Except.error e => Except.error e
                   | Except.ok m =>
                     Except.ok (if dist < m then bhPush bh_closest.tail (index, dist)
                                else bh_closest)) with
          | Except.error e => some (Except.error e)
          | Except.ok bh1 =>
            let table1 := setAt searched_table node.level (index : Int)
            match distance (split_plane node.point node.dimension)
                (split_plane query_point node.dimension) with
            | Except.error e => some (Except.error e)
            | Except.ok splitDist =>
              match get_max_min bh1 with
              | Except.error e => some (Except.error e)
              | Except.ok m1 =>
                if splitDist < m1 then
                  let sub_tree :=
                    match child_type with
                    | NodeType.leftChild => node.right_child
                    | NodeType.rightChild => node.left_child
                    | NodeType.rootNode => 0
                  match go_down t query_point sub_tree with
                  | none => none
                  | some (Except.ok (cur_ind, cur_child)) =>
                    fnc_loop t query_point n fuel cur_ind cur_child table1 bh1
                  | some (Except.error _) =>
                    fnc_loop t query_point n fuel index child_type table1 bh1
                else
                  fnc_loop t query_point n fuel index child_type table1 bh1

/-- Result assembly shared by `find_n_closest` and `brute_force`: map retained
arena indices back to their owned point payloads, failing with `NodeMissing`
if an index does not resolve. -/
def to_points (t : KdTree) : List (Nat × ℚ) → List (List ℚ × ℚ) →
    Except KdError (List (List ℚ × ℚ))
  | [], bh_dtype => Except.ok bh_dtype
  | (i, d) :: rest, bh_dtype =>
    match arenaGet t i with
    | some node => to_points t rest (bhPush bh_dtype (node.point, d))
    | none => Except.error KdError.nodeMissing

/-- Fuel given to the backtracking loop; proved sufficient on reachable
trees. -/
def fncFuel (t : KdTree) : Nat :=
  (t.last_point + 1) * (t.max_levels + 2) + 1

/-- `KdTree::find_n_closest`.  `none` models non-termination (never reached
on reachable trees). -/
def find_n_closest (t : KdTree) (query_point : List ℚ) (n : Nat) :
    Option (Except KdError (List (List ℚ × ℚ))) :=
  match go_down t query_point 1 with
  | none => none
  | some (Except.error e) => some (Except.error e)
  | some (Except.ok (index, child_type)) =>
    match fnc_loop t query_point n (fncFuel t) index child_type
        (List.replicate (t.max_levels + 1) (-1 : Int)) [] with
    | none => none
    | some (Except.error e) => some (Except.error e)
    | some (Except.ok bh_closest) => some (to_points t bh_closest [])

/-- `KdTree::find_closest`: pop the (single) maximum of `find_n_closest(q, 1)`. -/
def find_closest (t : KdTree) (query_point : List ℚ) :
    Option (Except KdError (List ℚ × ℚ)) :=
  match find_n_closest t query_point 1 with
  | none => none
  | some (Except.error e) => some (Except.error e)
  | some (Except.ok bh) =>
    match bh with
    | closest :: _ => some (Except.ok closest)
    | [] => some (Except.error KdError.binaryHeapError)

/-! ## Brute force (`KdTree::brute_force`) -/

/-- The scanning loop of `brute_force` over the enumerated arena slots. -/
def bf_loop (query_point : List ℚ) (n : Nat) :
    List (Option Node) → Nat → List (Nat × ℚ) → Except KdError (List (Nat × ℚ))
  | [], _, bh_closest => Except.ok bh_closest
  | none :: rest, cur_ind, bh_closest => bf_loop query_point n rest (cur_ind + 1) bh_closest
  | some node :: rest, cur_ind, bh_closest =>
    match distance node.point query_point with
    | Except.error e => Except.error e
    | Except.ok dist =>
      if bh_closest.length < n then
        bf_loop query_point n rest (cur_ind + 1) (bhPush bh_closest (cur_ind, dist))
      else
        match get_max_min bh_closest with
        | Except.error e => Except.error e
        | Except.ok m =>
          if dist < m then
            bf_loop query_point n rest (cur_ind + 1) (bhPush bh_closest.tail (cur_ind, dist))
          else
            bf_loop query_point n rest (cur_ind + 1) bh_closest

/-- `KdTree::brute_force`: linear reference search over the arena. -/
def brute_force (t : KdTree) (query_point : List ℚ) (n : Nat) :
    Except KdError (List (List ℚ × ℚ)) :=
  match bf_loop query_point n t.tree 0 [] with
  | Except.error e => Except.error e
  | Except.ok bh_closest => to_points t bh_closest []

/-! ## Building trees through the public interface -/

/-- Run a sequence of `add_point` calls, stopping at the first error (or
fuel exhaustion marker). -/
def add_points (t : KdTree) : List (List ℚ) → Option (Except KdError KdTree)
  | [] => some (Except.ok t)
  | p :: ps =>
    match add_point t p with
    | some (Except.ok t') => add_points t' ps
    | r => r

/-- `t` is the tree built by successfully inserting the points `ps`, in
order, into `new d`. -/
def Built (d : Nat) (ps : List (List ℚ)) (t : KdTree) : Prop :=
  add_points (new d) ps = some (Except.ok t)

/-- Extract the tree from a successful `add_points` run (junk default
otherwise; used to name concrete test trees). -/
def builtTree (r : Option (Except KdError KdTree)) : KdTree :=
  match r with
  | some (Except.ok t) => t
  | _ => new 0

/-! ## A small operation language over the tree

`add_point` takes `&mut self` in the source while the three query functions
take `&self`: a query call leaves the receiver untouched by its type.  The
interpreter below makes that state threading explicit so that read-only
behaviour of queries is a statable property. -/

/-- One public call. -/
inductive Op where
  | addPoint (p : List ℚ)
  | findN (q : List ℚ) (n : Nat)
  | findC (q : List ℚ)
  | brute (q : List ℚ) (n : Nat)
deriving DecidableEq

/-- Result value of one public call. -/
inductive OpResult where
  | unitRes (r : Option (Except KdError Unit))
  | listRes (r : Option (Except KdError (List (List ℚ × ℚ))))
  | pairRes (r : Option (Except KdError (List ℚ × ℚ)))

/-- Run one call against the tree state: `add_point` (`&mut self`) may
replace the state, the queries (`&self`) only read it. -/
def runOp (t : KdTree) : Op → KdTree × OpResult
  | Op.addPoint p =>
    match add_point t p with
    | some (Except.ok t') => (t', OpResult.unitRes (some (Except.ok ())))
    | some (Except.error e) => (t, OpResult.unitRes (some (Except.error e)))
    | none => (t, OpResult.unitRes none)
  | Op.findN q n => (t, OpResult.listRes (find_n_closest t q n))
  | Op.findC q => (t, OpResult.pairRes (find_closest t q))
  | Op.brute q n => (t, OpResult.listRes (some (brute_force t q n)))

/-- The call is one of the three read-only queries. -/
def isQuery : Op → Prop
  | Op.addPoint _ => False
  | _ => True

/-! ## Concrete trees used by the scenarios and counterexamples -/

/-- 1-dimensional tree holding 0, 5, −5 (inserted in that order). -/
def cexTreeA : KdTree := builtTree (add_points (new 1) [[(0 : ℚ)], [5], [-5]])

/-- The same point set inserted in the order −5, 0, 5. -/
def cexTreeB : KdTree := builtTree (add_points (new 1) [[(-5 : ℚ)], [0], [5]])

/-- The seven 3-dimensional points of the spec's concrete scenario. -/
def scenarioPts : List (List ℚ) :=
  [[1/2, 1/5, 1/10], [1, 1, 1], [2, 2, 2], [-1, -1, -1], [-2, -2, -2], [3, 3, 3],
   [-3, -3, -3]]

/-- The tree of the spec's concrete scenario. -/
def scenarioTree : KdTree := builtTree (add_points (new 3) scenarioPts)

/-! ## Basic lemmas about the list primitives -/

theorem lookupD_all_eq {α : Type} (d : α) :
    ∀ (l : List α) (i : Nat), (∀ x ∈ l, x = d) → lookupD l i d = d := by
  intro l
  induction l with
  | nil => intro i _; cases i <;> rfl
  | cons x xs ih =>
    intro i h
    cases i with
    | zero => exact h x (by simp)
    | succ j => exact ih j fun y hy => h y (by simp [hy])

theorem length_setAt {α : Type} :
    ∀ (l : List α) (i : Nat) (v : α), (setAt l i v).length = l.length := by
  intro l
  induction l with
  | nil => intro i v; rfl
  | cons x xs ih =>
    intro i v
    cases i with
    | zero => rfl
    | succ j => simpa [setAt] using ih j v

theorem length_resizeTo (l : List (Option α)) (n : Nat) :
    (resizeTo l n).length = n := by
  simp [resizeTo]
  omega

/-! ## More lemmas about the list primitives -/

theorem lookupD_some_lt_length {α : Type} :
    ∀ (l : List (Option α)) (i : Nat) (x : α), lookupD l i none = some x → i < l.length := by
  intro l
  induction l with
  | nil => intro i x h; cases i <;> exact absurd h (by simp [lookupD])
  | cons y ys ih =>
    intro i x h
    cases i with
    | zero => simp
    | succ j => simpa using Nat.succ_lt_succ (ih j x h)

theorem lookupD_ge_length {α : Type} (d : α) :
    ∀ (l : List α) (i : Nat), l.length ≤ i → lookupD l i d = d := by
  intro l
  induction l with
  | nil => intro i _; cases i <;> rfl
  | cons y ys ih =>
    intro i h
    cases i with
    | zero => simp at h
    | succ j => exact ih j (by simpa using h)

theorem lookupD_setAt_self {α : Type} (d : α) :
    ∀ (l : List α) (i : Nat) (v : α), i < l.length → lookupD (setAt l i v) i d = v := by
  intro l
  induction l with
  | nil => intro i v h; simp at h
  | cons y ys ih =>
    intro i v h
    cases i with
    | zero => rfl
    | succ j => exact ih j v (by simpa using h)

theorem lookupD_setAt_ne {α : Type} (d : α) :
    ∀ (l : List α) (i j : Nat) (v : α), i ≠ j → lookupD (setAt l i v) j d = lookupD l j d := by
  intro l
  induction l with
  | nil => intro i j v _; cases i <;> rfl
  | cons y ys ih =>
    intro i j v hne
    cases i with
    | zero =>
      cases j with
      | zero => exact absurd rfl hne
      | succ k => rfl
    | succ i' =>
      cases j with
      | zero => rfl
      | succ k => exact ih i' k v (by omega)

theorem lookupD_append_left {α : Type} (d : α) :
    ∀ (l m : List α) (i : Nat), i < l.length → lookupD (l ++ m) i d = lookupD l i d := by
  intro l
  induction l with
  | nil => intro m i h; simp at h
  | cons y ys ih =>
    intro m i h
    cases i with
    | zero => rfl
    | succ j => exact ih m j (by simpa using h)

theorem lookupD_append_right {α : Type} (d : α) :
    ∀ (l m : List α) (i : Nat), l.length ≤ i → lookupD (l ++ m) i d = lookupD m (i - l.length) d := by
  intro l
  induction l with
  | nil => intro m i _; simp
  | cons y ys ih =>
    intro m i h
    cases i with
    | zero => simp at h
    | succ j =>
      simpa [lookupD, Nat.succ_sub_succ] using ih m j (by simpa using h)

theorem lookupD_replicate {α : Type} (d v : α) :
    ∀ (n i : Nat), lookupD (List.replicate n v) i d = if i < n then v else d := by
  intro n
  induction n with
  | zero => intro i; cases i <;> rfl
  | succ m ih =>
    intro i
    cases i with
    | zero => simp [List.replicate, lookupD]
    | succ j =>
      show lookupD (List.replicate m v) j d = _
      rw [ih j]
      by_cases h : j < m
      · rw [if_pos h, if_pos (by omega)]
      · rw [if_neg h, if_neg (by omega)]

theorem lookupD_take {α : Type} (d : α) :
    ∀ (l : List α) (n i : Nat), i < n → lookupD (l.take n) i d = lookupD l i d := by
  intro l
  induction l with
  | nil => intro n i _; simp
  | cons y ys ih =>
    intro n i h
    cases n with
    | zero => omega
    | succ m =>
      cases i with
      | zero => rfl
      | succ j => simpa [List.take, lookupD] using ih m j (by omega)

theorem lookupD_resizeTo_ge (l : List (Option α)) (n i : Nat) (hn : l.length ≤ n) :
    lookupD (resizeTo l n) i none = lookupD l i none := by
  unfold resizeTo
  rcases Nat.lt_or_ge i l.length with h | h
  · rw [lookupD_append_left none _ _ i (by simp; omega), lookupD_take none l n i (by omega)]
  · rw [lookupD_ge_length none l i h]
    have h3 : (l.take n).length ≤ i := by simp; omega
    rw [lookupD_append_right none (l.take n) _ i h3, lookupD_replicate]
    split <;> rfl

/-! ## Ancestor chains in the arena -/

/-- The parent chain of slot `j`: `[j, parent j, …, root]`, empty when `j` is
unoccupied.  The fuel `j` suffices because parents have strictly smaller
indices on every tree this development works with. -/
def chainAux (t : KdTree) : Nat → Nat → List Nat
  | 0, _ => []
  | fuel + 1, j =>
    match arenaGet t j with
    | none => []
    | some nd => j :: chainAux t fuel nd.parent

/-- Ancestor chain of `j` (including `j` itself). -/
def chain (t : KdTree) (j : Nat) : List Nat := chainAux t j j

/-- `j` lies in the subtree rooted at slot `r` (`r ≠ 0` and `r` is one of
`j`'s ancestors-or-self). -/
def InSub (t : KdTree) (r j : Nat) : Prop := r ≠ 0 ∧ r ∈ chain t j

/-! ## The structural invariant of reachable trees -/

/-- Structural invariant maintained by `new`/`add_point` (proved below for
every tree built through the public interface). -/
structure Inv (t : KdTree) : Prop where
  lp_pos : 1 ≤ t.last_point
  len_big : t.last_point + 1 ≤ t.tree.length
  len3 : 3 ≤ t.tree.length
  occ_iff : ∀ i, (arenaGet t i).isSome ↔ (1 ≤ i ∧ i < t.last_point)
  root_fields : ∀ nd, arenaGet t 1 = some nd →
    nd.parent = 0 ∧ nd.child_type = NodeType.rootNode ∧ nd.dimension = 0 ∧ nd.level = 0
  root_ct : ∀ i nd, arenaGet t i = some nd → nd.child_type = NodeType.rootNode → i = 1
  point_len : ∀ i nd, arenaGet t i = some nd → nd.point.length = t.num_dimensions
  level_le : ∀ i nd, arenaGet t i = some nd → nd.level ≤ t.max_levels
  parent_lt : ∀ i nd, arenaGet t i = some nd → i ≠ 1 → nd.parent < i ∧ 1 ≤ nd.parent
  parent_link : ∀ i nd, arenaGet t i = some nd → i ≠ 1 →
    ∃ pnd, arenaGet t nd.parent = some pnd ∧
      nd.level = pnd.level + 1 ∧
      nd.dimension = (pnd.dimension + 1) % t.num_dimensions ∧
      ((nd.child_type = NodeType.leftChild ∧ pnd.left_child = i) ∨
       (nd.child_type = NodeType.rightChild ∧ pnd.right_child = i))
  left_link : ∀ i nd, arenaGet t i = some nd → nd.left_child ≠ 0 →
    i < nd.left_child ∧ ∃ c, arenaGet t nd.left_child = some c ∧ c.parent = i ∧
      c.child_type = NodeType.leftChild
  right_link : ∀ i nd, arenaGet t i = some nd → nd.right_child ≠ 0 →
    i < nd.right_child ∧ ∃ c, arenaGet t nd.right_child = some c ∧ c.parent = i ∧
      c.child_type = NodeType.rightChild
  ml_wit : t.max_levels = 0 ∨ ∃ i nd, arenaGet t i = some nd ∧ nd.level = t.max_levels
  bst_left : ∀ i nd j jnd, arenaGet t i = some nd → arenaGet t j = some jnd →
    InSub t nd.left_child j →
    lookupD jnd.point nd.dimension 0 < lookupD nd.point nd.dimension 0
  bst_right : ∀ i nd j jnd, arenaGet t i = some nd → arenaGet t j = some jnd →
    InSub t nd.right_child j →
    lookupD nd.point nd.dimension 0 ≤ lookupD jnd.point nd.dimension 0

theorem parent_lt_self {t : KdTree} (hInv : Inv t) {j : Nat} {nd : Node}
    (h : arenaGet t j = some nd) : nd.parent < j := by
  by_cases hj : j = 1
  · subst hj
    rw [(hInv.root_fields nd h).1]
    omega
  · exact (hInv.parent_lt j nd h hj).1

theorem occ_one_le {t : KdTree} (hInv : Inv t) {j : Nat} {nd : Node}
    (h : arenaGet t j = some nd) : 1 ≤ j :=
  ((hInv.occ_iff j).1 (by simp [h])).1

theorem occ_lt_lp {t : KdTree} (hInv : Inv t) {j : Nat} {nd : Node}
    (h : arenaGet t j = some nd) : j < t.last_point :=
  ((hInv.occ_iff j).1 (by simp [h])).2

theorem chainAux_nil {t : KdTree} {j : Nat} (h : arenaGet t j = none) :
    ∀ fuel, chainAux t fuel j = [] := by
  intro fuel
  cases fuel with
  | zero => rfl
  | succ f => simp [chainAux, h]

theorem chain_nil {t : KdTree} {j : Nat} (h : arenaGet t j = none) : chain t j = [] :=
  chainAux_nil h j

theorem chainAux_stable {t : KdTree} (hInv : Inv t) :
    ∀ j fuel, j ≤ fuel → chainAux t fuel j = chain t j := by
  intro j
  induction j using Nat.strong_induction_on with
  | _ j ih =>
    intro fuel hf
    rcases hget : arenaGet t j with _ | nd
    · rw [chainAux_nil hget, chain_nil hget]
    · have hj1 : 1 ≤ j := occ_one_le hInv hget
      have hplt : nd.parent < j := parent_lt_self hInv hget
      obtain ⟨f0, rfl⟩ : ∃ f0, fuel = f0 + 1 := ⟨fuel - 1, by omega⟩
      obtain ⟨j0, hj⟩ : ∃ j0, j = j0 + 1 := ⟨j - 1, by omega⟩
      have e1 : chainAux t (f0 + 1) j = j :: chainAux t f0 nd.parent := by
        simp [chainAux, hget]
      have e2 : chain t j = j :: chainAux t j0 nd.parent := by
        rw [chain, hj]
        simp [chainAux, hj ▸ hget]
      rw [e1, e2, ih nd.parent hplt f0 (by omega), ih nd.parent hplt j0 (by omega)]

theorem chain_cons {t : KdTree} (hInv : Inv t) {j : Nat} {nd : Node}
    (h : arenaGet t j = some nd) : chain t j = j :: chain t nd.parent := by
  have hj1 : 1 ≤ j := occ_one_le hInv h
  have hplt : nd.parent < j := parent_lt_self hInv h
  obtain ⟨j0, hj⟩ : ∃ j0, j = j0 + 1 := ⟨j - 1, by omega⟩
  rw [chain, hj]
  simp only [chainAux, hj ▸ h]
  rw [chainAux_stable hInv nd.parent j0 (by omega)]

theorem self_mem_chain {t : KdTree} (hInv : Inv t) {j : Nat} {nd : Node}
    (h : arenaGet t j = some nd) : j ∈ chain t j := by
  rw [chain_cons hInv h]
  exact List.mem_cons_self ..

theorem mem_chain_occ {t : KdTree} (hInv : Inv t) :
    ∀ j a, a ∈ chain t j → (arenaGet t a).isSome ∧ a ≤ j := by
  intro j
  induction j using Nat.strong_induction_on with
  | _ j ih =>
    intro a ha
    rcases hget : arenaGet t j with _ | nd
    · rw [chain_nil hget] at ha
      simp at ha
    · rw [chain_cons hInv hget] at ha
      rcases List.mem_cons.1 ha with rfl | ha2
      · exact ⟨by simp [hget], le_refl _⟩
      · have hplt : nd.parent < j := parent_lt_self hInv hget
        obtain ⟨h1, h2⟩ := ih nd.parent hplt a ha2
        exact ⟨h1, by omega⟩

theorem chain_suffix {t : KdTree} (hInv : Inv t) :
    ∀ j a, a ∈ chain t j → chain t a <:+ chain t j := by
  intro j
  induction j using Nat.strong_induction_on with
  | _ j ih =>
    intro a ha
    rcases hget : arenaGet t j with _ | nd
    · rw [chain_nil hget] at ha
      simp at ha
    · rw [chain_cons hInv hget] at ha ⊢
      rcases List.mem_cons.1 ha with rfl | ha2
      · rw [← chain_cons hInv hget]
      · have hplt : nd.parent < j := parent_lt_self hInv hget
        exact (ih nd.parent hplt a ha2).trans (List.suffix_cons j (chain t nd.parent))

theorem root_mem_chain {t : KdTree} (hInv : Inv t) :
    ∀ j nd, arenaGet t j = some nd → (1 : Nat) ∈ chain t j := by
  intro j
  induction j using Nat.strong_induction_on with
  | _ j ih =>
    intro nd hget
    rw [chain_cons hInv hget]
    by_cases hj : j = 1
    · subst hj
      exact List.mem_cons_self ..
    · obtain ⟨pnd, hpnd, -⟩ := hInv.parent_link j nd hget hj
      exact List.mem_cons_of_mem _ (ih nd.parent (parent_lt_self hInv hget) pnd hpnd)

theorem arena_zero_none {t : KdTree} (hInv : Inv t) : arenaGet t 0 = none := by
  rcases h0 : arenaGet t 0 with _ | z
  · rfl
  · exact absurd (occ_one_le hInv h0) (by omega)

theorem chain_level_lt {t : KdTree} (hInv : Inv t) :
    ∀ j a nda ndj, arenaGet t a = some nda → arenaGet t j = some ndj →
      a ∈ chain t j → a ≠ j → nda.level < ndj.level := by
  intro j
  induction j using Nat.strong_induction_on with
  | _ j ih =>
    intro a nda ndj ha hj hmem hne
    rw [chain_cons hInv hj] at hmem
    rcases List.mem_cons.1 hmem with rfl | ha2
    · exact absurd rfl hne
    · by_cases hj1 : j = 1
      · subst hj1
        rw [(hInv.root_fields ndj hj).1, chain_nil (arena_zero_none hInv)] at ha2
        simp at ha2
      · obtain ⟨pnd, hpnd, hlvl, -⟩ := hInv.parent_link j ndj hj hj1
        by_cases hap : a = ndj.parent
        · subst hap
          rw [ha] at hpnd
          cases hpnd
          omega
        · have := ih ndj.parent (parent_lt_self hInv hj) a nda pnd ha hpnd ha2 hap
          omega

theorem suffix_total {α : Type} {s1 s2 l : List α} (h1 : s1 <:+ l) (h2 : s2 <:+ l)
    (hlen : s1.length ≤ s2.length) : s1 <:+ s2 := by
  obtain ⟨a, rfl⟩ := h1
  obtain ⟨b, hb⟩ := h2
  have hab : b.length ≤ a.length := by
    have := congrArg List.length hb
    simp at this
    omega
  have h3 := congrArg (List.drop b.length) hb
  rw [List.drop_left] at h3
  rw [List.drop_append_of_le_length hab] at h3
  exact ⟨a.drop b.length, h3.symm⟩

theorem children_ne {t : KdTree} (hInv : Inv t) {i : Nat} {nd : Node}
    (h : arenaGet t i = some nd) (hl : nd.left_child ≠ 0) (hr : nd.right_child ≠ 0) :
    nd.left_child ≠ nd.right_child := by
  intro he
  obtain ⟨-, c, hc, -, hctl⟩ := hInv.left_link i nd h hl
  obtain ⟨-, c2, hc2, -, hctr⟩ := hInv.right_link i nd h hr
  rw [he, hc2] at hc
  cases hc
  rw [hctl] at hctr
  exact NodeType.noConfusion hctr

theorem chain_of_child {t : KdTree} (hInv : Inv t) {c : Nat} {cnd : Node}
    (h : arenaGet t c = some cnd) : chain t c = c :: chain t cnd.parent :=
  chain_cons hInv h

theorem sub_disjoint {t : KdTree} (hInv : Inv t) {i j : Nat} {nd : Node}
    (h : arenaGet t i = some nd) (hl : InSub t nd.left_child j)
    (hr : InSub t nd.right_child j) : False := by
  obtain ⟨hl0, hlm⟩ := hl
  obtain ⟨hr0, hrm⟩ := hr
  obtain ⟨-, cl, hcl, hclp, -⟩ := hInv.left_link i nd h hl0
  obtain ⟨-, cr, hcr, hcrp, -⟩ := hInv.right_link i nd h hr0
  have hne : nd.left_child ≠ nd.right_child := children_ne hInv h hl0 hr0
  have s1 : chain t nd.left_child <:+ chain t j := chain_suffix hInv j _ hlm
  have s2 : chain t nd.right_child <:+ chain t j := chain_suffix hInv j _ hrm
  have e1 : chain t nd.left_child = nd.left_child :: chain t i := by
    rw [chain_cons hInv hcl, hclp]
  have e2 : chain t nd.right_child = nd.right_child :: chain t i := by
    rw [chain_cons hInv hcr, hcrp]
  have hlen : (chain t nd.left_child).length = (chain t nd.right_child).length := by
    rw [e1, e2]
    simp
  have h12 : chain t nd.left_child <:+ chain t nd.right_child :=
    suffix_total s1 s2 (le_of_eq hlen)
  have := List.IsSuffix.eq_of_length h12 hlen
  rw [e1, e2] at this
  exact hne (List.cons.injEq .. ▸ this).1

theorem InSub_trans {t : KdTree} (hInv : Inv t) {s x j : Nat}
    (h1 : InSub t s x) (h2 : InSub t x j) : InSub t s j :=
  ⟨h1.1, (chain_suffix hInv j x h2.2).mem h1.2⟩

theorem chain_child_exists {t : KdTree} (hInv : Inv t) :
    ∀ j a, a ∈ chain t j → a ≠ j →
      ∃ c cnd, c ∈ chain t j ∧ arenaGet t c = some cnd ∧ cnd.parent = a := by
  intro j
  induction j using Nat.strong_induction_on with
  | _ j ih =>
    intro a ha hne
    rcases hget : arenaGet t j with _ | nd
    · rw [chain_nil hget] at ha
      simp at ha
    · rw [chain_cons hInv hget] at ha
      rcases List.mem_cons.1 ha with rfl | ha2
      · exact absurd rfl hne
      · by_cases hap : a = nd.parent
        · exact ⟨j, nd, self_mem_chain hInv hget, hget, hap.symm⟩
        · obtain ⟨c, cnd, hc1, hc2, hc3⟩ :=
            ih nd.parent (parent_lt_self hInv hget) a ha2 hap
          refine ⟨c, cnd, ?_, hc2, hc3⟩
          rw [chain_cons hInv hget]
          exact List.mem_cons_of_mem _ hc1

/-! ## Specification of the descent (`go_down`) -/

/-- `c` was entered from its parent in the direction the query routes to:
the parent's comparison sends the query toward `c`'s side. -/
def StepOK (t : KdTree) (q : List ℚ) (c : Nat) : Prop :=
  ∃ cnd pnd, arenaGet t c = some cnd ∧ arenaGet t cnd.parent = some pnd ∧
    ((cnd.child_type = NodeType.leftChild ∧ greater pnd.point q pnd.dimension = true) ∨
     (cnd.child_type = NodeType.rightChild ∧ greater pnd.point q pnd.dimension = false))

/-- The node/role pair returned by a descent: the role is the direction the
query routes to at the final node, and the slot in that direction is
absent. -/
def RouteLeaf (t : KdTree) (q : List ℚ) (pi : Nat) (ct : NodeType) : Prop :=
  ∃ nd, arenaGet t pi = some nd ∧
    ((ct = NodeType.leftChild ∧ greater nd.point q nd.dimension = true ∧
        nd.left_child = 0) ∨
     (ct = NodeType.rightChild ∧ greater nd.point q nd.dimension = false ∧
        nd.right_child = 0))

theorem go_down_loop_none {t : KdTree} {q : List ℚ} {x prev : Nat} {ct : NodeType}
    (h : arenaGet t x = none) :
    ∀ f, 1 ≤ f → go_down_loop t q f x prev ct = some (prev, ct) := by
  intro f hf
  obtain ⟨f0, rfl⟩ : ∃ f0, f = f0 + 1 := ⟨f - 1, by omega⟩
  simp [go_down_loop, h]

theorem go_down_loop_spec {t : KdTree} (hInv : Inv t) (q : List ℚ) :
    ∀ fuel cur prev ctp, (arenaGet t cur).isSome → t.last_point - cur < fuel →
      ∃ pi ct seg,
        go_down_loop t q fuel cur prev ctp = some (pi, ct) ∧
        (arenaGet t pi).isSome ∧ chain t pi = seg ++ chain t cur ∧
        (∀ c ∈ seg, StepOK t q c) ∧ RouteLeaf t q pi ct := by
  intro fuel
  induction fuel with
  | zero =>
    intro cur prev ctp hocc hf
    omega
  | succ f ih =>
    intro cur prev ctp hocc hf
    obtain ⟨nd, hnd⟩ := Option.isSome_iff_exists.1 hocc
    have hcurlt : cur < t.last_point := occ_lt_lp hInv hnd
    have hf1 : 1 ≤ f := by omega
    rcases hg : greater nd.point q nd.dimension with _ | _
    · -- go right
      rcases hnext : arenaGet t nd.right_child with _ | cnd
      · have hstep : go_down_loop t q (f + 1) cur prev ctp =
            some (cur, NodeType.rightChild) := by
          simp only [go_down_loop, hnd, hg]
          simp only [Bool.false_eq_true, if_false]
          exact go_down_loop_none hnext f hf1
        exact ⟨cur, NodeType.rightChild, [], hstep, hocc, rfl, by simp,
          nd, hnd, Or.inr ⟨rfl, hg, by
            by_contra h0
            obtain ⟨-, c, hc, -⟩ := hInv.right_link cur nd hnd h0
            rw [hc] at hnext
            cases hnext⟩⟩
      · obtain ⟨hlt, c2, hc2, hc2p, hc2t⟩ := hInv.right_link cur nd hnd (by
          intro h0
          rw [h0, arena_zero_none hInv] at hnext
          cases hnext)
        rw [hc2] at hnext
        cases hnext
        obtain ⟨pi, ct, seg, hrun, h2, h3, h4, h5⟩ :=
          ih nd.right_child cur NodeType.rightChild (by simp [hc2]) (by omega)
        refine ⟨pi, ct, seg ++ [nd.right_child], ?_, h2, ?_, ?_, h5⟩
        · simp only [go_down_loop, hnd, hg]
          simp only [Bool.false_eq_true, if_false]
          exact hrun
        · rw [h3, chain_cons hInv hc2, hc2p]
          simp
        · intro c hc
          rcases List.mem_append.1 hc with hc | hc
          · exact h4 c hc
          · have hceq : c = nd.right_child := by simpa using hc
            subst hceq
            exact ⟨cnd, nd, hc2, hc2p ▸ hnd, Or.inr ⟨hc2t, hg⟩⟩
    · -- go left
      rcases hnext : arenaGet t nd.left_child with _ | cnd
      · have hstep : go_down_loop t q (f + 1) cur prev ctp =
            some (cur, NodeType.leftChild) := by
          simp only [go_down_loop, hnd, hg, if_true]
          exact go_down_loop_none hnext f hf1
        exact ⟨cur, NodeType.leftChild, [], hstep, hocc, rfl, by simp,
          nd, hnd, Or.inl ⟨rfl, hg, by
            by_contra h0
            obtain ⟨-, c, hc, -⟩ := hInv.left_link cur nd hnd h0
            rw [hc] at hnext
            cases hnext⟩⟩
      · obtain ⟨hlt, c2, hc2, hc2p, hc2t⟩ := hInv.left_link cur nd hnd (by
          intro h0
          rw [h0, arena_zero_none hInv] at hnext
          cases hnext)
        rw [hc2] at hnext
        cases hnext
        obtain ⟨pi, ct, seg, hrun, h2, h3, h4, h5⟩ :=
          ih nd.left_child cur NodeType.leftChild (by simp [hc2]) (by omega)
        refine ⟨pi, ct, seg ++ [nd.left_child], ?_, h2, ?_, ?_, h5⟩
        · simp only [go_down_loop, hnd, hg, if_true]
          exact hrun
        · rw [h3, chain_cons hInv hc2, hc2p]
          simp
        · intro c hc
          rcases List.mem_append.1 hc with hc | hc
          · exact h4 c hc
          · have hceq : c = nd.left_child := by simpa using hc
            subst hceq
            exact ⟨cnd, nd, hc2, hc2p ▸ hnd, Or.inl ⟨hc2t, hg⟩⟩

theorem go_down_spec {t : KdTree} (hInv : Inv t) (q : List ℚ) {r : Nat}
    (hocc : (arenaGet t r).isSome) :
    ∃ pi ct seg, go_down t q r = some (Except.ok (pi, ct)) ∧
      (arenaGet t pi).isSome ∧ chain t pi = seg ++ chain t r ∧
      (∀ c ∈ seg, StepOK t q c) ∧ RouteLeaf t q pi ct := by
  obtain ⟨nd, hnd⟩ := Option.isSome_iff_exists.1 hocc
  obtain ⟨pi, ct, seg, hrun, h2, h3, h4, h5⟩ :=
    go_down_loop_spec hInv q (t.last_point + 1) r r NodeType.rootNode hocc (by omega)
  refine ⟨pi, ct, seg, ?_, h2, h3, h4, h5⟩
  unfold go_down
  rw [hnd, hrun]
  rfl

theorem go_down_of_none {t : KdTree} {q : List ℚ} {r : Nat} (h : arenaGet t r = none) :
    go_down t q r = some (Except.error KdError.emptyTree) := by
  unfold go_down
  rw [h]

/-- The arena growth step of `add_point` (applied after the max-level
update). -/
def addGrow (t2 : KdTree) : KdTree :=
  if t2.tree.length - 1 ≤ t2.last_point then
    { t2 with tree := resizeTo t2.tree (t2.last_point * 2) }
  else t2

/-- The state written by a successful `add_point`, as a function of the
pieces computed along the way (`t1` is the tree after the parent's child-link
update, `cd`/`cl` the new node's dimension and level). -/
def addResult (t1 : KdTree) (q : List ℚ) (parent_index : Nat) (child_type : NodeType)
    (cd cl : Nat) : KdTree :=
  { addGrow { t1 with max_levels := max t1.max_levels cl } with
    tree := setAt (addGrow { t1 with max_levels := max t1.max_levels cl }).tree
      (addGrow { t1 with max_levels := max t1.max_levels cl }).last_point
      (some { point := q, child_type := child_type, parent := parent_index,
              left_child := 0, right_child := 0, dimension := cd, level := cl })
    last_point := (addGrow { t1 with max_levels := max t1.max_levels cl }).last_point + 1 }

/-- Characterization of a successful `add_point` call. -/
theorem add_point_ok (t : KdTree) (q : List ℚ) (t' : KdTree)
    (h : add_point t q = some (Except.ok t')) :
    dimensions q = t.num_dimensions ∧
    ∃ parent_index child_type t1 cd cl,
      (if (arenaGet t 1).isNone then some (Except.ok (0, NodeType.rootNode))
       else go_down t q 1) = some (Except.ok (parent_index, child_type)) ∧
      ((t.last_point = 1 ∧ t1 = t ∧ cd = 0 ∧ cl = 0) ∨
       (t.last_point ≠ 1 ∧ ∃ node, arenaGet t parent_index = some node ∧
         t1 = linkChild t parent_index node child_type ∧
         cd = (node.dimension + 1) % t.num_dimensions ∧ cl = node.level + 1)) ∧
      t' = addResult t1 q parent_index child_type cd cl := by
  unfold add_point at h
  split at h
  · exact absurd h (by simp)
  next hdim =>
    refine ⟨by omega, ?_⟩
    split at h
    · exact absurd h (by simp)
    · exact absurd h (by simp)
    next parent_index child_type heq =>
      simp only [Option.some.injEq] at h
      refine ⟨parent_index, child_type, ?_⟩
      split at h
      next e hsc => exact absurd h (by simp)
      next t1 cd cl hsc =>
        refine ⟨t1, cd, cl, heq, ?_, ?_⟩
        · split at hsc
          next hlp =>
            simp only [Except.ok.injEq, Prod.mk.injEq] at hsc
            exact Or.inl ⟨hlp, hsc.1.symm, hsc.2.1.symm, hsc.2.2.symm⟩
          next hlp =>
            split at hsc
            next node hnode =>
              simp only [Except.ok.injEq, Prod.mk.injEq] at hsc
              exact Or.inr ⟨hlp, node, hnode, hsc.1.symm, hsc.2.1.symm, hsc.2.2.symm⟩
            · exact absurd hsc (by simp)
        · simp only [Except.ok.injEq] at h
          exact h.symm

theorem addGrow_last_point (t2 : KdTree) : (addGrow t2).last_point = t2.last_point := by
  unfold addGrow
  split <;> rfl

theorem addGrow_dims (t2 : KdTree) : (addGrow t2).num_dimensions = t2.num_dimensions := by
  unfold addGrow
  split <;> rfl

theorem addGrow_max_levels (t2 : KdTree) : (addGrow t2).max_levels = t2.max_levels := by
  unfold addGrow
  split <;> rfl

theorem addGrow_length (t2 : KdTree) :
    (addGrow t2).tree.length =
      (if t2.tree.length - 1 ≤ t2.last_point then t2.last_point * 2 else t2.tree.length) := by
  unfold addGrow
  split
  next hc => simp only [length_resizeTo]
  next hc => rfl

theorem addResult_last_point (t1 : KdTree) (q : List ℚ) (pi : Nat) (ct : NodeType)
    (cd cl : Nat) : (addResult t1 q pi ct cd cl).last_point = t1.last_point + 1 := by
  unfold addResult
  rw [show ({ addGrow { t1 with max_levels := max t1.max_levels cl } with
      tree := setAt (addGrow { t1 with max_levels := max t1.max_levels cl }).tree
        (addGrow { t1 with max_levels := max t1.max_levels cl }).last_point
        (some { point := q, child_type := ct, parent := pi, left_child := 0,
                right_child := 0, dimension := cd, level := cl })
      last_point := (addGrow { t1 with max_levels := max t1.max_levels cl }).last_point + 1
      } : KdTree).last_point =
    (addGrow { t1 with max_levels := max t1.max_levels cl }).last_point + 1 from rfl]
  rw [addGrow_last_point]

theorem addResult_length (t1 : KdTree) (q : List ℚ) (pi : Nat) (ct : NodeType)
    (cd cl : Nat) :
    (addResult t1 q pi ct cd cl).tree.length =
      (if t1.tree.length - 1 ≤ t1.last_point then t1.last_point * 2 else t1.tree.length) := by
  unfold addResult
  show (setAt (addGrow { t1 with max_levels := max t1.max_levels cl }).tree
      (addGrow { t1 with max_levels := max t1.max_levels cl }).last_point _).length = _
  rw [length_setAt, addGrow_length]

theorem addResult_dims (t1 : KdTree) (q : List ℚ) (pi : Nat) (ct : NodeType)
    (cd cl : Nat) : (addResult t1 q pi ct cd cl).num_dimensions = t1.num_dimensions := by
  unfold addResult
  show (addGrow { t1 with max_levels := max t1.max_levels cl }).num_dimensions = _
  rw [addGrow_dims]

theorem addResult_max_levels (t1 : KdTree) (q : List ℚ) (pi : Nat) (ct : NodeType)
    (cd cl : Nat) :
    (addResult t1 q pi ct cd cl).max_levels = max t1.max_levels cl := by
  unfold addResult
  show (addGrow { t1 with max_levels := max t1.max_levels cl }).max_levels = _
  rw [addGrow_max_levels]

theorem linkChild_length (t : KdTree) (pi : Nat) (node : Node) (ct : NodeType) :
    (linkChild t pi node ct).tree.length = t.tree.length := by
  unfold linkChild
  exact length_setAt ..

theorem linkChild_last_point (t : KdTree) (pi : Nat) (node : Node) (ct : NodeType) :
    (linkChild t pi node ct).last_point = t.last_point := rfl

theorem linkChild_dims (t : KdTree) (pi : Nat) (node : Node) (ct : NodeType) :
    (linkChild t pi node ct).num_dimensions = t.num_dimensions := rfl

theorem linkChild_max_levels (t : KdTree) (pi : Nat) (node : Node) (ct : NodeType) :
    (linkChild t pi node ct).max_levels = t.max_levels := rfl


/-! ## Reading the arena after an insertion -/

/-- The parent node after its child link is set to the freshly allocated
slot. -/
def linkedNode (lp : Nat) (node : Node) (ct : NodeType) : Node :=
  match ct with
  | NodeType.leftChild => { node with left_child := lp }
  | NodeType.rightChild => { node with right_child := lp }
  | NodeType.rootNode => node

theorem linkChild_eq (t : KdTree) (pi : Nat) (node : Node) (ct : NodeType) :
    linkChild t pi node ct =
      { t with tree := setAt t.tree pi (some (linkedNode t.last_point node ct)) } := by
  cases ct <;> rfl

theorem arenaGet_linkChild (t : KdTree) (pi : Nat) (node : Node) (ct : NodeType)
    (i : Nat) :
    arenaGet (linkChild t pi node ct) i =
      (if i = pi ∧ pi < t.tree.length then some (linkedNode t.last_point node ct)
       else arenaGet t i) := by
  rw [linkChild_eq]
  show lookupD (setAt t.tree pi _) i none = _
  split
  next h =>
    rw [h.1]
    exact lookupD_setAt_self none t.tree pi _ h.2
  next h =>
    by_cases hip : i = pi
    · subst hip
      have hlen : ¬ i < t.tree.length := fun hc => h ⟨rfl, hc⟩
      rw [lookupD_ge_length none _ i (by rw [length_setAt]; omega)]
      show (none : Option Node) = arenaGet t i
      rw [arenaGet, lookupD_ge_length none _ i (by omega)]
    · exact lookupD_setAt_ne none t.tree pi i _ (fun hc => hip hc.symm)

/-- The node allocated by `addResult`. -/
def freshNode (q : List ℚ) (pi : Nat) (ct : NodeType) (cd cl : Nat) : Node :=
  { point := q, child_type := ct, parent := pi, left_child := 0, right_child := 0,
    dimension := cd, level := cl }

theorem addGrow_get (t2 : KdTree) (h1 : 1 ≤ t2.last_point) (i : Nat) :
    arenaGet (addGrow t2) i = arenaGet t2 i := by
  unfold addGrow
  split
  next hc =>
    show lookupD (resizeTo t2.tree (t2.last_point * 2)) i none = _
    exact lookupD_resizeTo_ge t2.tree _ i (by omega)
  next hc => rfl

theorem addGrow_len_gt (t2 : KdTree) (h1 : 1 ≤ t2.last_point)
    (h2 : t2.last_point + 1 ≤ t2.tree.length) :
    t2.last_point < (addGrow t2).tree.length := by
  rw [addGrow_length]
  split <;> omega

theorem arenaGet_addResult (t1 : KdTree) (q : List ℚ) (pi : Nat) (ct : NodeType)
    (cd cl : Nat) (h1 : 1 ≤ t1.last_point) (h2 : t1.last_point + 1 ≤ t1.tree.length)
    (i : Nat) :
    arenaGet (addResult t1 q pi ct cd cl) i =
      (if i = t1.last_point then some (freshNode q pi ct cd cl) else arenaGet t1 i) := by
  have hml : ({ t1 with max_levels := max t1.max_levels cl } : KdTree).last_point
      = t1.last_point := rfl
  have hml2 : ({ t1 with max_levels := max t1.max_levels cl } : KdTree).tree = t1.tree := rfl
  unfold addResult
  show lookupD (setAt (addGrow _).tree (addGrow _).last_point _) i none = _
  split
  next h =>
    subst h
    rw [show (addGrow { t1 with max_levels := max t1.max_levels cl }).last_point
        = t1.last_point from by rw [addGrow_last_point]]
    exact lookupD_setAt_self none _ _ _ (by
      have := addGrow_len_gt { t1 with max_levels := max t1.max_levels cl }
        (by rw [hml]; omega) (by rw [hml, hml2]; omega)
      rw [hml] at this
      exact this)
  next h =>
    rw [lookupD_setAt_ne none _ _ _ _ (by rw [addGrow_last_point]; exact fun hc => h hc.symm)]
    show arenaGet (addGrow _) i = _
    rw [addGrow_get _ (by rw [hml]; omega)]
    rfl

/-- Chains only read parent links; two trees whose parent views agree below
`t.last_point` have the same chains there. -/
theorem chainAux_congr {t t' : KdTree} (hInv : Inv t)
    (hagree : ∀ i, i < t.last_point →
      (arenaGet t' i).map Node.parent = (arenaGet t i).map Node.parent) :
    ∀ fuel j, j < t.last_point → chainAux t' fuel j = chainAux t fuel j := by
  intro fuel
  induction fuel with
  | zero => intro j hj; rfl
  | succ f ih =>
    intro j hj
    rcases hget : arenaGet t j with _ | nd
    · have : arenaGet t' j = none := by
        have := hagree j hj
        rw [hget] at this
        simpa using this
      simp [chainAux, hget, this]
    · rcases h' : arenaGet t' j with _ | nd'
      · have := hagree j hj
        rw [hget, h'] at this
        simp at this
      · have hpar : nd'.parent = nd.parent := by
          have := hagree j hj
          rw [hget, h'] at this
          simpa using this
        have hplt : nd.parent < j := parent_lt_self hInv hget
        simp only [chainAux, hget, h', hpar]
        rw [ih nd.parent (by omega)]

/-! ## The invariant holds for `new` and is preserved by `add_point` -/

theorem arenaGet_new (d i : Nat) : arenaGet (new d) i = none := by
  show lookupD (List.replicate 100 none) i none = none
  rw [lookupD_replicate]
  split <;> rfl

theorem Inv_new (d : Nat) : Inv (new d) where
  lp_pos := by simp [new]
  len_big := by simp [new]
  len3 := by simp [new]
  occ_iff := by
    intro i
    rw [arenaGet_new]
    simp only [Option.isSome_none, Bool.false_eq_true, false_iff, new]
    omega
  root_fields := by intro nd h; rw [arenaGet_new] at h; cases h
  root_ct := by intro i nd h; rw [arenaGet_new] at h; cases h
  point_len := by intro i nd h; rw [arenaGet_new] at h; cases h
  level_le := by intro i nd h; rw [arenaGet_new] at h; cases h
  parent_lt := by intro i nd h; rw [arenaGet_new] at h; cases h
  parent_link := by intro i nd h; rw [arenaGet_new] at h; cases h
  left_link := by intro i nd h; rw [arenaGet_new] at h; cases h
  right_link := by intro i nd h; rw [arenaGet_new] at h; cases h
  ml_wit := Or.inl rfl
  bst_left := by intro i nd j jnd h; rw [arenaGet_new] at h; cases h
  bst_right := by intro i nd j jnd h; rw [arenaGet_new] at h; cases h

theorem arenaGet_with_capacity (d c i : Nat) :
    arenaGet (with_capacity d c) i = none := by
  show lookupD (List.replicate c none) i none = none
  rw [lookupD_replicate]
  split <;> rfl

theorem Inv_with_capacity (d c : Nat) (hc : 3 ≤ c) : Inv (with_capacity d c) where
  lp_pos := by simp [with_capacity]
  len_big := by simp [with_capacity]; omega
  len3 := by simp [with_capacity]; omega
  occ_iff := by
    intro i
    rw [arenaGet_with_capacity]
    simp only [Option.isSome_none, Bool.false_eq_true, false_iff, with_capacity]
    omega
  root_fields := by intro nd h; rw [arenaGet_with_capacity] at h; cases h
  root_ct := by intro i nd h; rw [arenaGet_with_capacity] at h; cases h
  point_len := by intro i nd h; rw [arenaGet_with_capacity] at h; cases h
  level_le := by intro i nd h; rw [arenaGet_with_capacity] at h; cases h
  parent_lt := by intro i nd h; rw [arenaGet_with_capacity] at h; cases h
  parent_link := by intro i nd h; rw [arenaGet_with_capacity] at h; cases h
  left_link := by intro i nd h; rw [arenaGet_with_capacity] at h; cases h
  right_link := by intro i nd h; rw [arenaGet_with_capacity] at h; cases h
  ml_wit := Or.inl rfl
  bst_left := by intro i nd j jnd h; rw [arenaGet_with_capacity] at h; cases h
  bst_right := by intro i nd j jnd h; rw [arenaGet_with_capacity] at h; cases h

theorem linkedNode_parent (lp : Nat) (node : Node) (ct : NodeType) :
    (linkedNode lp node ct).parent = node.parent := by cases ct <;> rfl

theorem linkedNode_child_type (lp : Nat) (node : Node) (ct : NodeType) :
    (linkedNode lp node ct).child_type = node.child_type := by cases ct <;> rfl

theorem linkedNode_dimension (lp : Nat) (node : Node) (ct : NodeType) :
    (linkedNode lp node ct).dimension = node.dimension := by cases ct <;> rfl

theorem linkedNode_level (lp : Nat) (node : Node) (ct : NodeType) :
    (linkedNode lp node ct).level = node.level := by cases ct <;> rfl

theorem linkedNode_point (lp : Nat) (node : Node) (ct : NodeType) :
    (linkedNode lp node ct).point = node.point := by cases ct <;> rfl

theorem chain_root {t : KdTree} (hInv : Inv t) {nd : Node}
    (h : arenaGet t 1 = some nd) : chain t 1 = [1] := by
  rw [chain_cons hInv h, (hInv.root_fields nd h).1, chain_nil (arena_zero_none hInv)]

/-- A node whose parent lies on a root-to-leaf descent path was entered on
the side the query routes to: every link step into the descent path agrees
with the `greater` comparison at its parent. -/
theorem route_side {t : KdTree} (hInv : Inv t) {q : List ℚ} {pi : Nat} {seg : List Nat}
    (hchain : chain t pi = seg ++ chain t (1 : Nat))
    (hseg : ∀ c ∈ seg, StepOK t q c)
    {i c : Nat} {ndI cnd : Node} (hi : arenaGet t i = some ndI)
    (hc : arenaGet t c = some cnd) (hcp : cnd.parent = i) (hmem : c ∈ chain t pi) :
    (cnd.child_type = NodeType.leftChild → greater ndI.point q ndI.dimension = true) ∧
    (cnd.child_type = NodeType.rightChild → greater ndI.point q ndI.dimension = false) := by
  rw [hchain] at hmem
  rcases List.mem_append.1 hmem with hmem | hmem
  · obtain ⟨cnd', pnd, hc', hp', hside⟩ := hseg c hmem
    rw [hc] at hc'
    cases hc'
    rw [hcp, hi] at hp'
    cases hp'
    rcases hside with ⟨hct, hg⟩ | ⟨hct, hg⟩
    · refine ⟨fun _ => hg, fun hr => ?_⟩
      rw [hct] at hr
      exact NodeType.noConfusion hr
    · refine ⟨fun hl => ?_, fun _ => hg⟩
      rw [hct] at hl
      exact NodeType.noConfusion hl
  · -- c lies in the chain of the root: c = 1, whose parent is the absent slot 0
    have hocc1 : (arenaGet t 1).isSome := by
      rcases h1 : arenaGet t 1 with _ | rnd
      · rw [chain_nil h1] at hmem
        simp at hmem
      · simp
    obtain ⟨rnd, hrnd⟩ := Option.isSome_iff_exists.1 hocc1
    rw [chain_root hInv hrnd] at hmem
    have hc1 : c = 1 := by simpa using hmem
    subst hc1
    rw [hrnd] at hc
    cases hc
    rw [(hInv.root_fields cnd hrnd).1] at hcp
    rw [← hcp, arena_zero_none hInv] at hi
    cases hi

theorem greater_eq_true_iff (a b : List ℚ) (d : Nat) :
    greater a b d = true ↔ lookupD b d 0 < lookupD a d 0 := by
  simp [greater]

theorem greater_eq_false_iff (a b : List ℚ) (d : Nat) :
    greater a b d = false ↔ lookupD a d 0 ≤ lookupD b d 0 := by
  simp [greater]

theorem Inv_preserve_root {t : KdTree} {q : List ℚ} (hInv : Inv t)
    (hdim : dimensions q = t.num_dimensions) (hlp1 : t.last_point = 1) :
    Inv (addResult t q 0 NodeType.rootNode 0 0) := by
  have hnone : ∀ i, arenaGet t i = none := by
    intro i
    rcases hg : arenaGet t i with _ | nd
    · rfl
    · have := (hInv.occ_iff i).1 (by simp [hg])
      omega
  have hml0 : t.max_levels = 0 := by
    rcases hInv.ml_wit with h | ⟨i, nd, hnd, -⟩
    · exact h
    · rw [hnone i] at hnd
      cases hnd
  have hget : ∀ i, arenaGet (addResult t q 0 NodeType.rootNode 0 0) i =
      if i = 1 then some (freshNode q 0 NodeType.rootNode 0 0) else none := by
    intro i
    rw [arenaGet_addResult t q 0 NodeType.rootNode 0 0 (by omega)
      (by have := hInv.len_big; omega) i, hlp1]
    by_cases h : i = 1
    · simp [h]
    · simp [h, hnone]
  have hlp' : (addResult t q 0 NodeType.rootNode 0 0).last_point = 2 := by
    rw [addResult_last_point, hlp1]
  have hlen' : (addResult t q 0 NodeType.rootNode 0 0).tree.length = t.tree.length := by
    rw [addResult_length]
    have := hInv.len3
    rw [if_neg (by omega)]
  refine { lp_pos := ?_, len_big := ?_, len3 := ?_, occ_iff := ?_, root_fields := ?_,
           root_ct := ?_, point_len := ?_, level_le := ?_, parent_lt := ?_,
           parent_link := ?_, left_link := ?_, right_link := ?_, ml_wit := ?_,
           bst_left := ?_, bst_right := ?_ }
  · rw [hlp']
    omega
  · rw [hlp', hlen']
    exact hInv.len3
  · rw [hlen']
    exact hInv.len3
  · intro i
    rw [hget, hlp']
    by_cases h : i = 1
    · subst h
      simp
    · simp [h]
      omega
  · intro nd h
    rw [hget, if_pos rfl] at h
    cases h
    exact ⟨rfl, rfl, rfl, rfl⟩
  · intro i nd h hct
    rw [hget] at h
    split at h
    next h1 => exact h1
    next h1 => cases h
  · intro i nd h
    rw [hget] at h
    split at h
    · cases h
      show q.length = _
      rw [addResult_dims]
      exact hdim
    · cases h
  · intro i nd h
    rw [hget] at h
    split at h
    · cases h
      exact Nat.zero_le _
    · cases h
  · intro i nd h hne
    rw [hget] at h
    split at h
    next h1 => exact absurd h1 hne
    next h1 => cases h
  · intro i nd h hne
    rw [hget] at h
    split at h
    next h1 => exact absurd h1 hne
    next h1 => cases h
  · intro i nd h h0
    rw [hget] at h
    split at h
    · cases h
      exact absurd rfl h0
    · cases h
  · intro i nd h h0
    rw [hget] at h
    split at h
    · cases h
      exact absurd rfl h0
    · cases h
  · left
    rw [addResult_max_levels, hml0]
    simp
  · intro i nd j jnd hi hj hsub
    rw [hget] at hi
    split at hi
    · cases hi
      exact absurd rfl hsub.1
    · cases hi
  · intro i nd j jnd hi hj hsub
    rw [hget] at hi
    split at hi
    · cases hi
      exact absurd rfl hsub.1
    · cases hi

theorem Inv_preserve_nonroot {t : KdTree} {q : List ℚ} (hInv : Inv t)
    (hdim : dimensions q = t.num_dimensions) (hlpne : t.last_point ≠ 1)
    {pi : Nat} {ct : NodeType} {node : Node}
    (hnode : arenaGet t pi = some node)
    (hgd : go_down t q 1 = some (Except.ok (pi, ct))) :
    Inv (addResult (linkChild t pi node ct) q pi ct
      ((node.dimension + 1) % t.num_dimensions) (node.level + 1)) := by
  have hlp2 : 2 ≤ t.last_point := by
    have := hInv.lp_pos
    omega
  have hocc1 : (arenaGet t 1).isSome := (hInv.occ_iff 1).2 ⟨le_refl 1, by omega⟩
  obtain ⟨pi', ct', seg, hrun, hpiOcc, hchain, hseg, hleaf⟩ := go_down_spec hInv q hocc1
  rw [hgd] at hrun
  simp only [Option.some.injEq, Except.ok.injEq, Prod.mk.injEq] at hrun
  obtain ⟨rfl, rfl⟩ := hrun
  obtain ⟨pn, hpn, hcases⟩ := hleaf
  rw [hnode] at hpn
  cases hpn
  obtain ⟨rnd, hrnd⟩ := Option.isSome_iff_exists.1 hocc1
  have hpi1 : 1 ≤ pi := occ_one_le hInv hnode
  have hpiL : pi < t.last_point := occ_lt_lp hInv hnode
  have hpiLen : pi < t.tree.length := lookupD_some_lt_length _ _ _ hnode
  set L := t.last_point with hLdef
  set cd := (node.dimension + 1) % t.num_dimensions with hcddef
  set cl := node.level + 1 with hcldef
  set LN := linkedNode L node ct with hLNdef
  set FN := freshNode q pi ct cd cl with hFNdef
  set t' := addResult (linkChild t pi node ct) q pi ct cd cl with htdef
  have ht1get : ∀ i, arenaGet (linkChild t pi node ct) i =
      if i = pi then some LN else arenaGet t i := by
    intro i
    rw [arenaGet_linkChild]
    by_cases h : i = pi
    · rw [if_pos ⟨h, hpiLen⟩, if_pos h]
    · rw [if_neg (fun hc => h hc.1), if_neg h]
  have hget : ∀ i, arenaGet t' i =
      if i = L then some FN
      else if i = pi then some LN else arenaGet t i := by
    intro i
    rw [htdef, arenaGet_addResult _ q pi ct cd cl
      (by rw [linkChild_last_point]; omega)
      (by rw [linkChild_last_point, linkChild_length]; exact hInv.len_big) i,
      linkChild_last_point]
    by_cases h : i = L
    · rw [if_pos h, if_pos h]
    · rw [if_neg h, if_neg h, ht1get]
  have hlp' : t'.last_point = L + 1 := by
    rw [htdef, addResult_last_point, linkChild_last_point]
  have hdims' : t'.num_dimensions = t.num_dimensions := by
    rw [htdef, addResult_dims, linkChild_dims]
  have hml' : t'.max_levels = max t.max_levels cl := by
    rw [htdef, addResult_max_levels, linkChild_max_levels]
  have hlen' : t'.tree.length = if t.tree.length - 1 ≤ L then L * 2 else t.tree.length := by
    rw [htdef, addResult_length, linkChild_length, linkChild_last_point]
  have hLNparent : LN.parent = node.parent := linkedNode_parent ..
  have hLNct : LN.child_type = node.child_type := linkedNode_child_type ..
  have hLNdim : LN.dimension = node.dimension := linkedNode_dimension ..
  have hLNlevel : LN.level = node.level := linkedNode_level ..
  have hLNpoint : LN.point = node.point := linkedNode_point ..
  have hLN : (ct = NodeType.leftChild ∧ greater node.point q node.dimension = true ∧
      LN.left_child = L ∧ node.left_child = 0 ∧ LN.right_child = node.right_child) ∨
    (ct = NodeType.rightChild ∧ greater node.point q node.dimension = false ∧
      LN.right_child = L ∧ node.right_child = 0 ∧ LN.left_child = node.left_child) := by
    rcases hcases with ⟨hct, hg, h0⟩ | ⟨hct, hg, h0⟩
    · subst hct
      exact Or.inl ⟨rfl, hg, rfl, h0, rfl⟩
    · subst hct
      exact Or.inr ⟨rfl, hg, rfl, h0, rfl⟩
  have hcase3 : ∀ i ndi, arenaGet t' i = some ndi →
      (i = L ∧ ndi = FN) ∨ (i ≠ L ∧ pi = i ∧ ndi = LN) ∨
      (i ≠ L ∧ i ≠ pi ∧ arenaGet t i = some ndi) := by
    intro i ndi h
    rw [hget] at h
    split at h
    next h1 =>
      cases h
      exact Or.inl ⟨h1, rfl⟩
    next h1 =>
      split at h
      next h2 =>
        cases h
        exact Or.inr (Or.inl ⟨h1, h2.symm, rfl⟩)
      next h2 => exact Or.inr (Or.inr ⟨h1, h2, h⟩)
  have hagree : ∀ i, i < L →
      (arenaGet t' i).map Node.parent = (arenaGet t i).map Node.parent := by
    intro i hi
    rw [hget, if_neg (by omega)]
    by_cases hip : i = pi
    · subst hip
      rw [if_pos rfl, hnode]
      simp [hLNparent]
    · rw [if_neg hip]
  have hchainEq : ∀ j, j < L → chain t' j = chain t j := by
    intro j hj
    exact chainAux_congr hInv hagree j j hj
  have hchainNew : chain t' L = L :: chain t pi := by
    obtain ⟨L0, hL0⟩ : ∃ L0, L = L0 + 1 := ⟨L - 1, by omega⟩
    rw [chain, hL0]
    have hgetL : arenaGet t' (L0 + 1) = some FN := by
      rw [hget, ← hL0, if_pos rfl]
    simp only [chainAux, hgetL]
    rw [show FN.parent = pi from rfl]
    rw [chainAux_congr hInv hagree L0 pi (by omega),
      chainAux_stable hInv pi L0 (by omega), ← hL0]
  have hoccLt : ∀ j ndj, arenaGet t j = some ndj → j < L := fun j ndj h => occ_lt_lp hInv h
  refine { lp_pos := ?_, len_big := ?_, len3 := ?_, occ_iff := ?_, root_fields := ?_,
           root_ct := ?_, point_len := ?_, level_le := ?_, parent_lt := ?_,
           parent_link := ?_, left_link := ?_, right_link := ?_, ml_wit := ?_,
           bst_left := ?_, bst_right := ?_ }
  · rw [hlp']
    omega
  · rw [hlp', hlen']
    have h3 := hInv.len3
    have hb := hInv.len_big
    split <;> omega
  · rw [hlen']
    have h3 := hInv.len3
    have hb := hInv.len_big
    split <;> omega
  · intro i
    rw [hget, hlp']
    by_cases h : i = L
    · subst h
      simp
      omega
    · rw [if_neg h]
      by_cases hip : i = pi
      · subst hip
        rw [if_pos rfl]
        simp
        omega
      · rw [if_neg hip, hInv.occ_iff i]
        omega
  · intro nd h
    rw [hget, if_neg (by omega)] at h
    by_cases hip : (1 : Nat) = pi
    · rw [if_pos hip] at h
      cases h
      have hn1 : arenaGet t 1 = some node := by
        rw [hip]
        exact hnode
      have := hInv.root_fields node hn1
      exact ⟨hLNparent ▸ this.1, hLNct ▸ this.2.1, hLNdim ▸ this.2.2.1,
        hLNlevel ▸ this.2.2.2⟩
    · rw [if_neg hip] at h
      exact hInv.root_fields nd h
  · intro i nd h hct
    rcases hcase3 i nd h with ⟨hi, rfl⟩ | ⟨hi, rfl, rfl⟩ | ⟨hi, hip, hold⟩
    · rcases hLN with ⟨hc, -⟩ | ⟨hc, -⟩
      · rw [show FN.child_type = ct from rfl, hc] at hct
        exact NodeType.noConfusion hct
      · rw [show FN.child_type = ct from rfl, hc] at hct
        exact NodeType.noConfusion hct
    · rw [hLNct] at hct
      exact hInv.root_ct pi node hnode hct
    · exact hInv.root_ct i nd hold hct
  · intro i nd h
    rw [hdims']
    rcases hcase3 i nd h with ⟨hi, rfl⟩ | ⟨hi, rfl, rfl⟩ | ⟨hi, hip, hold⟩
    · exact hdim
    · rw [hLNpoint]
      exact hInv.point_len pi node hnode
    · exact hInv.point_len i nd hold
  · intro i nd h
    rw [hml']
    rcases hcase3 i nd h with ⟨hi, rfl⟩ | ⟨hi, rfl, rfl⟩ | ⟨hi, hip, hold⟩
    · exact le_max_right ..
    · rw [hLNlevel]
      exact le_trans (hInv.level_le pi node hnode) (le_max_left ..)
    · exact le_trans (hInv.level_le i nd hold) (le_max_left ..)
  · intro i nd h hne
    rcases hcase3 i nd h with ⟨hi, rfl⟩ | ⟨hi, rfl, rfl⟩ | ⟨hi, hip, hold⟩
    · subst hi
      exact ⟨by show pi < L; omega, by show 1 ≤ pi; omega⟩
    · rw [hLNparent]
      exact hInv.parent_lt pi node hnode hne
    · exact hInv.parent_lt i nd hold hne
  · intro i nd h hne
    rcases hcase3 i nd h with ⟨hi, rfl⟩ | ⟨hi, rfl, rfl⟩ | ⟨hi, hip, hold⟩
    · -- the fresh node: its parent is `pi`, freshly linked
      subst hi
      refine ⟨LN, ?_, ?_, ?_, ?_⟩
      · rw [hget, show FN.parent = pi from rfl, if_neg (by omega), if_pos rfl]
      · rw [hLNlevel]
        rfl
      · rw [hLNdim, hdims']
        rfl
      · rcases hLN with ⟨hc, -, hl, -, -⟩ | ⟨hc, -, hl, -, -⟩
        · exact Or.inl ⟨by rw [show FN.child_type = ct from rfl, hc], hl⟩
        · exact Or.inr ⟨by rw [show FN.child_type = ct from rfl, hc], hl⟩
    · -- the linked parent node itself
      obtain ⟨pnd, hpnd, hl1, hl2, hl3⟩ := hInv.parent_link pi node hnode hne
      have hppi : node.parent < pi := parent_lt_self hInv hnode
      refine ⟨pnd, ?_, ?_, ?_, ?_⟩
      · rw [hget, hLNparent, if_neg (by omega), if_neg (by omega)]
        exact hpnd
      · rw [hLNlevel]
        exact hl1
      · rw [hLNdim, hdims']
        exact hl2
      · rw [hLNct]
        exact hl3
    · -- an untouched node
      obtain ⟨pnd, hpnd, hl1, hl2, hl3⟩ := hInv.parent_link i nd hold hne
      have hple : nd.parent < i := parent_lt_self hInv hold
      have hiL : i < L := hoccLt i nd hold
      have hi1 : 1 ≤ i := occ_one_le hInv hold
      by_cases hpp : nd.parent = pi
      · rw [hpp, hnode] at hpnd
        cases hpnd
        refine ⟨LN, ?_, ?_, ?_, ?_⟩
        · rw [hget, hpp, if_neg (by omega), if_pos rfl]
        · rw [hLNlevel]
          exact hl1
        · rw [hLNdim, hdims']
          exact hl2
        · rcases hLN with ⟨hc, -, -, h0, hr⟩ | ⟨hc, -, -, h0, hr⟩
          · rcases hl3 with ⟨hct, hlink⟩ | ⟨hct, hlink⟩
            · rw [h0] at hlink
              exact absurd hlink (by omega)
            · exact Or.inr ⟨hct, by rw [hr]; exact hlink⟩
          · rcases hl3 with ⟨hct, hlink⟩ | ⟨hct, hlink⟩
            · exact Or.inl ⟨hct, by rw [hr]; exact hlink⟩
            · rw [h0] at hlink
              exact absurd hlink (by omega)
      · refine ⟨pnd, ?_, hl1, by rw [hdims']; exact hl2, hl3⟩
        rw [hget, if_neg (by omega), if_neg hpp]
        exact hpnd
  · intro i nd h h0
    rcases hcase3 i nd h with ⟨hi, rfl⟩ | ⟨hi, rfl, rfl⟩ | ⟨hi, hip, hold⟩
    · exact absurd rfl h0
    · rcases hLN with ⟨hc, -, hl, hz, hr⟩ | ⟨hc, -, hl, hz, hr⟩
      · rw [hl]
        refine ⟨by omega, FN, ?_, rfl, by rw [show FN.child_type = ct from rfl, hc]⟩
        rw [hget, if_pos rfl]
      · rw [hr] at h0 ⊢
        obtain ⟨hlt, c, hcnd, hcp, hct2⟩ := hInv.left_link pi node hnode h0
        have hcL : node.left_child < L := hoccLt _ c hcnd
        refine ⟨hlt, c, ?_, hcp, hct2⟩
        rw [hget, if_neg (by omega), if_neg (by omega)]
        exact hcnd
    · obtain ⟨hlt, c, hcnd, hcp, hct2⟩ := hInv.left_link i nd hold h0
      have hcL : nd.left_child < L := hoccLt _ c hcnd
      refine ⟨hlt, ?_⟩
      by_cases hcpi : nd.left_child = pi
      · rw [hcpi, hnode] at hcnd
        cases hcnd
        exact ⟨LN, by rw [hget, if_neg (by omega), hcpi, if_pos rfl],
          by rw [hLNparent]; exact hcp, by rw [hLNct]; exact hct2⟩
      · exact ⟨c, by rw [hget, if_neg (by omega), if_neg hcpi]; exact hcnd, hcp, hct2⟩
  · intro i nd h h0
    rcases hcase3 i nd h with ⟨hi, rfl⟩ | ⟨hi, rfl, rfl⟩ | ⟨hi, hip, hold⟩
    · exact absurd rfl h0
    · rcases hLN with ⟨hc, -, hl, hz, hr⟩ | ⟨hc, -, hl, hz, hr⟩
      · rw [hr] at h0 ⊢
        obtain ⟨hlt, c, hcnd, hcp, hct2⟩ := hInv.right_link pi node hnode h0
        have hcL : node.right_child < L := hoccLt _ c hcnd
        refine ⟨hlt, c, ?_, hcp, hct2⟩
        rw [hget, if_neg (by omega), if_neg (by omega)]
        exact hcnd
      · rw [hl]
        refine ⟨by omega, FN, ?_, rfl, by rw [show FN.child_type = ct from rfl, hc]⟩
        rw [hget, if_pos rfl]
    · obtain ⟨hlt, c, hcnd, hcp, hct2⟩ := hInv.right_link i nd hold h0
      have hcL : nd.right_child < L := hoccLt _ c hcnd
      refine ⟨hlt, ?_⟩
      by_cases hcpi : nd.right_child = pi
      · rw [hcpi, hnode] at hcnd
        cases hcnd
        exact ⟨LN, by rw [hget, if_neg (by omega), hcpi, if_pos rfl],
          by rw [hLNparent]; exact hcp, by rw [hLNct]; exact hct2⟩
      · exact ⟨c, by rw [hget, if_neg (by omega), if_neg hcpi]; exact hcnd, hcp, hct2⟩
  · rw [hml']
    rcases Nat.le_total t.max_levels cl with hle | hle
    · right
      exact ⟨L, FN, by rw [hget, if_pos rfl], by
        show cl = _
        omega⟩
    · right
      have hml1 : 1 ≤ t.max_levels := by
        rw [hcldef] at hle
        omega
      rcases hInv.ml_wit with h | ⟨i, ndw, hndw, hwl⟩
      · omega
      · have hiL : i < L := hoccLt i ndw hndw
        by_cases hip : i = pi
        · rw [hip, hnode] at hndw
          cases hndw
          exact ⟨pi, LN, by rw [hget, if_neg (by omega), if_pos rfl],
            by rw [hLNlevel, hwl]; omega⟩
        · exact ⟨i, ndw, by rw [hget, if_neg (by omega), if_neg hip]; exact hndw,
            by rw [hwl]; omega⟩
  · -- bst_left
    intro i ndi j jnd hi hj hsub
    obtain ⟨hsub0, hsubm⟩ := hsub
    rcases hcase3 i ndi hi with ⟨hiL, rfl⟩ | ⟨hiL, rfl, rfl⟩ | ⟨hiL, hip, hiold⟩
    · exact absurd rfl (by rw [show FN.left_child = 0 from rfl] at hsub0; exact hsub0)
    · -- i = pi, node ndi = LN
      rw [hLNdim, hLNpoint]
      rcases hLN with ⟨hc, hg, hl, hz, hr⟩ | ⟨hc, hg, hl, hz, hr⟩
      · -- ct = left: left child is the fresh slot L
        rw [hl] at hsubm
        rcases hcase3 j jnd hj with ⟨hjL, rfl⟩ | ⟨hjL, rfl, rfl⟩ | ⟨hjL, hjp, hjold⟩
        · rw [show FN.point = q from rfl]
          exact (greater_eq_true_iff ..).1 hg
        · rw [hchainEq pi (by omega)] at hsubm
          have := (mem_chain_occ hInv pi L hsubm).2
          omega
        · rw [hchainEq j (hoccLt j jnd hjold)] at hsubm
          have := (mem_chain_occ hInv j L hsubm).2
          have := hoccLt j jnd hjold
          omega
      · -- ct = right: left child is the old one
        rw [hr] at hsub0 hsubm
        rcases hcase3 j jnd hj with ⟨hjL, rfl⟩ | ⟨hjL, rfl, rfl⟩ | ⟨hjL, hjp, hjold⟩
        · -- the fresh node in the old left subtree of pi: impossible
          rw [hjL, hchainNew] at hsubm
          rcases List.mem_cons.1 hsubm with he | hm
          · obtain ⟨-, c2, hc2, -, -⟩ := hInv.left_link pi node hnode hsub0
            have := hoccLt _ c2 hc2
            exact absurd he (by omega)
          · obtain ⟨hlt2, -⟩ := hInv.left_link pi node hnode hsub0
            exact absurd ((mem_chain_occ hInv pi _ hm).2) (by omega)
        · have := (mem_chain_occ hInv pi node.left_child (by
            rw [hchainEq pi (by omega)] at hsubm
            exact hsubm)).2
          obtain ⟨hlt2, -⟩ := hInv.left_link pi node hnode hsub0
          omega
        · rw [hchainEq j (hoccLt j jnd hjold)] at hsubm
          exact hInv.bst_left pi node j jnd hnode hjold ⟨hsub0, hsubm⟩
    · -- old node i
      rcases hcase3 j jnd hj with ⟨hjL, rfl⟩ | ⟨hjL, rfl, rfl⟩ | ⟨hjL, hjp, hjold⟩
      · -- j is the fresh node: use the descent path comparisons
        obtain ⟨hlt2, c2, hc2, hc2p, hc2t⟩ := hInv.left_link i ndi hiold hsub0
        rw [hjL, hchainNew] at hsubm
        rcases List.mem_cons.1 hsubm with he | hm
        · have := hoccLt _ c2 hc2
          omega
        · rw [show FN.point = q from rfl]
          exact (greater_eq_true_iff ..).1
            ((route_side hInv hchain hseg hiold hc2 hc2p hm).1 hc2t)
      · rw [hLNpoint]
        rw [hchainEq pi (by omega)] at hsubm
        exact hInv.bst_left i ndi pi node hiold hnode ⟨hsub0, hsubm⟩
      · rw [hchainEq j (hoccLt j jnd hjold)] at hsubm
        exact hInv.bst_left i ndi j jnd hiold hjold ⟨hsub0, hsubm⟩
  · -- bst_right
    intro i ndi j jnd hi hj hsub
    obtain ⟨hsub0, hsubm⟩ := hsub
    rcases hcase3 i ndi hi with ⟨hiL, rfl⟩ | ⟨hiL, rfl, rfl⟩ | ⟨hiL, hip, hiold⟩
    · exact absurd rfl (by rw [show FN.right_child = 0 from rfl] at hsub0; exact hsub0)
    · rw [hLNdim, hLNpoint]
      rcases hLN with ⟨hc, hg, hl, hz, hr⟩ | ⟨hc, hg, hl, hz, hr⟩
      · -- ct = left: right child is the old one
        rw [hr] at hsub0 hsubm
        rcases hcase3 j jnd hj with ⟨hjL, rfl⟩ | ⟨hjL, rfl, rfl⟩ | ⟨hjL, hjp, hjold⟩
        · rw [hjL, hchainNew] at hsubm
          rcases List.mem_cons.1 hsubm with he | hm
          · obtain ⟨-, c2, hc2, -, -⟩ := hInv.right_link pi node hnode hsub0
            have := hoccLt _ c2 hc2
            exact absurd he (by omega)
          · obtain ⟨hlt2, -⟩ := hInv.right_link pi node hnode hsub0
            exact absurd ((mem_chain_occ hInv pi _ hm).2) (by omega)
        · have := (mem_chain_occ hInv pi node.right_child (by
            rw [hchainEq pi (by omega)] at hsubm
            exact hsubm)).2
          obtain ⟨hlt2, -⟩ := hInv.right_link pi node hnode hsub0
          omega
        · rw [hchainEq j (hoccLt j jnd hjold)] at hsubm
          exact hInv.bst_right pi node j jnd hnode hjold ⟨hsub0, hsubm⟩
      · -- ct = right: right child is the fresh slot L
        rw [hl] at hsubm
        rcases hcase3 j jnd hj with ⟨hjL, rfl⟩ | ⟨hjL, rfl, rfl⟩ | ⟨hjL, hjp, hjold⟩
        · rw [show FN.point = q from rfl]
          exact (greater_eq_false_iff ..).1 hg
        · rw [hchainEq pi (by omega)] at hsubm
          have := (mem_chain_occ hInv pi L hsubm).2
          omega
        · rw [hchainEq j (hoccLt j jnd hjold)] at hsubm
          have := (mem_chain_occ hInv j L hsubm).2
          have := hoccLt j jnd hjold
          omega
    · rcases hcase3 j jnd hj with ⟨hjL, rfl⟩ | ⟨hjL, rfl, rfl⟩ | ⟨hjL, hjp, hjold⟩
      · obtain ⟨hlt2, c2, hc2, hc2p, hc2t⟩ := hInv.right_link i ndi hiold hsub0
        rw [hjL, hchainNew] at hsubm
        rcases List.mem_cons.1 hsubm with he | hm
        · have := hoccLt _ c2 hc2
          omega
        · rw [show FN.point = q from rfl]
          exact (greater_eq_false_iff ..).1
            ((route_side hInv hchain hseg hiold hc2 hc2p hm).2 hc2t)
      · rw [hLNpoint]
        rw [hchainEq pi (by omega)] at hsubm
        exact hInv.bst_right i ndi pi node hiold hnode ⟨hsub0, hsubm⟩
      · rw [hchainEq j (hoccLt j jnd hjold)] at hsubm
        exact hInv.bst_right i ndi j jnd hiold hjold ⟨hsub0, hsubm⟩

theorem Inv_preserve {t t' : KdTree} {q : List ℚ} (hInv : Inv t)
    (h : add_point t q = some (Except.ok t')) : Inv t' := by
  obtain ⟨hdim, pi, ct, t1, cd, cl, heq, hcase, rfl⟩ := add_point_ok t q t' h
  rcases hcase with ⟨hlp1, ht1, rfl, rfl⟩ | ⟨hlpne, node, hnode, rfl, rfl, rfl⟩
  · obtain rfl := ht1.symm
    have hnone1 : arenaGet t 1 = none := by
      rcases hg : arenaGet t 1 with _ | nd
      · rfl
      · have := occ_lt_lp hInv hg
        omega
    rw [if_pos (by rw [hnone1]; rfl)] at heq
    simp only [Option.some.injEq, Except.ok.injEq, Prod.mk.injEq] at heq
    obtain ⟨rfl, rfl⟩ := heq
    exact Inv_preserve_root hInv hdim hlp1
  · have hocc1 : (arenaGet t 1).isSome := (hInv.occ_iff 1).2 ⟨le_refl 1, by
      have := hInv.lp_pos
      omega⟩
    obtain ⟨nd1, hnd1⟩ := Option.isSome_iff_exists.1 hocc1
    rw [hnd1] at heq
    simp only [Option.isNone_some, Bool.false_eq_true, if_false] at heq
    exact Inv_preserve_nonroot hInv hdim hlpne hnode heq

/-! ## The multiset of stored points -/

/-- Points stored in the first `n` arena slots, in slot order. -/
def pointsUpTo (t : KdTree) (n : Nat) : List (List ℚ) :=
  (List.range n).filterMap (fun i => (arenaGet t i).map Node.point)

/-- All points stored in the tree, in insertion (= slot) order. -/
def occPoints (t : KdTree) : List (List ℚ) := pointsUpTo t t.last_point

theorem mem_occPoints {t : KdTree} (hInv : Inv t) {p : List ℚ} :
    p ∈ occPoints t ↔ ∃ i nd, arenaGet t i = some nd ∧ nd.point = p := by
  constructor
  · intro h
    obtain ⟨i, hi, hfi⟩ := List.mem_filterMap.1 h
    rcases hg : arenaGet t i with _ | nd
    · rw [hg] at hfi
      cases hfi
    · rw [hg] at hfi
      exact ⟨i, nd, hg, by simpa using hfi⟩
  · intro ⟨i, nd, hg, hp⟩
    exact List.mem_filterMap.2 ⟨i, by
      rw [List.mem_range]
      exact occ_lt_lp hInv hg, by rw [hg]; simp [hp]⟩

/-- A uniform view of a successful `add_point`: the previously stored points
keep their values and slot `last_point` receives the new point. -/
theorem add_point_get_view {t t' : KdTree} {q : List ℚ} (hInv : Inv t)
    (h : add_point t q = some (Except.ok t')) :
    t'.last_point = t.last_point + 1 ∧
    t'.num_dimensions = t.num_dimensions ∧
    (∀ i, i ≠ t.last_point →
      (arenaGet t' i).map Node.point = (arenaGet t i).map Node.point) ∧
    (∃ nd, arenaGet t' t.last_point = some nd ∧ nd.point = q) := by
  obtain ⟨hdim, pi, ct, t1, cd, cl, heq, hcase, rfl⟩ := add_point_ok t q t' h
  have hL1 : 1 ≤ t.last_point := hInv.lp_pos
  rcases hcase with ⟨hlp1, ht1, rfl, rfl⟩ | ⟨hlpne, node, hnode, rfl, rfl, rfl⟩
  · obtain rfl := ht1.symm
    have hgetAll : ∀ i, arenaGet (addResult t q pi ct 0 0) i =
        if i = t.last_point then some (freshNode q pi ct 0 0) else arenaGet t i :=
      arenaGet_addResult t q pi ct 0 0 (by omega) hInv.len_big
    refine ⟨addResult_last_point .., addResult_dims .., ?_, ?_⟩
    · intro i hi
      rw [hgetAll i, if_neg hi]
    · exact ⟨freshNode q pi ct 0 0, by rw [hgetAll, if_pos rfl], rfl⟩
  · have hpiLen : pi < t.tree.length := lookupD_some_lt_length _ _ _ hnode
    have hgetAll : ∀ i, arenaGet (addResult (linkChild t pi node ct) q pi ct
        ((node.dimension + 1) % t.num_dimensions) (node.level + 1)) i =
        if i = t.last_point then some (freshNode q pi ct
          ((node.dimension + 1) % t.num_dimensions) (node.level + 1))
        else if i = pi then some (linkedNode t.last_point node ct)
        else arenaGet t i := by
      intro i
      rw [arenaGet_addResult _ q pi ct _ _ (by rw [linkChild_last_point]; omega)
        (by rw [linkChild_last_point, linkChild_length]; exact hInv.len_big) i,
        linkChild_last_point]
      by_cases hiL : i = t.last_point
      · rw [if_pos hiL, if_pos hiL]
      · rw [if_neg hiL, if_neg hiL, arenaGet_linkChild]
        by_cases hip : i = pi
        · rw [if_pos ⟨hip, hpiLen⟩, if_pos hip]
        · rw [if_neg (fun hc => hip hc.1), if_neg hip]
    refine ⟨by rw [addResult_last_point, linkChild_last_point],
      by rw [addResult_dims, linkChild_dims], ?_, ?_⟩
    · intro i hi
      rw [hgetAll i, if_neg hi]
      by_cases hip : i = pi
      · rw [if_pos hip, hip, hnode]
        simp [linkedNode_point]
      · rw [if_neg hip]
    · exact ⟨_, by rw [hgetAll, if_pos rfl], rfl⟩

theorem add_point_points {t t' : KdTree} {q : List ℚ} (hInv : Inv t)
    (h : add_point t q = some (Except.ok t')) :
    occPoints t' = occPoints t ++ [q] := by
  obtain ⟨hlp, hdims, hview, nd, hnd, hp⟩ := add_point_get_view hInv h
  unfold occPoints pointsUpTo
  rw [hlp, List.range_succ, List.filterMap_append]
  congr 1
  · exact List.filterMap_congr (fun i hi => hview i (by
      rw [List.mem_range] at hi
      omega))
  · simp [hnd, hp]

theorem add_points_facts :
    ∀ (ps : List (List ℚ)) (t t' : KdTree), Inv t →
      add_points t ps = some (Except.ok t') →
      Inv t' ∧ t'.num_dimensions = t.num_dimensions ∧
      t'.last_point = t.last_point + ps.length ∧
      occPoints t' = occPoints t ++ ps := by
  intro ps
  induction ps with
  | nil =>
    intro t t' hInv h
    simp only [add_points, Option.some.injEq, Except.ok.injEq] at h
    subst h
    simp
    exact hInv
  | cons p ps ih =>
    intro t t' hInv h
    rcases hap : add_point t p with _ | r1
    · rw [show add_points t (p :: ps) = none from by
        simp only [add_points, hap]] at h
      cases h
    · rcases r1 with e | t1
      · rw [show add_points t (p :: ps) = some (Except.error e) from by
          simp only [add_points, hap]] at h
        cases h
      · rw [show add_points t (p :: ps) = add_points t1 ps from by
          simp only [add_points, hap]] at h
        have hInv1 := Inv_preserve hInv hap
        obtain ⟨hI, hd, hl, hoP⟩ := ih t1 t' hInv1 h
        obtain ⟨hlp1, hdims1, -, -⟩ := add_point_get_view hInv hap
        refine ⟨hI, by rw [hd, hdims1], by rw [hl, hlp1]; simp; omega, ?_⟩
        rw [hoP, add_point_points hInv hap]
        simp

theorem occPoints_new (d : Nat) : occPoints (new d) = [] := by
  unfold occPoints pointsUpTo
  show (List.range (new d).last_point).filterMap _ = []
  rw [show (new d).last_point = 1 from rfl]
  simp [arenaGet_new]

/-- The facts available for every tree built through the public interface. -/
theorem built_facts {d : Nat} {ps : List (List ℚ)} {t : KdTree} (h : Built d ps t) :
    Inv t ∧ t.num_dimensions = d ∧ t.last_point = ps.length + 1 ∧ occPoints t = ps := by
  obtain ⟨hI, hd, hl, hoP⟩ := add_points_facts ps (new d) t (Inv_new d) h
  refine ⟨hI, by rw [hd]; rfl, by rw [hl]; simp [new]; omega, ?_⟩
  rw [hoP, occPoints_new]
  simp

/-! ## Claim C5: the empty-tree guard -/

theorem bf_loop_all_none (q : List ℚ) (n : Nat) :
    ∀ (l : List (Option Node)) (i : Nat), (∀ o ∈ l, o = none) →
      bf_loop q n l i [] = Except.ok [] := by
  intro l
  induction l with
  | nil => intro i _; rfl
  | cons o rest ih =>
    intro i h
    have ho : o = none := h o (by simp)
    subst ho
    exact ih (i + 1) fun y hy => h y (by simp [hy])

/-- Queries against a tree whose arena holds no node. -/
theorem queries_on_empty (t : KdTree) (q : List ℚ) (n : Nat)
    (hempty : ∀ o ∈ t.tree, o = none) :
    find_n_closest t q n = some (Except.error KdError.emptyTree) ∧
    find_closest t q = some (Except.error KdError.emptyTree) ∧
    brute_force t q n = Except.ok [] := by
  have h1 : arenaGet t 1 = none := lookupD_all_eq none t.tree 1 hempty
  have hgd : go_down t q 1 = some (Except.error KdError.emptyTree) := by
    unfold go_down
    rw [h1]
  refine ⟨?_, ?_, ?_⟩
  · unfold find_n_closest
    rw [hgd]
  · unfold find_closest find_n_closest
    rw [hgd]
  · unfold brute_force
    rw [bf_loop_all_none q n t.tree 0 hempty]
    rfl

/-- C5 (amended).  A query against a tree with zero inserted points whose
arena has at least two slots (which `new` and `with_capacity` with
capacity ≥ 2 produce): the two tree searches fail with `EmptyTree` (the
descent reads slot 1 inside the vector's bounds and finds it unoccupied),
while `brute_force` scans an arena with no occupied slot and succeeds with an
empty collection.  The two-slot bound is what keeps the source's read
`self.tree[1]` in bounds: on an all-empty arena with fewer than two slots
(`with_capacity` with capacity ≤ 1) the source panics on that read instead
of returning any error, a behaviour outside this theorem's coverage. -/
theorem C5_empty_tree_guard_amended (t : KdTree) (q : List ℚ) (n : Nat)
    (hlen : 2 ≤ t.tree.length) (hempty : ∀ o ∈ t.tree, o = none) :
    find_n_closest t q n = some (Except.error KdError.emptyTree) ∧
    find_closest t q = some (Except.error KdError.emptyTree) ∧
    brute_force t q n = Except.ok [] :=
  queries_on_empty t q n hempty

/-- C5, the claim as frozen, is false: `brute_force` on a freshly created
tree returns `Ok` with an empty collection instead of the `EmptyTree`
error. -/
theorem C5_counterexample :
    brute_force (new 3) [0, 0, 0] 1 = Except.ok [] := by
  with_unfolding_all rfl

/-- Witness for `C5_empty_tree_guard_amended`. -/
theorem C5_empty_tree_guard_amended_witness :
    find_n_closest (new 3) [0, 0, 0] 2 = some (Except.error KdError.emptyTree) ∧
    find_closest (new 3) [0, 0, 0] = some (Except.error KdError.emptyTree) ∧
    brute_force (new 3) [0, 0, 0] 2 = Except.ok [] :=
  C5_empty_tree_guard_amended (new 3) [0, 0, 0] 2 (by decide) (by decide)

/-! ## Claim C6: capacity management -/

/-- C6, the claim as frozen, is false: `with_capacity(3, 0)` creates a tree
whose arena capacity is 0, strictly less than next-free-slot + 1 = 2. -/
theorem C6_counterexample :
    ¬ (with_capacity 3 0).last_point + 1 ≤ (with_capacity 3 0).tree.length := by
  decide

/-- C6 (amended): `new` and `with_capacity` with capacity ≥ 3 establish the
structural invariant and with it capacity ≥ next-free-slot + 1, and every
successful `add_point` preserves both; when the growth branch fires the
capacity becomes `2 * last_point` (which is at least the old capacity, so
capacity never shrinks).  Stating preservation over invariant-carrying trees
— exactly the trees the public constructors produce — keeps every arena
access of the covered executions inside the vector's bounds. -/
theorem C6_capacity_invariant_amended :
    (∀ d, Inv (new d) ∧
      (new d).last_point + 1 ≤ (new d).tree.length ∧ 3 ≤ (new d).tree.length) ∧
    (∀ d c, 3 ≤ c → Inv (with_capacity d c) ∧
      (with_capacity d c).last_point + 1 ≤ (with_capacity d c).tree.length ∧
      3 ≤ (with_capacity d c).tree.length) ∧
    (∀ t q t', Inv t → add_point t q = some (Except.ok t') →
      Inv t' ∧ t'.last_point + 1 ≤ t'.tree.length ∧ 3 ≤ t'.tree.length ∧
      t.tree.length ≤ t'.tree.length ∧
      (t.tree.length - 1 ≤ t.last_point → t'.tree.length = t.last_point * 2)) := by
  refine ⟨fun d => ⟨Inv_new d, by simp [new], by simp [new]⟩,
          fun d c hc => ⟨Inv_with_capacity d c hc, by simp [with_capacity]; omega,
            by simpa [with_capacity]⟩,
          fun t q t' hInv hadd => ?_⟩
  have hlen3 : 3 ≤ t.tree.length := hInv.len3
  have hlen : t.last_point + 1 ≤ t.tree.length := hInv.len_big
  have hInvP : Inv t' := Inv_preserve hInv hadd
  obtain ⟨-, pi, ct, t1, cd, cl, -, hcase, ht'⟩ := add_point_ok t q t' hadd
  have hL : t1.tree.length = t.tree.length := by
    rcases hcase with ⟨-, rfl, -, -⟩ | ⟨-, node, -, rfl, -, -⟩
    · rfl
    · exact linkChild_length ..
  have hlp : t1.last_point = t.last_point := by
    rcases hcase with ⟨-, rfl, -, -⟩ | ⟨-, node, -, rfl, -, -⟩ <;> rfl
  subst ht'
  refine ⟨hInvP, ?_⟩
  rw [addResult_last_point, addResult_length, hL, hlp]
  split
  next h => refine ⟨by omega, by omega, by omega, fun _ => rfl⟩
  next h => exact ⟨by omega, by omega, by omega, fun hc => absurd hc h⟩

/-- Witness for `C6_capacity_invariant_amended`. -/
theorem C6_capacity_invariant_amended_witness :
    (new 3).last_point + 1 ≤ (new 3).tree.length ∧
    3 ≤ (with_capacity 2 5).tree.length :=
  ⟨(C6_capacity_invariant_amended.1 3).2.1,
   (C6_capacity_invariant_amended.2.1 2 5 (by decide)).2.2⟩

/-! ## Claim C7: queries are read-only and deterministic -/

/-- C7: the three query operations leave the tree state unchanged (their
receivers are `&self`, made explicit by `runOp`), so running the same query
twice in a row yields the identical (bit-identical, in the embedding:
structurally equal) result and the original state. -/
theorem C7_queries_read_only (t : KdTree) (op : Op) (hq : isQuery op) :
    (runOp t op).1 = t ∧ runOp (runOp t op).1 op = runOp t op := by
  cases op with
  | addPoint p => exact absurd hq (by simp [isQuery])
  | findN q n => exact ⟨rfl, rfl⟩
  | findC q => exact ⟨rfl, rfl⟩
  | brute q n => exact ⟨rfl, rfl⟩

/-- Witness for `C7_queries_read_only`. -/
theorem C7_queries_read_only_witness :
    (runOp (new 3) (Op.findN [0, 0, 0] 1)).1 = new 3 ∧
    runOp (runOp (new 3) (Op.findN [0, 0, 0] 1)).1 (Op.findN [0, 0, 0] 1) =
      runOp (new 3) (Op.findN [0, 0, 0] 1) :=
  C7_queries_read_only (new 3) (Op.findN [0, 0, 0] 1) trivial

/-! ## Claim C8: structural invariants of insertion -/

/-- Levels of all stored nodes. -/
def storedLevels (t : KdTree) : List Nat :=
  (List.range t.last_point).filterMap (fun i => (arenaGet t i).map Node.level)

theorem foldr_max_le : ∀ (l : List Nat) (b : Nat), (∀ x ∈ l, x ≤ b) → l.foldr max 0 ≤ b := by
  intro l
  induction l with
  | nil => intro b _; exact Nat.zero_le b
  | cons x xs ih =>
    intro b h
    simp only [List.foldr]
    exact max_le (h x (by simp)) (ih b (fun y hy => h y (by simp [hy])))

theorem le_foldr_max : ∀ (l : List Nat) (x : Nat), x ∈ l → x ≤ l.foldr max 0 := by
  intro l
  induction l with
  | nil => intro x h; simp at h
  | cons y ys ih =>
    intro x h
    rcases List.mem_cons.1 h with rfl | h2
    · exact le_max_left ..
    · exact le_trans (ih x h2) (le_max_right ..)

/-- C8: in every tree built by successful `add_point` calls, each non-root
node's split dimension is `(parent.dimension + 1) mod num_dimensions` and its
level is `parent.level + 1`; the root has dimension 0 and level 0; and the
recorded `max_levels` equals the largest level of any stored node. -/
theorem C8_structure_invariants (d : Nat) (ps : List (List ℚ)) (t : KdTree)
    (h : Built d ps t) :
    (∀ i nd, arenaGet t i = some nd → i ≠ 1 →
      ∃ pnd, arenaGet t nd.parent = some pnd ∧
        nd.dimension = (pnd.dimension + 1) % d ∧ nd.level = pnd.level + 1) ∧
    (∀ nd, arenaGet t 1 = some nd → nd.dimension = 0 ∧ nd.level = 0) ∧
    t.max_levels = (storedLevels t).foldr max 0 := by
  obtain ⟨hInv, hd, -, -⟩ := built_facts h
  subst hd
  refine ⟨?_, ?_, ?_⟩
  · intro i nd hnd hne
    obtain ⟨pnd, hpnd, hlvl, hdim2, -⟩ := hInv.parent_link i nd hnd hne
    exact ⟨pnd, hpnd, hdim2, hlvl⟩
  · intro nd hnd
    have := hInv.root_fields nd hnd
    exact ⟨this.2.2.1, this.2.2.2⟩
  · apply le_antisymm
    · rcases hInv.ml_wit with h0 | ⟨i, nd, hnd, hl⟩
      · rw [h0]
        exact Nat.zero_le _
      · rw [← hl]
        refine le_foldr_max _ _ ?_
        exact List.mem_filterMap.2 ⟨i, by
          rw [List.mem_range]
          exact occ_lt_lp hInv hnd, by rw [hnd]; rfl⟩
    · apply foldr_max_le
      intro x hx
      obtain ⟨i, hi, hfi⟩ := List.mem_filterMap.1 hx
      rcases hg : arenaGet t i with _ | nd
      · rw [hg] at hfi
        cases hfi
      · rw [hg] at hfi
        simp at hfi
        rw [← hfi]
        exact hInv.level_le i nd hg

/-- Witness for `C8_structure_invariants`. -/
theorem C8_structure_invariants_witness :
    (∀ i nd, arenaGet scenarioTree i = some nd → i ≠ 1 →
      ∃ pnd, arenaGet scenarioTree nd.parent = some pnd ∧
        nd.dimension = (pnd.dimension + 1) % 3 ∧ nd.level = pnd.level + 1) ∧
    (∀ nd, arenaGet scenarioTree 1 = some nd → nd.dimension = 0 ∧ nd.level = 0) ∧
    scenarioTree.max_levels = (storedLevels scenarioTree).foldr max 0 :=
  C8_structure_invariants 3 scenarioPts scenarioTree (by with_unfolding_all rfl)

/-! ## Claim C10: `n = 0` queries trip on the empty candidate heap -/

theorem lookupD_replicate_self {α : Type} (d : α) (n i : Nat) :
    lookupD (List.replicate n d) i d = d := by
  rw [lookupD_replicate]
  split <;> rfl

theorem fnc_loop_dim_err {t : KdTree} {q : List ℚ} {n fuel idx : Nat} {ct : NodeType}
    {table : List Int} {heap : List (Nat × ℚ)} {nd : Node}
    (hocc : arenaGet t idx = some nd)
    (htab : lookupD table nd.level (-1) ≠ (idx : Int))
    (hlen : nd.point.length ≠ q.length) :
    fnc_loop t q n (fuel + 1) idx ct table heap =
      some (Except.error KdError.dimensionError) := by
  simp only [fnc_loop, hocc]
  rw [if_neg htab]
  rw [show distance nd.point q = Except.error KdError.dimensionError from by
    unfold distance
    rw [if_pos hlen]]

theorem fnc_loop_n0_err {t : KdTree} {q : List ℚ} {fuel idx : Nat} {ct : NodeType}
    {table : List Int} {nd : Node}
    (hocc : arenaGet t idx = some nd)
    (htab : lookupD table nd.level (-1) ≠ (idx : Int))
    (hlen : nd.point.length = q.length) :
    fnc_loop t q 0 (fuel + 1) idx ct table [] =
      some (Except.error KdError.binaryHeapError) := by
  simp only [fnc_loop, hocc]
  rw [if_neg htab]
  rw [show distance nd.point q = Except.ok (sqDiffSum nd.point q) from by
    unfold distance
    rw [if_neg (by omega)]]
  rfl

/-- A query on a nonempty tree whose every stored point has the query's
dimensionality fails with `BinaryHeapError` when `n = 0`. -/
theorem find_n_closest_n0 {t : KdTree} (hInv : Inv t) {q : List ℚ}
    (hocc1 : (arenaGet t 1).isSome)
    (hdims : ∀ idx nd, arenaGet t idx = some nd → nd.point.length = q.length) :
    find_n_closest t q 0 = some (Except.error KdError.binaryHeapError) := by
  obtain ⟨pi, ct, seg, hrun, hpiOcc, -, -, -⟩ := go_down_spec hInv q hocc1
  obtain ⟨nd, hnd⟩ := Option.isSome_iff_exists.1 hpiOcc
  have hstep : fnc_loop t q 0 (fncFuel t) pi ct
      (List.replicate (t.max_levels + 1) (-1)) [] =
      some (Except.error KdError.binaryHeapError) := by
    rw [show fncFuel t = ((t.last_point + 1) * (t.max_levels + 2)) + 1 from rfl]
    exact fnc_loop_n0_err hnd (by
      rw [lookupD_replicate_self]
      have := occ_one_le hInv hnd
      omega) (hdims pi nd hnd)
  unfold find_n_closest
  simp only [hrun, hstep]

/-- A query on a nonempty tree whose every stored point differs from the
query in dimensionality fails with `DimensionError` (for every `n`). -/
theorem find_n_closest_dim_err {t : KdTree} (hInv : Inv t) {q : List ℚ} (n : Nat)
    (hocc1 : (arenaGet t 1).isSome)
    (hdims : ∀ idx nd, arenaGet t idx = some nd → nd.point.length ≠ q.length) :
    find_n_closest t q n = some (Except.error KdError.dimensionError) := by
  obtain ⟨pi, ct, seg, hrun, hpiOcc, -, -, -⟩ := go_down_spec hInv q hocc1
  obtain ⟨nd, hnd⟩ := Option.isSome_iff_exists.1 hpiOcc
  have hstep : fnc_loop t q n (fncFuel t) pi ct
      (List.replicate (t.max_levels + 1) (-1)) [] =
      some (Except.error KdError.dimensionError) := by
    rw [show fncFuel t = ((t.last_point + 1) * (t.max_levels + 2)) + 1 from rfl]
    exact fnc_loop_dim_err hnd (by
      rw [lookupD_replicate_self]
      have := occ_one_le hInv hnd
      omega) (hdims pi nd hnd)
  unfold find_n_closest
  simp only [hrun, hstep]

theorem find_closest_err {t : KdTree} {q : List ℚ} {e : KdError}
    (h : find_n_closest t q 1 = some (Except.error e)) :
    find_closest t q = some (Except.error e) := by
  unfold find_closest
  rw [h]

/-- C10: on a nonempty tree with a query of matching dimensionality,
`find_n_closest(q, 0)` and `brute_force(q, 0)` fail with `BinaryHeapError`:
the eviction path consults the maximum of the empty candidate heap. -/
theorem C10_n_zero_binary_heap_error (d : Nat) (ps : List (List ℚ)) (t : KdTree)
    (q : List ℚ) (hb : Built d ps t) (hne : ps ≠ []) (hq : q.length = d) :
    find_n_closest t q 0 = some (Except.error KdError.binaryHeapError) ∧
    brute_force t q 0 = Except.error KdError.binaryHeapError := by
  obtain ⟨hInv, hd, hlp, hoP⟩ := built_facts hb
  have hlp2 : 2 ≤ t.last_point := by
    rw [hlp]
    cases ps with
    | nil => exact absurd rfl hne
    | cons a l => simp
  have hocc1 : (arenaGet t 1).isSome := (hInv.occ_iff 1).2 ⟨le_refl 1, by omega⟩
  obtain ⟨rnd, hrnd⟩ := Option.isSome_iff_exists.1 hocc1
  constructor
  · exact find_n_closest_n0 hInv hocc1
      (fun idx nd hnd => by rw [hInv.point_len idx nd hnd, hd, hq])
  · obtain ⟨x, l1, hx⟩ : ∃ x l1, t.tree = x :: l1 := by
      cases ht : t.tree with
      | nil =>
        have := hInv.len3
        rw [ht] at this
        simp at this
      | cons x l1 => exact ⟨x, l1, rfl⟩
    obtain ⟨y, l2, hy⟩ : ∃ y l2, l1 = y :: l2 := by
      cases hl1 : l1 with
      | nil =>
        have := hInv.len3
        rw [hx, hl1] at this
        simp at this
      | cons y l2 => exact ⟨y, l2, rfl⟩
    have hx0 : x = none := by
      have h0 := arena_zero_none hInv
      rw [arenaGet, hx] at h0
      exact h0
    have hy1 : y = some rnd := by
      rw [arenaGet, hx, hy] at hrnd
      exact hrnd
    unfold brute_force
    rw [hx, hy, hx0, hy1]
    simp only [bf_loop]
    rw [show distance rnd.point q = Except.ok (sqDiffSum rnd.point q) from by
      unfold distance
      rw [if_neg (by rw [hInv.point_len 1 rnd hrnd, hd, hq]; omega)]]
    rfl

/-- Witness for `C10_n_zero_binary_heap_error`. -/
theorem C10_n_zero_binary_heap_error_witness :
    find_n_closest scenarioTree [0, 0, 0] 0 =
      some (Except.error KdError.binaryHeapError) ∧
    brute_force scenarioTree [0, 0, 0] 0 = Except.error KdError.binaryHeapError :=
  C10_n_zero_binary_heap_error 3 scenarioPts scenarioTree [0, 0, 0]
    (by with_unfolding_all rfl) (by decide) (by decide)

/-! ## Claim C4 (amended): the dimension guard -/

/-- C4 (amended): `add_point` checks dimensionality at its entry point and
fails with `DimensionError`, producing no new state.  The queries have no
entry-point check: on a nonempty built tree a query with more coordinates
than the tree's dimensionality fails with `DimensionError` only when the
first distance computation inside the search rejects it, and on an empty
tree the same queries fail with `EmptyTree` instead. -/
theorem C4_dimension_guard_amended :
    (∀ (t : KdTree) (q : List ℚ), dimensions q ≠ t.num_dimensions →
      add_point t q = some (Except.error KdError.dimensionError)) ∧
    (∀ (d : Nat) (ps : List (List ℚ)) (t : KdTree) (q : List ℚ) (n : Nat),
      Built d ps t → ps ≠ [] → d < q.length →
      find_n_closest t q n = some (Except.error KdError.dimensionError) ∧
      find_closest t q = some (Except.error KdError.dimensionError)) ∧
    (∀ (d : Nat) (q : List ℚ) (n : Nat),
      find_n_closest (new d) q n = some (Except.error KdError.emptyTree) ∧
      find_closest (new d) q = some (Except.error KdError.emptyTree)) := by
  refine ⟨?_, ?_, ?_⟩
  · intro t q h
    unfold add_point
    rw [if_pos h]
  · intro d ps t q n hb hne hlt
    obtain ⟨hInv, hd, hlp, -⟩ := built_facts hb
    have hlp2 : 2 ≤ t.last_point := by
      rw [hlp]
      cases ps with
      | nil => exact absurd rfl hne
      | cons a l => simp
    have hocc1 : (arenaGet t 1).isSome := (hInv.occ_iff 1).2 ⟨le_refl 1, by omega⟩
    have hdims : ∀ idx nd, arenaGet t idx = some nd → nd.point.length ≠ q.length :=
      fun idx nd hnd => by
        rw [hInv.point_len idx nd hnd, hd]
        omega
    exact ⟨find_n_closest_dim_err hInv n hocc1 hdims,
      find_closest_err (find_n_closest_dim_err hInv 1 hocc1 hdims)⟩
  · intro d q n
    have h := queries_on_empty (new d) q n (fun o ho => List.eq_of_mem_replicate ho)
    exact ⟨h.1, h.2.1⟩

/-- Witness for `C4_dimension_guard_amended`. -/
theorem C4_dimension_guard_amended_witness :
    add_point (new 3) [0, 0] = some (Except.error KdError.dimensionError) ∧
    find_n_closest scenarioTree [0, 0, 0, 0] 2 =
      some (Except.error KdError.dimensionError) ∧
    find_n_closest (new 3) [0, 0, 0, 0] 1 = some (Except.error KdError.emptyTree) :=
  ⟨C4_dimension_guard_amended.1 (new 3) [0, 0] (by decide),
   (C4_dimension_guard_amended.2.1 3 scenarioPts scenarioTree [0, 0, 0, 0] 2
     (by with_unfolding_all rfl) (by decide) (by decide)).1,
   (C4_dimension_guard_amended.2.2 3 [0, 0, 0, 0] 1).1⟩

/-! ## Counterexamples to C2, C4 and C9 -/

/-- C2, the claim as frozen, is false.  On the 1-dimensional tree holding
0, 5, −5 (in that insertion order) with query 10 and `n = 3` (equal to the
number of inserted points), `find_n_closest` returns only the two distances
{5², 10²} while `brute_force` returns {15², 10², 5²}: when the candidate heap
is not yet full, the pruning test still compares the split-plane distance
against the current heap maximum and wrongly skips the root's left subtree. -/
theorem C2_counterexample :
    Built 1 [[(0 : ℚ)], [5], [-5]] cexTreeA ∧
    find_n_closest cexTreeA [10] 3 = some (Except.ok [([0], 100), ([5], 25)]) ∧
    brute_force cexTreeA [10] 3 = Except.ok [([-5], 225), ([0], 100), ([5], 25)] ∧
    ¬ ([(100 : ℚ), 25].Perm [225, 100, 25]) :=
  ⟨by with_unfolding_all rfl, by with_unfolding_all rfl, by with_unfolding_all rfl,
   by decide⟩

/-- C4, the claim as frozen, is false: querying a freshly created (empty)
3-dimensional tree with a 4-dimensional point returns `EmptyTree`, not the
dimension-mismatch error — the queries perform no dimensionality check at
their entry points. -/
theorem C4_counterexample :
    dimensions [0, 0, 0, 0] ≠ (new 3).num_dimensions ∧
    find_n_closest (new 3) [0, 0, 0, 0] 1 = some (Except.error KdError.emptyTree) ∧
    find_closest (new 3) [0, 0, 0, 0] = some (Except.error KdError.emptyTree) ∧
    KdError.emptyTree ≠ KdError.dimensionError :=
  ⟨by decide, by with_unfolding_all rfl, by with_unfolding_all rfl, by decide⟩

/-- C9, the claim as frozen, is false: inserting the same point set
{0, 5, −5} in two different orders and querying with 10, `n = 3`, yields
different multisets of distances (one tree's search misses the point −5
because of the unguarded not-yet-full pruning step). -/
theorem C9_counterexample :
    Built 1 [[(0 : ℚ)], [5], [-5]] cexTreeA ∧
    Built 1 [[(-5 : ℚ)], [0], [5]] cexTreeB ∧
    [[(0 : ℚ)], [5], [-5]].Perm [[(-5 : ℚ)], [0], [5]] ∧
    find_n_closest cexTreeA [10] 3 = some (Except.ok [([0], 100), ([5], 25)]) ∧
    find_n_closest cexTreeB [10] 3 =
      some (Except.ok [([-5], 225), ([0], 100), ([5], 25)]) ∧
    ¬ ([(100 : ℚ), 25].Perm [225, 100, 25]) :=
  ⟨by with_unfolding_all rfl, by with_unfolding_all rfl, by decide,
   by with_unfolding_all rfl, by with_unfolding_all rfl, by decide⟩

/-! ## Geometry of the squared distance -/

theorem distance_ok {a b : List ℚ} (h : a.length = b.length) :
    distance a b = Except.ok (sqDiffSum a b) := by
  unfold distance
  rw [if_neg (by omega)]

theorem sqDiffSum_nonneg : ∀ a b : List ℚ, 0 ≤ sqDiffSum a b := by
  intro a
  induction a with
  | nil => intro b; cases b <;> simp [sqDiffSum]
  | cons x xs ih =>
    intro b
    cases b with
    | nil => simp [sqDiffSum]
    | cons y ys =>
      show 0 ≤ (x - y) * (x - y) + sqDiffSum xs ys
      have := mul_self_nonneg (x - y)
      have := ih ys
      linarith

theorem sqDiffSum_self : ∀ a : List ℚ, sqDiffSum a a = 0 := by
  intro a
  induction a with
  | nil => rfl
  | cons x xs ih =>
    show (x - x) * (x - x) + sqDiffSum xs xs = 0
    rw [ih]
    ring

theorem sqDiffSum_coord : ∀ (a b : List ℚ) (k : Nat), a.length = b.length →
    (lookupD a k 0 - lookupD b k 0) * (lookupD a k 0 - lookupD b k 0) ≤ sqDiffSum a b := by
  intro a
  induction a with
  | nil =>
    intro b k h
    cases b with
    | nil => cases k <;> simp [sqDiffSum, lookupD]
    | cons y ys => simp at h
  | cons x xs ih =>
    intro b k h
    cases b with
    | nil => simp at h
    | cons y ys =>
      cases k with
      | zero =>
        show (x - y) * (x - y) ≤ (x - y) * (x - y) + sqDiffSum xs ys
        have := sqDiffSum_nonneg xs ys
        linarith
      | succ k0 =>
        show (lookupD xs k0 0 - lookupD ys k0 0) * (lookupD xs k0 0 - lookupD ys k0 0) ≤
          (x - y) * (x - y) + sqDiffSum xs ys
        have := ih ys k0 (by simpa using h)
        have := mul_self_nonneg (x - y)
        linarith

theorem sqDiffSum_setAt_zero : ∀ (n d : Nat) (x y : ℚ),
    sqDiffSum (setAt (List.replicate n 0) d x) (setAt (List.replicate n 0) d y) =
      if d < n then (x - y) * (x - y) else 0 := by
  intro n
  induction n with
  | zero =>
    intro d x y
    cases d <;> simp [setAt, sqDiffSum]
  | succ m ih =>
    intro d x y
    cases d with
    | zero =>
      show (x - y) * (x - y) + sqDiffSum (List.replicate m 0) (List.replicate m 0) = _
      rw [sqDiffSum_self, if_pos (by omega)]
      ring
    | succ d0 =>
      show (0 - 0) * (0 - 0) + sqDiffSum (setAt (List.replicate m 0) d0 x)
          (setAt (List.replicate m 0) d0 y) = _
      rw [ih d0 x y]
      by_cases h : d0 < m
      · rw [if_pos h, if_pos (by omega)]
        ring
      · rw [if_neg h, if_neg (by omega)]
        ring

/-- The split-plane distance is the squared coordinate difference along the
split axis. -/
theorem splitDist_eq (p q : List ℚ) (d : Nat) (h : p.length = q.length) :
    sqDiffSum (split_plane p d) (split_plane q d) =
      (lookupD p d 0 - lookupD q d 0) * (lookupD p d 0 - lookupD q d 0) := by
  unfold split_plane
  rw [h, sqDiffSum_setAt_zero]
  by_cases hd : d < q.length
  · rw [if_pos hd]
  · rw [if_neg hd, lookupD_ge_length 0 p d (by omega), lookupD_ge_length 0 q d (by omega)]
    ring

/-! ## The two far-subtree directions of the backtracking loop -/

/-- The subtree on the side opposite to the direction recorded in
`child_type` (the loop's `sub_tree`). -/
def farChild (nd : Node) (ct : NodeType) : Nat :=
  match ct with
  | NodeType.leftChild => nd.right_child
  | NodeType.rightChild => nd.left_child
  | NodeType.rootNode => 0

/-- The child on the side recorded in `child_type`. -/
def cameChild (nd : Node) (ct : NodeType) : Nat :=
  match ct with
  | NodeType.leftChild => nd.left_child
  | NodeType.rightChild => nd.right_child
  | NodeType.rootNode => 0

theorem farChild_eq (nd : Node) (ct : NodeType) :
    (match ct with
     | NodeType.leftChild => nd.right_child
     | NodeType.rightChild => nd.left_child
     | NodeType.rootNode => 0) = farChild nd ct := by
  cases ct <;> rfl

/-! ## The termination measure of the backtracking loop -/

/-- Number of occupied slots not yet scored against the query. -/
def unscored (t : KdTree) (V : List Nat) : Nat :=
  (List.range t.last_point).countP (fun j => (arenaGet t j).isSome && decide (j ∉ V))

/-- Level-based component of the measure. -/
def lvl (t : KdTree) (idx : Nat) : Nat :=
  match arenaGet t idx with
  | some nd => nd.level + 1
  | none => 0

theorem countP_le_countP {α : Type} {p p' : α → Bool} :
    ∀ l : List α, (∀ x ∈ l, p' x = true → p x = true) → l.countP p' ≤ l.countP p := by
  intro l
  induction l with
  | nil => intro _; simp [List.countP_nil]
  | cons y ys ih =>
    intro h
    rw [List.countP_cons, List.countP_cons]
    have h1 := ih (fun x hx => h x (List.mem_cons_of_mem _ hx))
    by_cases hy : p' y = true
    · rw [if_pos hy, if_pos (h y (List.mem_cons_self ..) hy)]
      omega
    · rw [if_neg hy]
      split <;> omega

theorem countP_lt_countP {α : Type} {p p' : α → Bool} :
    ∀ l : List α, (∀ x ∈ l, p' x = true → p x = true) →
      ∀ x ∈ l, p x = true → p' x = false → l.countP p' < l.countP p := by
  intro l
  induction l with
  | nil => intro _ x hx; simp at hx
  | cons y ys ih =>
    intro h x hx hpx hp'x
    rw [List.countP_cons, List.countP_cons]
    have hmono := countP_le_countP ys (fun z hz => h z (List.mem_cons_of_mem _ hz))
    rcases List.mem_cons.1 hx with rfl | hx2
    · rw [if_pos hpx, if_neg (by rw [hp'x]; simp)]
      omega
    · have := ih (fun z hz => h z (List.mem_cons_of_mem _ hz)) x hx2 hpx hp'x
      by_cases hy : p' y = true
      · rw [if_pos hy, if_pos (h y (List.mem_cons_self ..) hy)]
        omega
      · rw [if_neg hy]
        split <;> omega

theorem unscored_drop {t : KdTree} {V : List Nat} {i : Nat} {nd : Node}
    (hocc : arenaGet t i = some nd) (hlt : i < t.last_point) (hfresh : i ∉ V) :
    unscored t (i :: V) < unscored t V := by
  unfold unscored
  refine countP_lt_countP _ ?_ i (List.mem_range.2 hlt) ?_ ?_
  · intro x _ hx
    simp only [Bool.and_eq_true, decide_eq_true_eq] at hx ⊢
    exact ⟨hx.1, fun hmem => hx.2 (List.mem_cons_of_mem _ hmem)⟩
  · simp [hocc, hfresh]
  · simp

theorem unscored_mono {t : KdTree} {V : List Nat} {i : Nat} :
    unscored t (i :: V) ≤ unscored t V := by
  unfold unscored
  refine countP_le_countP _ ?_
  intro x _ hx
  simp only [Bool.and_eq_true, decide_eq_true_eq] at hx ⊢
  exact ⟨hx.1, fun hmem => hx.2 (List.mem_cons_of_mem _ hmem)⟩

theorem unscored_le (t : KdTree) (V : List Nat) : unscored t V ≤ t.last_point := by
  unfold unscored
  calc (List.range t.last_point).countP _ ≤ (List.range t.last_point).length :=
        List.countP_le_length _
    _ = t.last_point := List.length_range ..

theorem lvl_le {t : KdTree} (hInv : Inv t) (idx : Nat) : lvl t idx ≤ t.max_levels + 1 := by
  unfold lvl
  rcases h : arenaGet t idx with _ | nd
  · simp only [h]
    omega
  · simp only [h]
    have := hInv.level_le idx nd h
    omega

/-! ## More facts about descents -/

theorem go_down_err {t : KdTree} {q : List ℚ} {r : Nat} {e : KdError}
    (h : go_down t q r = some (Except.error e)) : arenaGet t r = none := by
  unfold go_down at h
  rcases hg : arenaGet t r with _ | nd
  · rfl
  · rw [hg] at h
    rcases hl : go_down_loop t q (t.last_point + 1) r r NodeType.rootNode with _ | v
    · rw [hl] at h
      cases h
    · rw [hl] at h
      cases h

theorem go_down_total {t : KdTree} (hInv : Inv t) (q : List ℚ) (r : Nat) :
    ∃ v, go_down t q r = some v := by
  rcases hg : arenaGet t r with _ | nd
  · exact ⟨Except.error KdError.emptyTree, go_down_of_none hg⟩
  · obtain ⟨pi, ct, seg, hrun, -⟩ := @go_down_spec t hInv q r (by simp [hg])
    exact ⟨Except.ok (pi, ct), hrun⟩

theorem go_down_ok_spec {t : KdTree} (hInv : Inv t) {q : List ℚ} {r ci : Nat}
    {cc : NodeType} (h : go_down t q r = some (Except.ok (ci, cc))) :
    (arenaGet t r).isSome ∧ ∃ seg, (arenaGet t ci).isSome ∧
      chain t ci = seg ++ chain t r ∧ (∀ c ∈ seg, StepOK t q c) ∧
      RouteLeaf t q ci cc := by
  have hocc : (arenaGet t r).isSome := by
    rcases hg : arenaGet t r with _ | nd
    · rw [go_down_of_none hg] at h
      cases h
    · simp
  obtain ⟨pi, ct, seg, hrun, h2, h3, h4, h5⟩ := go_down_spec hInv q hocc
  rw [h] at hrun
  obtain ⟨h6, h7⟩ : pi = ci ∧ ct = cc := by
    cases hrun
    exact ⟨rfl, rfl⟩
  subst h6
  subst h7
  exact ⟨hocc, seg, h2, h3, h4, h5⟩

/-! ## More facts about ancestor chains -/

theorem chain_len_lt {t : KdTree} (hInv : Inv t) {j a : Nat} {nd : Node}
    (hj : arenaGet t j = some nd) (ha : a ∈ chain t j) (hne : a ≠ j) :
    (chain t a).length < (chain t j).length := by
  rw [chain_cons hInv hj] at ha
  rcases List.mem_cons.1 ha with rfl | ha2
  · exact absurd rfl hne
  · have h1 : chain t a <:+ chain t nd.parent := chain_suffix hInv nd.parent a ha2
    have h2 := h1.length_le
    rw [chain_cons hInv hj]
    simp
    omega

/-- Where an element of the chain of `l` sits relative to the chain of the
parent `idx` of a chain element `f`: on the shared part, or strictly inside
the subtree of `f`. -/
theorem chain_split {t : KdTree} (hInv : Inv t) {idx f l : Nat} {fnd : Node}
    (hf : arenaGet t f = some fnd) (hfp : fnd.parent = idx) (hfl : f ∈ chain t l) :
    ∀ a, a ∈ chain t l → a ∈ chain t idx ∨ (f ∈ chain t a ∧ a ∉ chain t idx) := by
  intro a ha
  have hchainf : chain t f = f :: chain t idx := by rw [chain_cons hInv hf, hfp]
  have hsf : chain t f <:+ chain t l := chain_suffix hInv l f hfl
  have hsa : chain t a <:+ chain t l := chain_suffix hInv l a ha
  obtain ⟨anda, handa⟩ := Option.isSome_iff_exists.1 (mem_chain_occ hInv l a ha).1
  have hidxf : idx < f := hfp ▸ parent_lt_self hInv hf
  by_cases hlen : (chain t a).length ≤ (chain t idx).length
  · left
    have hix : chain t idx <:+ chain t l :=
      ((List.suffix_cons f (chain t idx)).trans (hchainf ▸ List.suffix_rfl)).trans hsf
    exact (suffix_total hsa hix hlen).mem (self_mem_chain hInv handa)
  · right
    have hlen2 : (chain t f).length ≤ (chain t a).length := by
      rw [hchainf]
      simp
      omega
    have hfa : f ∈ chain t a := (suffix_total hsf hsa hlen2).mem (self_mem_chain hInv hf)
    refine ⟨hfa, fun hmem => ?_⟩
    have h1 : a ≤ idx := (mem_chain_occ hInv idx a hmem).2
    have h2 : f ≤ a := (mem_chain_occ hInv a f hfa).2
    omega

/-- The unique chain element whose parent is a given strict-ancestor chain
element stays the same when the chain is extended downward. -/
theorem chain_child_stable {t : KdTree} (hInv : Inv t) {idx l : Nat}
    (hsub : chain t idx <:+ chain t l) {a c : Nat} {cnd : Node}
    (ha : a ∈ chain t idx) (hne : a ≠ idx) (hc : arenaGet t c = some cnd)
    (hcp : cnd.parent = a) (hcl : c ∈ chain t l) : c ∈ chain t idx := by
  obtain ⟨ndI, hndI⟩ : ∃ ndI, arenaGet t idx = some ndI := by
    rcases hg : arenaGet t idx with _ | ndI
    · rw [chain_nil hg] at ha
      simp at ha
    · exact ⟨ndI, rfl⟩
  have h1 : (chain t a).length < (chain t idx).length := chain_len_lt hInv hndI ha hne
  have h2 : chain t c = c :: chain t a := by rw [chain_cons hInv hc, hcp]
  have h3 : chain t c <:+ chain t l := chain_suffix hInv l c hcl
  have h4 : (chain t c).length ≤ (chain t idx).length := by
    rw [h2]
    simp
    omega
  exact (suffix_total h3 hsub h4).mem (self_mem_chain hInv hc)

/-- Where the chain of `j` meets the chain of `L`: a common element `a` that
still has `f` below-or-equal in its own chain, which either is `j` itself or
has a chain child of `j` off the chain of `L`. -/
theorem chain_meet {t : KdTree} (hInv : Inv t) {L f : Nat} (hfL : f ∈ chain t L) :
    ∀ j, f ∈ chain t j →
      ∃ a, a ∈ chain t j ∧ a ∈ chain t L ∧ f ∈ chain t a ∧
        (a = j ∨ ∃ c cnd, arenaGet t c = some cnd ∧ cnd.parent = a ∧
          c ∈ chain t j ∧ c ∉ chain t L) := by
  intro j
  induction j using Nat.strong_induction_on with
  | _ j ih =>
    intro hfj
    obtain ⟨nd, hnd⟩ : ∃ nd, arenaGet t j = some nd := by
      rcases hg : arenaGet t j with _ | nd
      · rw [chain_nil hg] at hfj
        simp at hfj
      · exact ⟨nd, rfl⟩
    by_cases hjL : j ∈ chain t L
    · exact ⟨j, self_mem_chain hInv hnd, hjL, hfj, Or.inl rfl⟩
    · have hfj' : f ∈ chain t nd.parent := by
        rw [chain_cons hInv hnd] at hfj
        rcases List.mem_cons.1 hfj with rfl | h2
        · exact absurd hfL hjL
        · exact h2
      obtain ⟨a, h1, h2, h3, h4⟩ := ih nd.parent (parent_lt_self hInv hnd) hfj'
      refine ⟨a, by
        rw [chain_cons hInv hnd]
        exact List.mem_cons_of_mem _ h1, h2, h3, ?_⟩
      rcases h4 with rfl | ⟨c, cnd, hc, hcp, hcj, hcL⟩
      · exact Or.inr ⟨j, nd, hnd, rfl, self_mem_chain hInv hnd, hjL⟩
      · exact Or.inr ⟨c, cnd, hc, hcp, by
          rw [chain_cons hInv hnd]
          exact List.mem_cons_of_mem _ hcj, hcL⟩

/-- A node linked to a parent is that parent's left or right child. -/
theorem children_cases {t : KdTree} (hInv : Inv t) {c i : Nat} {cnd nd : Node}
    (hc : arenaGet t c = some cnd) (hcp : cnd.parent = i)
    (hi : arenaGet t i = some nd) :
    (cnd.child_type = NodeType.leftChild ∧ nd.left_child = c) ∨
    (cnd.child_type = NodeType.rightChild ∧ nd.right_child = c) := by
  have hc1 : c ≠ 1 := by
    intro h
    subst h
    rw [(hInv.root_fields cnd hc).1] at hcp
    rw [← hcp, arena_zero_none hInv] at hi
    cases hi
  obtain ⟨pnd, hpnd, -, -, hlink⟩ := hInv.parent_link c cnd hc hc1
  rw [hcp, hi] at hpnd
  cases hpnd
  rcases hlink with ⟨h1, h2⟩ | ⟨h1, h2⟩
  · exact Or.inl ⟨h1, h2⟩
  · exact Or.inr ⟨h1, h2⟩

/-! ## The ghost-state invariant of the backtracking loop -/

/-- Bookkeeping invariant tying the loop position `idx`/`ct`, the searched
table and the ghost list `V` of already-scored slots together.  It is what
makes the loop's fuel bound provable. -/
structure SInv (t : KdTree) (V : List Nat) (idx : Nat) (ct : NodeType)
    (table : List Int) : Prop where
  vocc : ∀ j ∈ V, (arenaGet t j).isSome
  tlen : table.length = t.max_levels + 1
  marks : ∀ lev, lookupD table lev (-1) = -1 ∨ ∃ j ∈ V, lookupD table lev (-1) = (j : Int)
  onchain : ∀ a nda, a ∈ chain t idx → arenaGet t a = some nda →
    (a ∈ V ↔ lookupD table nda.level (-1) = (a : Int))
  side : ∀ nd, arenaGet t idx = some nd → idx ∉ V → ∀ j ∈ V,
    InSub t idx j → InSub t (cameChild nd ct) j
  anc : ∀ a c cnd, a ∈ chain t idx → a ∉ V → arenaGet t c = some cnd →
    cnd.parent = a → c ∈ chain t idx → ∀ j ∈ V, InSub t a j → InSub t c j

theorem farChild_link {t : KdTree} (hInv : Inv t) {idx : Nat} {nd : Node}
    (hnd : arenaGet t idx = some nd) {ct : NodeType}
    (hne : farChild nd ct ≠ 0) :
    ∃ fnd, arenaGet t (farChild nd ct) = some fnd ∧ fnd.parent = idx ∧
      idx < farChild nd ct := by
  cases ct with
  | rootNode => exact absurd rfl hne
  | leftChild =>
    obtain ⟨hlt, c, hc, hcp, -⟩ := hInv.right_link idx nd hnd hne
    exact ⟨c, hc, hcp, hlt⟩
  | rightChild =>
    obtain ⟨hlt, c, hc, hcp, -⟩ := hInv.left_link idx nd hnd hne
    exact ⟨c, hc, hcp, hlt⟩

/-- The subtree the loop may jump into from a fresh node contains no scored
slot. -/
theorem fresh_clean {t : KdTree} (hInv : Inv t) {V : List Nat} {idx : Nat}
    {ct : NodeType} {table : List Int} (hS : SInv t V idx ct table) {nd : Node}
    (hnd : arenaGet t idx = some nd) (hfresh : idx ∉ V) :
    ∀ a ∈ V, ¬ InSub t (farChild nd ct) a := by
  intro a haV hsub
  have hf0 : farChild nd ct ≠ 0 := hsub.1
  obtain ⟨fnd, hfnd, hfp, hlt⟩ := farChild_link hInv hnd hf0
  have hchf : chain t (farChild nd ct) = farChild nd ct :: chain t idx := by
    rw [chain_cons hInv hfnd, hfp]
  have hidxa : idx ∈ chain t a := by
    have h1 : chain t (farChild nd ct) <:+ chain t a := chain_suffix hInv a _ hsub.2
    exact h1.mem (by rw [hchf]; exact List.mem_cons_of_mem _ (self_mem_chain hInv hnd))
  have hsideIn : InSub t (cameChild nd ct) a :=
    hS.side nd hnd hfresh a haV ⟨by have := occ_one_le hInv hnd; omega, hidxa⟩
  cases ct with
  | rootNode => exact hf0 rfl
  | leftChild => exact sub_disjoint hInv hnd hsideIn hsub
  | rightChild => exact sub_disjoint hInv hnd hsub hsideIn

/-- Scoring a fresh slot keeps the scored-iff-marked correspondence on any
chain through it. -/
theorem onchain_scored {t : KdTree} (hInv : Inv t) {V : List Nat} {idx : Nat}
    {ct : NodeType} {table : List Int} (hS : SInv t V idx ct table) {nd : Node}
    (hnd : arenaGet t idx = some nd) (hfresh : idx ∉ V)
    (hlvl : nd.level < table.length) :
    ∀ a nda, a ∈ chain t idx → arenaGet t a = some nda →
      (a ∈ idx :: V ↔ lookupD (setAt table nd.level (idx : Int)) nda.level (-1) = (a : Int)) := by
  intro a nda ha hnda
  by_cases haidx : a = idx
  · subst haidx
    rw [hnd] at hnda
    cases hnda
    constructor
    · intro _
      exact lookupD_setAt_self _ _ _ _ hlvl
    · intro _
      exact List.mem_cons_self ..
  · have hlne : nd.level ≠ nda.level := by
      have := chain_level_lt hInv idx a nda nd hnda hnd ha haidx
      omega
    rw [lookupD_setAt_ne _ _ _ _ _ hlne, List.mem_cons]
    constructor
    · intro h
      rcases h with h | h
      · exact absurd h haidx
      · exact (hS.onchain a nda ha hnda).1 h
    · intro h
      exact Or.inr ((hS.onchain a nda ha hnda).2 h)

/-- Walking up preserves the loop invariant. -/
theorem SInv_up {t : KdTree} (hInv : Inv t) {V : List Nat} {idx : Nat}
    {ct : NodeType} {table : List Int} (hS : SInv t V idx ct table) {nd : Node}
    (hnd : arenaGet t idx = some nd) :
    SInv t V nd.parent nd.child_type table := by
  by_cases hidx1 : idx = 1
  · subst hidx1
    have hp0 : nd.parent = 0 := (hInv.root_fields nd hnd).1
    rw [hp0]
    have hch : chain t 0 = [] := chain_nil (arena_zero_none hInv)
    refine ⟨hS.vocc, hS.tlen, hS.marks, ?_, ?_, ?_⟩
    · intro a nda ha
      rw [hch] at ha
      simp at ha
    · intro nd' h
      rw [arena_zero_none hInv] at h
      cases h
    · intro a c cnd ha
      rw [hch] at ha
      simp at ha
  · obtain ⟨pnd, hpnd, -, -, hlink⟩ := hInv.parent_link idx nd hnd hidx1
    have hchain : chain t idx = idx :: chain t nd.parent := chain_cons hInv hnd
    have hcame : cameChild pnd nd.child_type = idx := by
      rcases hlink with ⟨h1, h2⟩ | ⟨h1, h2⟩ <;> rw [h1] <;> exact h2
    refine ⟨hS.vocc, hS.tlen, hS.marks, ?_, ?_, ?_⟩
    · intro a nda ha hnda
      exact hS.onchain a nda (by rw [hchain]; exact List.mem_cons_of_mem _ ha) hnda
    · intro pnd' hpnd' hpfresh j hj hsub
      rw [hpnd] at hpnd'
      cases hpnd'
      have h2 := hS.anc nd.parent idx nd
        (by rw [hchain]; exact List.mem_cons_of_mem _ (self_mem_chain hInv hpnd))
        hpfresh hnd rfl (by rw [hchain]; exact List.mem_cons_self ..) j hj hsub
      rw [hcame]
      exact h2
    · intro a c cnd ha hafresh hc hcp hcmem j hj hsub
      exact hS.anc a c cnd (by rw [hchain]; exact List.mem_cons_of_mem _ ha) hafresh
        hc hcp (by rw [hchain]; exact List.mem_cons_of_mem _ hcmem) j hj hsub

/-- Scoring a fresh slot without moving preserves the loop invariant. -/
theorem SInv_score {t : KdTree} (hInv : Inv t) {V : List Nat} {idx : Nat}
    {ct : NodeType} {table : List Int} (hS : SInv t V idx ct table) {nd : Node}
    (hnd : arenaGet t idx = some nd) (hfresh : idx ∉ V) :
    SInv t (idx :: V) idx ct (setAt table nd.level (idx : Int)) := by
  have hlvl : nd.level < table.length := by
    rw [hS.tlen]
    have := hInv.level_le idx nd hnd
    omega
  refine ⟨?_, ?_, ?_, onchain_scored hInv hS hnd hfresh hlvl, ?_, ?_⟩
  · intro j hj
    rcases List.mem_cons.1 hj with rfl | hj2
    · simp [hnd]
    · exact hS.vocc j hj2
  · rw [length_setAt, hS.tlen]
  · intro lev
    by_cases hl : lev = nd.level
    · subst hl
      rw [lookupD_setAt_self _ _ _ _ hlvl]
      exact Or.inr ⟨idx, List.mem_cons_self .., rfl⟩
    · rw [lookupD_setAt_ne _ _ _ _ _ (fun h => hl h.symm)]
      rcases hS.marks lev with h | ⟨j, hj, hjv⟩
      · exact Or.inl h
      · exact Or.inr ⟨j, List.mem_cons_of_mem _ hj, hjv⟩
  · intro nd' hnd' hfresh'
    exact absurd (List.mem_cons_self ..) hfresh'
  · intro a c cnd ha hafresh hc hcp hcmem j hj hsub
    have hane : a ≠ idx := fun h => hafresh (h ▸ List.mem_cons_self ..)
    have hafresh2 : a ∉ V := fun h => hafresh (List.mem_cons_of_mem _ h)
    rcases List.mem_cons.1 hj with rfl | hj2
    · exact ⟨by have := occ_one_le hInv hc; omega, hcmem⟩
    · exact hS.anc a c cnd ha hafresh2 hc hcp hcmem j hj2 hsub

/-- Scoring a fresh slot and jumping into its far subtree preserves the loop
invariant. -/
theorem SInv_jump {t : KdTree} (hInv : Inv t) {V : List Nat} {idx : Nat}
    {ct : NodeType} {table : List Int} (hS : SInv t V idx ct table) {nd : Node}
    (hnd : arenaGet t idx = some nd) (hfresh : idx ∉ V) {q : List ℚ}
    {l : Nat} {cl : NodeType}
    (hgd : go_down t q (farChild nd ct) = some (Except.ok (l, cl))) :
    SInv t (idx :: V) l cl (setAt table nd.level (idx : Int)) := by
  have hlvl : nd.level < table.length := by
    rw [hS.tlen]
    have := hInv.level_le idx nd hnd
    omega
  obtain ⟨hfocc, seg, hlocc, hchl, hsegok, hroute⟩ := go_down_ok_spec hInv hgd
  have hf0 : farChild nd ct ≠ 0 := by
    intro h
    rw [h, arena_zero_none hInv] at hfocc
    simp at hfocc
  obtain ⟨fnd, hfnd, hfp, hflt⟩ := farChild_link hInv hnd hf0
  have hchf : chain t (farChild nd ct) = farChild nd ct :: chain t idx := by
    rw [chain_cons hInv hfnd, hfp]
  have hfl : farChild nd ct ∈ chain t l := by
    rw [hchl]
    exact List.mem_append_right _ (by rw [hchf]; exact List.mem_cons_self ..)
  have hsubidx : chain t idx <:+ chain t l := by
    rw [hchl, hchf]
    exact (List.suffix_cons _ _).trans (List.suffix_append seg _)
  have hcleanV : ∀ a, farChild nd ct ∈ chain t a → a ∉ V := fun a hfa haV =>
    fresh_clean hInv hS hnd hfresh a haV ⟨hf0, hfa⟩
  have hidxmem : ∀ a, farChild nd ct ∈ chain t a → idx ∈ chain t a ∧ idx ≠ a := by
    intro a hfa
    have h1 : chain t (farChild nd ct) <:+ chain t a := chain_suffix hInv a _ hfa
    have h2 : idx ∈ chain t a :=
      h1.mem (by rw [hchf]; exact List.mem_cons_of_mem _ (self_mem_chain hInv hnd))
    have h3 : farChild nd ct ≤ a := (mem_chain_occ hInv a _ hfa).2
    exact ⟨h2, by omega⟩
  refine ⟨?_, ?_, ?_, ?_, ?_, ?_⟩
  · intro j hj
    rcases List.mem_cons.1 hj with rfl | hj2
    · simp [hnd]
    · exact hS.vocc j hj2
  · rw [length_setAt, hS.tlen]
  · intro lev
    by_cases hl : lev = nd.level
    · subst hl
      rw [lookupD_setAt_self _ _ _ _ hlvl]
      exact Or.inr ⟨idx, List.mem_cons_self .., rfl⟩
    · rw [lookupD_setAt_ne _ _ _ _ _ (fun h => hl h.symm)]
      rcases hS.marks lev with h | ⟨j, hj, hjv⟩
      · exact Or.inl h
      · exact Or.inr ⟨j, List.mem_cons_of_mem _ hj, hjv⟩
  · intro a nda ha hnda
    rcases chain_split hInv hfnd hfp hfl a ha with hain | ⟨hfa, -⟩
    · exact onchain_scored hInv hS hnd hfresh hlvl a nda hain hnda
    · have hanotV : a ∉ V := hcleanV a hfa
      obtain ⟨hidxa, hidxne⟩ := hidxmem a hfa
      have hlevlt : nd.level < nda.level :=
        chain_level_lt hInv a idx nd nda hnd hnda hidxa hidxne
      constructor
      · intro h
        rcases List.mem_cons.1 h with heq | h2
        · exact absurd heq (by omega)
        · exact absurd h2 hanotV
      · intro h
        exfalso
        rw [lookupD_setAt_ne _ _ _ _ _ (by omega)] at h
        have ha1 := occ_one_le hInv hnda
        rcases hS.marks nda.level with hm | ⟨j, hjV, hjv⟩
        · rw [hm] at h
          omega
        · rw [hjv] at h
          have : j = a := by omega
          subst this
          exact hanotV hjV
  · intro lnd' hlnd' hlfresh j hj hsub
    exfalso
    rcases List.mem_cons.1 hj with rfl | hjV
    · have h1 : l ≤ j := (mem_chain_occ hInv j l hsub.2).2
      have h2 : farChild nd ct ≤ l := (mem_chain_occ hInv l _ hfl).2
      omega
    · have h1 : chain t l <:+ chain t j := chain_suffix hInv j l hsub.2
      exact hcleanV j (h1.mem hfl) hjV
  · intro a c cnd ha hafresh hc hcp hcmem j hj hsub
    have hane : a ≠ idx := fun h => hafresh (h ▸ List.mem_cons_self ..)
    have hafresh2 : a ∉ V := fun h => hafresh (List.mem_cons_of_mem _ h)
    rcases List.mem_cons.1 hj with rfl | hjV
    · refine ⟨by have := occ_one_le hInv hc; omega, ?_⟩
      exact chain_child_stable hInv hsubidx hsub.2 hane hc hcp hcmem
    · rcases chain_split hInv hfnd hfp hfl a ha with hain | ⟨hfa, -⟩
      · have hcin : c ∈ chain t idx :=
          chain_child_stable hInv hsubidx hain hane hc hcp hcmem
        exact hS.anc a c cnd hain hafresh2 hc hcp hcin j hjV hsub
      · exfalso
        have h1 : chain t a <:+ chain t j := chain_suffix hInv j a hsub.2
        exact hcleanV j (h1.mem hfa) hjV

/-- The invariant at the moment the loop is entered. -/
theorem SInv_init {t : KdTree} (hInv : Inv t) {l : Nat} {cl : NodeType} :
    SInv t [] l cl (List.replicate (t.max_levels + 1) (-1 : Int)) := by
  refine ⟨by simp, by simp, ?_, ?_, ?_, ?_⟩
  · intro lev
    exact Or.inl (lookupD_replicate_self _ _ _)
  · intro a nda ha hnda
    constructor
    · intro h
      simp at h
    · intro h
      rw [lookupD_replicate_self] at h
      have := occ_one_le hInv hnda
      omega
  · intro nd hnd hfresh j hj
    simp at hj
  · intro a c cnd ha hafresh hc hcp hcmem j hj
    simp at hj

/-! ## One unfolding of the backtracking loop, split into its branches -/

/-- The tail of the loop body that runs after a fresh node was scored and
the heap was updated (identical, term for term, to the corresponding part of
`fnc_loop`). -/
def fncCont (t : KdTree) (query_point : List ℚ) (n fuel index : Nat)
    (child_type : NodeType) (node : Node) (table1 : List Int)
    (bh1 : List (Nat × ℚ)) : Option (Except KdError (List (Nat × ℚ))) :=
  match distance (split_plane node.point node.dimension)
      (split_plane query_point node.dimension) with
  | Except.error e => some (Except.error e)
  | Except.ok splitDist =>
    match get_max_min bh1 with
    | Except.error e => some (Except.error e)
    | Except.ok m1 =>
      if splitDist < m1 then
        let sub_tree :=
          match child_type with
          | NodeType.leftChild => node.right_child
          | NodeType.rightChild => node.left_child
          | NodeType.rootNode => 0
        match go_down t query_point sub_tree with
        | none => none
        | some (Except.ok (cur_ind, cur_child)) =>
          fnc_loop t query_point n fuel cur_ind cur_child table1 bh1
        | some (Except.error _) =>
          fnc_loop t query_point n fuel index child_type table1 bh1
      else
        fnc_loop t query_point n fuel index child_type table1 bh1

theorem fnc_loop_eq_up {t : KdTree} {q : List ℚ} {n f idx : Nat} {ct : NodeType}
    {table : List Int} {bh : List (Nat × ℚ)} {nd : Node}
    (hnd : arenaGet t idx = some nd)
    (hmark : lookupD table nd.level (-1) = (idx : Int)) :
    fnc_loop t q n (f + 1) idx ct table bh =
      fnc_loop t q n f nd.parent nd.child_type table bh := by
  simp only [fnc_loop, hnd, if_pos hmark]

theorem fnc_loop_eq_disterr {t : KdTree} {q : List ℚ} {n f idx : Nat} {ct : NodeType}
    {table : List Int} {bh : List (Nat × ℚ)} {nd : Node} {e : KdError}
    (hnd : arenaGet t idx = some nd)
    (hmark : lookupD table nd.level (-1) ≠ (idx : Int))
    (hdist : distance nd.point q = Except.error e) :
    fnc_loop t q n (f + 1) idx ct table bh = some (Except.error e) := by
  simp only [fnc_loop, hnd, if_neg hmark, hdist]

theorem fnc_loop_eq_push {t : KdTree} {q : List ℚ} {n f idx : Nat} {ct : NodeType}
    {table : List Int} {bh : List (Nat × ℚ)} {nd : Node} {dist : ℚ}
    (hnd : arenaGet t idx = some nd)
    (hmark : lookupD table nd.level (-1) ≠ (idx : Int))
    (hdist : distance nd.point q = Except.ok dist)
    (hlen : bh.length < n) :
    fnc_loop t q n (f + 1) idx ct table bh =
      fncCont t q n f idx ct nd (setAt table nd.level (idx : Int))
        (bhPush bh (idx, dist)) := by
  simp only [fnc_loop, hnd, if_neg hmark, hdist, if_pos hlen]
  rfl

theorem fnc_loop_eq_maxerr {t : KdTree} {q : List ℚ} {n f idx : Nat} {ct : NodeType}
    {table : List Int} {bh : List (Nat × ℚ)} {nd : Node} {dist : ℚ} {e : KdError}
    (hnd : arenaGet t idx = some nd)
    (hmark : lookupD table nd.level (-1) ≠ (idx : Int))
    (hdist : distance nd.point q = Except.ok dist)
    (hlen : ¬ bh.length < n) (hmax : get_max_min bh = Except.error e) :
    fnc_loop t q n (f + 1) idx ct table bh = some (Except.error e) := by
  simp only [fnc_loop, hnd, if_neg hmark, hdist, if_neg hlen, hmax]

theorem fnc_loop_eq_keep {t : KdTree} {q : List ℚ} {n f idx : Nat} {ct : NodeType}
    {table : List Int} {bh : List (Nat × ℚ)} {nd : Node} {dist m : ℚ}
    (hnd : arenaGet t idx = some nd)
    (hmark : lookupD table nd.level (-1) ≠ (idx : Int))
    (hdist : distance nd.point q = Except.ok dist)
    (hlen : ¬ bh.length < n) (hmax : get_max_min bh = Except.ok m) :
    fnc_loop t q n (f + 1) idx ct table bh =
      fncCont t q n f idx ct nd (setAt table nd.level (idx : Int))
        (if dist < m then bhPush bh.tail (idx, dist) else bh) := by
  simp only [fnc_loop, hnd, if_neg hmark, hdist, if_neg hlen, hmax]
  rfl

/-! ## The fuel bound of the backtracking loop -/

theorem lvl_parent_lt {t : KdTree} (hInv : Inv t) {idx : Nat} {nd : Node}
    (hnd : arenaGet t idx = some nd) : lvl t nd.parent < lvl t idx := by
  by_cases h1 : idx = 1
  · subst h1
    rw [(hInv.root_fields nd hnd).1]
    unfold lvl
    simp only [arena_zero_none hInv, hnd]
    omega
  · obtain ⟨pnd, hpnd, hlev, -, -⟩ := hInv.parent_link idx nd hnd h1
    unfold lvl
    simp only [hpnd, hnd]
    omega

theorem measure_up {A lp li f : Nat} (h1 : A + li < f + 1) (h2 : lp < li) :
    A + lp < f := by omega

theorem measure_score {u u2 M li f : Nat} (h1 : u * M + li < f + 1) (h2 : u2 < u)
    (hM : 2 ≤ M) : u2 * M + li < f := by
  have h3 : u2 * M + M ≤ u * M := by
    calc u2 * M + M = (u2 + 1) * M := (Nat.succ_mul u2 M).symm
      _ ≤ u * M := Nat.mul_le_mul_right M h2
  omega

theorem measure_jump {u u2 M li lj f : Nat} (h1 : u * M + li < f + 1) (h2 : u2 < u)
    (hj : lj < M) : u2 * M + lj < f := by
  have h3 : u2 * M + M ≤ u * M := by
    calc u2 * M + M = (u2 + 1) * M := (Nat.succ_mul u2 M).symm
      _ ≤ u * M := Nat.mul_le_mul_right M h2
  omega

/-- Termination of the backtracking loop: under the loop invariant, the
measure `unscored · (max_levels + 2) + lvl` bounds the fuel the loop needs,
for every `n` and every heap. -/
theorem fnc_loop_term {t : KdTree} (hInv : Inv t) (q : List ℚ) (n : Nat) :
    ∀ fuel (V : List Nat) idx ct table bh, SInv t V idx ct table →
      unscored t V * (t.max_levels + 2) + lvl t idx < fuel →
      ∃ r, fnc_loop t q n fuel idx ct table bh = some r := by
  intro fuel
  induction fuel using Nat.strong_induction_on with
  | _ fuel ih =>
    intro V idx ct table bh hS hmu
    obtain ⟨f, rfl⟩ : ∃ f, fuel = f + 1 := ⟨fuel - 1, by omega⟩
    rcases hnd : arenaGet t idx with _ | nd
    · exact ⟨Except.ok bh, by simp [fnc_loop, hnd]⟩
    · have hidxlt : idx < t.last_point := occ_lt_lp hInv hnd
      by_cases hmark : lookupD table nd.level (-1) = (idx : Int)
      · have hS2 := SInv_up hInv hS hnd
        have hlvl2 : lvl t nd.parent < lvl t idx := lvl_parent_lt hInv hnd
        obtain ⟨r, hr⟩ := ih f (by omega) V nd.parent nd.child_type table bh hS2
          (measure_up hmu hlvl2)
        exact ⟨r, by rw [fnc_loop_eq_up hnd hmark]; exact hr⟩
      · have hfresh : idx ∉ V :=
          fun h => hmark ((hS.onchain idx nd (self_mem_chain hInv hnd) hnd).1 h)
        have hdrop := unscored_drop hnd hidxlt hfresh
        have hScore := SInv_score hInv hS hnd hfresh
        rcases hdist : distance nd.point q with e | dist
        · exact ⟨_, fnc_loop_eq_disterr hnd hmark hdist⟩
        · have hcont : ∀ bh1, ∃ r,
              fncCont t q n f idx ct nd (setAt table nd.level (idx : Int)) bh1 = some r := by
            intro bh1
            rcases hsplit : distance (split_plane nd.point nd.dimension)
                (split_plane q nd.dimension) with e | sd
            · exact ⟨Except.error e, by simp only [fncCont, hsplit]⟩
            · rcases hmax1 : get_max_min bh1 with e | m1
              · exact ⟨Except.error e, by simp only [fncCont, hsplit, hmax1]⟩
              · by_cases hlt : sd < m1
                · obtain ⟨v, hv⟩ := go_down_total hInv q (farChild nd ct)
                  rcases v with e | ⟨ci, cc⟩
                  · obtain ⟨r, hr⟩ := ih f (by omega) (idx :: V) idx ct _ bh1 hScore
                      (measure_score hmu hdrop (by omega))
                    exact ⟨r, by
                      simp only [fncCont, hsplit, hmax1, if_pos hlt, farChild_eq, hv]
                      exact hr⟩
                  · have hS4 := SInv_jump hInv hS hnd hfresh hv
                    obtain ⟨r, hr⟩ := ih f (by omega) (idx :: V) ci cc _ bh1 hS4
                      (measure_jump hmu hdrop (by have := lvl_le hInv ci; omega))
                    exact ⟨r, by
                      simp only [fncCont, hsplit, hmax1, if_pos hlt, farChild_eq, hv]
                      exact hr⟩
                · obtain ⟨r, hr⟩ := ih f (by omega) (idx :: V) idx ct _ bh1 hScore
                    (measure_score hmu hdrop (by omega))
                  exact ⟨r, by
                    simp only [fncCont, hsplit, hmax1, if_neg hlt]
                    exact hr⟩
          by_cases hlen : bh.length < n
          · obtain ⟨r, hr⟩ := hcont (bhPush bh (idx, dist))
            exact ⟨r, by rw [fnc_loop_eq_push hnd hmark hdist hlen]; exact hr⟩
          · rcases hmax : get_max_min bh with e | m
            · exact ⟨_, fnc_loop_eq_maxerr hnd hmark hdist hlen hmax⟩
            · obtain ⟨r, hr⟩ := hcont (if dist < m then bhPush bh.tail (idx, dist) else bh)
              exact ⟨r, by rw [fnc_loop_eq_keep hnd hmark hdist hlen hmax]; exact hr⟩

/-- `find_n_closest` always returns a result on a structurally sound tree:
the loop fuel `fncFuel` is sufficient. -/
theorem find_n_closest_total {t : KdTree} (hInv : Inv t) (q : List ℚ) (n : Nat) :
    ∃ r, find_n_closest t q n = some r := by
  unfold find_n_closest
  rcases hgd : go_down t q 1 with _ | v
  · obtain ⟨v, hv⟩ := go_down_total hInv q 1
    rw [hv] at hgd
    cases hgd
  · rcases v with e | ⟨idx, ct⟩
    · exact ⟨Except.error e, by simp only [hgd]⟩
    · obtain ⟨hocc1, seg, hidxocc, -, -, -⟩ := go_down_ok_spec hInv hgd
      have hS : SInv t [] idx ct (List.replicate (t.max_levels + 1) (-1 : Int)) :=
        @SInv_init t hInv idx ct
      have hmu : unscored t [] * (t.max_levels + 2) + lvl t idx < fncFuel t := by
        have h1 : unscored t [] ≤ t.last_point := unscored_le t []
        have h2 : lvl t idx < t.max_levels + 2 := by
          have := lvl_le hInv idx
          omega
        have h3 : unscored t [] * (t.max_levels + 2) ≤
            t.last_point * (t.max_levels + 2) :=
          Nat.mul_le_mul_right _ h1
        have h4 : t.last_point * (t.max_levels + 2) + (t.max_levels + 2) =
            (t.last_point + 1) * (t.max_levels + 2) := (Nat.succ_mul ..).symm
        have h5 : fncFuel t = (t.last_point + 1) * (t.max_levels + 2) + 1 := rfl
        omega
      obtain ⟨r, hr⟩ := fnc_loop_term hInv q n (fncFuel t) [] idx ct
        (List.replicate (t.max_levels + 1) (-1 : Int)) [] hS hmu
      rcases r with e | bh
      · exact ⟨Except.error e, by simp only [hgd, hr]⟩
      · exact ⟨to_points t bh [], by simp only [hgd, hr]⟩

/-! ## The `n = 1` correctness invariant -/

theorem length_split_plane (p : List ℚ) (d : Nat) :
    (split_plane p d).length = p.length := by
  unfold split_plane
  rw [length_setAt, List.length_replicate]

/-- Slots the loop can still reach and score from the current position:
a pending chain node itself, the far subtree of the current node, or the
subtree hanging off a pending strict ancestor away from the chain. -/
def InToVisit (t : KdTree) (V : List Nat) (idx : Nat) (ct : NodeType)
    (j : Nat) : Prop :=
  ∃ a, a ∈ chain t idx ∧ a ∉ V ∧
    (j = a ∨
     (a = idx ∧ ∃ nd, arenaGet t idx = some nd ∧ InSub t (farChild nd ct) j) ∨
     (a ≠ idx ∧ ∃ c cnd, arenaGet t c = some cnd ∧ cnd.parent = a ∧
       c ∉ chain t idx ∧ InSub t c j))

/-- Heap contents of the `n = 1` search: empty before the first scoring,
afterwards the single scored slot of minimum distance. -/
def Heap1 (t : KdTree) (q : List ℚ) (V : List Nat) (bh : List (Nat × ℚ)) : Prop :=
  (bh = [] ∧ V = []) ∨
  ∃ b δ bnd, bh = [(b, δ)] ∧ arenaGet t b = some bnd ∧ b ∈ V ∧
    δ = sqDiffSum bnd.point q ∧
    ∀ j jnd, j ∈ V → arenaGet t j = some jnd → δ ≤ sqDiffSum jnd.point q

/-- Final heap of the `n = 1` search: empty only on an empty arena,
otherwise the global minimum. -/
def Found1 (t : KdTree) (q : List ℚ) (bh : List (Nat × ℚ)) : Prop :=
  (bh = [] ∧ ∀ j nd, arenaGet t j = some nd → False) ∨
  ∃ b δ bnd, bh = [(b, δ)] ∧ arenaGet t b = some bnd ∧ δ = sqDiffSum bnd.point q ∧
    ∀ j jnd, arenaGet t j = some jnd → δ ≤ sqDiffSum jnd.point q

/-- Correctness invariant of the `n = 1` search on top of `SInv`:
route-consistency of pending chain steps, consistency of the stored entry
direction, the single-slot heap, and covering: every occupied slot is
scored, still reachable, or already beaten by the heap maximum. -/
structure CInv (t : KdTree) (q : List ℚ) (V : List Nat) (idx : Nat)
    (ct : NodeType) (table : List Int) (bh : List (Nat × ℚ)) extends
    SInv t V idx ct table : Prop where
  rc : ∀ a, a ∈ chain t idx → a ∉ V → ∀ c cnd, arenaGet t c = some cnd →
    cnd.parent = a → c ∈ chain t idx → StepOK t q c
  ctr : ∀ nd, arenaGet t idx = some nd → idx ∉ V →
    (ct = NodeType.leftChild → greater nd.point q nd.dimension = true) ∧
    (ct = NodeType.rightChild → greater nd.point q nd.dimension = false)
  heap : Heap1 t q V bh
  main : ∀ j jnd, arenaGet t j = some jnd →
    j ∈ V ∨ InToVisit t V idx ct j ∨
      ∃ p r, bh = p :: r ∧ p.2 ≤ sqDiffSum jnd.point q

/-- The direction stored by a descent's landing pair agrees with the
`greater` comparison at the landing node. -/
theorem route_ctr {t : KdTree} {q : List ℚ} {l : Nat} {cl : NodeType}
    (hroute : RouteLeaf t q l cl) {lnd : Node} (hlnd : arenaGet t l = some lnd) :
    (cl = NodeType.leftChild → greater lnd.point q lnd.dimension = true) ∧
    (cl = NodeType.rightChild → greater lnd.point q lnd.dimension = false) := by
  obtain ⟨lnd', hlnd', hdisj⟩ := hroute
  rw [hlnd] at hlnd'
  cases hlnd'
  rcases hdisj with ⟨hcl, hg, -⟩ | ⟨hcl, hg, -⟩
  · exact ⟨fun _ => hg, fun hr => by rw [hcl] at hr; exact NodeType.noConfusion hr⟩
  · exact ⟨fun hl2 => by rw [hcl] at hl2; exact NodeType.noConfusion hl2, fun _ => hg⟩

/-- Any real child of a descent's landing node is the far child of the
landing pair (the routed side of the landing node is absent). -/
theorem route_far_child {t : KdTree} (hInv : Inv t) {q : List ℚ} {l : Nat}
    {cl : NodeType} (hroute : RouteLeaf t q l cl) {lnd : Node}
    (hlnd : arenaGet t l = some lnd) {c : Nat} {cnd : Node}
    (hc : arenaGet t c = some cnd) (hcp : cnd.parent = l) :
    farChild lnd cl = c := by
  have hcc := children_cases hInv hc hcp hlnd
  obtain ⟨lnd', hlnd', hdisj⟩ := hroute
  rw [hlnd] at hlnd'
  cases hlnd'
  rcases hdisj with ⟨hcl3, -, hzero⟩ | ⟨hcl3, -, hzero⟩
  · rcases hcc with ⟨-, hlc⟩ | ⟨-, hrc⟩
    · exfalso
      have := occ_one_le hInv hc
      omega
    · rw [hcl3]
      exact hrc
  · rcases hcc with ⟨-, hlc⟩ | ⟨-, hrc⟩
    · rw [hcl3]
      exact hlc
    · exfalso
      have := occ_one_le hInv hc
      omega

/-- Pruning soundness: when the query routes to the side recorded in `ct`,
every point stored in the far subtree is at least the split-plane distance
away from the query. -/
theorem prune_sound {t : KdTree} (hInv : Inv t) {q : List ℚ}
    (hqlen : ∀ i ndi, arenaGet t i = some ndi → ndi.point.length = q.length)
    {idx : Nat} {nd : Node} {ct : NodeType} (hnd : arenaGet t idx = some nd)
    (hctl : ct = NodeType.leftChild → greater nd.point q nd.dimension = true)
    (hctr2 : ct = NodeType.rightChild → greater nd.point q nd.dimension = false)
    {j : Nat} {jnd : Node} (hj : arenaGet t j = some jnd)
    (hsub : InSub t (farChild nd ct) j) :
    sqDiffSum (split_plane nd.point nd.dimension) (split_plane q nd.dimension) ≤
      sqDiffSum jnd.point q := by
  have hnl : nd.point.length = q.length := hqlen idx nd hnd
  have hjl : jnd.point.length = q.length := hqlen j jnd hj
  rw [splitDist_eq _ _ _ hnl]
  have hcoord := sqDiffSum_coord jnd.point q nd.dimension hjl
  cases ct with
  | rootNode => exact absurd rfl hsub.1
  | leftChild =>
    have hg : greater nd.point q nd.dimension = true := hctl rfl
    rw [greater_eq_true_iff] at hg
    have hbst := hInv.bst_right idx nd j jnd hnd hj hsub
    have h1 : (0 : ℚ) ≤ lookupD nd.point nd.dimension 0 - lookupD q nd.dimension 0 := by
      linarith
    have h2 : lookupD nd.point nd.dimension 0 - lookupD q nd.dimension 0 ≤
        lookupD jnd.point nd.dimension 0 - lookupD q nd.dimension 0 := by linarith
    calc (lookupD nd.point nd.dimension 0 - lookupD q nd.dimension 0) *
          (lookupD nd.point nd.dimension 0 - lookupD q nd.dimension 0)
        ≤ (lookupD jnd.point nd.dimension 0 - lookupD q nd.dimension 0) *
          (lookupD jnd.point nd.dimension 0 - lookupD q nd.dimension 0) :=
          mul_self_le_mul_self h1 h2
      _ ≤ sqDiffSum jnd.point q := hcoord
  | rightChild =>
    have hg : greater nd.point q nd.dimension = false := hctr2 rfl
    rw [greater_eq_false_iff] at hg
    have hbst := hInv.bst_left idx nd j jnd hnd hj hsub
    have h1 : (0 : ℚ) ≤ lookupD q nd.dimension 0 - lookupD nd.point nd.dimension 0 := by
      linarith
    have h2 : lookupD q nd.dimension 0 - lookupD nd.point nd.dimension 0 ≤
        lookupD q nd.dimension 0 - lookupD jnd.point nd.dimension 0 := by linarith
    have hsym : (lookupD nd.point nd.dimension 0 - lookupD q nd.dimension 0) *
        (lookupD nd.point nd.dimension 0 - lookupD q nd.dimension 0) =
        (lookupD q nd.dimension 0 - lookupD nd.point nd.dimension 0) *
        (lookupD q nd.dimension 0 - lookupD nd.point nd.dimension 0) := by ring
    have hsym2 : (lookupD q nd.dimension 0 - lookupD jnd.point nd.dimension 0) *
        (lookupD q nd.dimension 0 - lookupD jnd.point nd.dimension 0) =
        (lookupD jnd.point nd.dimension 0 - lookupD q nd.dimension 0) *
        (lookupD jnd.point nd.dimension 0 - lookupD q nd.dimension 0) := by ring
    rw [hsym]
    calc (lookupD q nd.dimension 0 - lookupD nd.point nd.dimension 0) *
          (lookupD q nd.dimension 0 - lookupD nd.point nd.dimension 0)
        ≤ (lookupD q nd.dimension 0 - lookupD jnd.point nd.dimension 0) *
          (lookupD q nd.dimension 0 - lookupD jnd.point nd.dimension 0) :=
          mul_self_le_mul_self h1 h2
      _ = _ := hsym2
      _ ≤ sqDiffSum jnd.point q := hcoord

/-- The correctness invariant at loop entry, from the entry descent. -/
theorem CInv_init {t : KdTree} (hInv : Inv t) {q : List ℚ} {l : Nat}
    {cl : NodeType} (hgd : go_down t q 1 = some (Except.ok (l, cl))) :
    CInv t q [] l cl (List.replicate (t.max_levels + 1) (-1 : Int)) [] := by
  obtain ⟨hocc1, seg, hlocc, hchl, hsegok, hroute⟩ := go_down_ok_spec hInv hgd
  obtain ⟨rnd, hrnd⟩ := Option.isSome_iff_exists.1 hocc1
  have hchl2 : chain t l = seg ++ [1] := by rw [hchl, chain_root hInv hrnd]
  refine ⟨SInv_init hInv, ?_, ?_, Or.inl ⟨rfl, rfl⟩, ?_⟩
  · intro a ha haV c cnd hc hcp hcmem
    have hc1 : c ≠ 1 := by
      intro h
      subst h
      rw [(hInv.root_fields cnd hc).1] at hcp
      have hocc := (mem_chain_occ hInv l a ha).1
      rw [← hcp, arena_zero_none hInv] at hocc
      simp at hocc
    have hcseg : c ∈ seg := by
      rw [hchl2] at hcmem
      rcases List.mem_append.1 hcmem with h | h
      · exact h
      · exact absurd (by simpa using h) hc1
    exact hsegok c hcseg
  · intro lnd hlnd hfresh2
    exact route_ctr hroute hlnd
  · intro j jnd hj
    refine Or.inr (Or.inl ?_)
    have h1j : (1 : Nat) ∈ chain t j := root_mem_chain hInv j jnd hj
    have h1l : (1 : Nat) ∈ chain t l := by
      rw [hchl2]
      exact List.mem_append_right _ (by simp)
    obtain ⟨a, haj, hal, h1a, hdis⟩ := chain_meet hInv h1l j h1j
    refine ⟨a, hal, by simp, ?_⟩
    rcases hdis with rfl | ⟨c, cnd, hc, hcp, hcj, hcl2⟩
    · exact Or.inl rfl
    · by_cases hal2 : a = l
      · subst hal2
        obtain ⟨lnd2, hlnd2⟩ := Option.isSome_iff_exists.1 hlocc
        have hfc : farChild lnd2 cl = c := route_far_child hInv hroute hlnd2 hc hcp
        refine Or.inr (Or.inl ⟨rfl, lnd2, hlnd2, ?_⟩)
        rw [hfc]
        exact ⟨by have := occ_one_le hInv hc; omega, hcj⟩
      · exact Or.inr (Or.inr ⟨hal2, c, cnd, hc, hcp, hcl2,
          ⟨by have := occ_one_le hInv hc; omega, hcj⟩⟩)

/-- Walking up preserves the correctness invariant. -/
theorem CInv_up {t : KdTree} (hInv : Inv t) {q : List ℚ} {V : List Nat}
    {idx : Nat} {ct : NodeType} {table : List Int} {bh : List (Nat × ℚ)}
    (hC : CInv t q V idx ct table bh) {nd : Node}
    (hnd : arenaGet t idx = some nd)
    (hmark : lookupD table nd.level (-1) = (idx : Int)) :
    CInv t q V nd.parent nd.child_type table bh := by
  have hidxV : idx ∈ V := (hC.onchain idx nd (self_mem_chain hInv hnd) hnd).2 hmark
  have hS2 := SInv_up hInv hC.toSInv hnd
  have hchain : chain t idx = idx :: chain t nd.parent := chain_cons hInv hnd
  refine ⟨hS2, ?_, ?_, hC.heap, ?_⟩
  · intro a ha haV c cnd hc hcp hcmem
    exact hC.rc a (by rw [hchain]; exact List.mem_cons_of_mem _ ha) haV c cnd hc hcp
      (by rw [hchain]; exact List.mem_cons_of_mem _ hcmem)
  · intro pnd hpnd hpfresh
    have hStep := hC.rc nd.parent
      (by rw [hchain]; exact List.mem_cons_of_mem _ (self_mem_chain hInv hpnd))
      hpfresh idx nd hnd rfl (by rw [hchain]; exact List.mem_cons_self ..)
    obtain ⟨cnd', pnd', hc', hp', hside⟩ := hStep
    rw [hnd] at hc'
    cases hc'
    rw [hpnd] at hp'
    cases hp'
    rcases hside with ⟨hct, hg⟩ | ⟨hct, hg⟩
    · exact ⟨fun _ => hg, fun hr => by rw [hct] at hr; exact NodeType.noConfusion hr⟩
    · exact ⟨fun hl2 => by rw [hct] at hl2; exact NodeType.noConfusion hl2, fun _ => hg⟩
  · intro j jnd hj
    rcases hC.main j jnd hj with hjV | hITV | h3
    · exact Or.inl hjV
    · obtain ⟨a, ha, haV, hdis⟩ := hITV
      rw [hchain] at ha
      rcases List.mem_cons.1 ha with rfl | ha2
      · exact absurd hidxV haV
      · rcases hdis with rfl | ⟨haidx, -⟩ | ⟨hane, c, cnd, hc, hcp, hcnot, hcsub⟩
        · exact Or.inr (Or.inl ⟨j, ha2, haV, Or.inl rfl⟩)
        · exact absurd (haidx ▸ hidxV) haV
        · by_cases hap : a = nd.parent
          · subst hap
            obtain ⟨pnd, hpnd⟩ :=
              Option.isSome_iff_exists.1 (mem_chain_occ hInv nd.parent nd.parent ha2).1
            have hcne : c ≠ idx := by
              intro h
              subst h
              exact hcnot (by rw [hchain]; exact List.mem_cons_self ..)
            have hidx1 : idx ≠ 1 := by
              intro h
              subst h
              rw [(hInv.root_fields nd hnd).1, arena_zero_none hInv] at hpnd
              cases hpnd
            obtain ⟨pnd2, hpnd2, -, -, hlink⟩ := hInv.parent_link idx nd hnd hidx1
            rw [hpnd] at hpnd2
            cases hpnd2
            have hcc := children_cases hInv hc hcp hpnd
            have hfc : farChild pnd nd.child_type = c := by
              rcases hlink with ⟨hl1, hl2⟩ | ⟨hl1, hl2⟩
              · rcases hcc with ⟨-, hc2⟩ | ⟨-, hc2⟩
                · exact absurd (by rw [← hc2, hl2]) hcne
                · rw [hl1]
                  exact hc2
              · rcases hcc with ⟨-, hc2⟩ | ⟨-, hc2⟩
                · rw [hl1]
                  exact hc2
                · exact absurd (by rw [← hc2, hl2]) hcne
            refine Or.inr (Or.inl ⟨nd.parent, ha2, haV,
              Or.inr (Or.inl ⟨rfl, pnd, hpnd, ?_⟩)⟩)
            rw [hfc]
            exact hcsub
          · refine Or.inr (Or.inl ⟨a, ha2, haV,
              Or.inr (Or.inr ⟨hap, c, cnd, hc, hcp, ?_, hcsub⟩)⟩)
            intro hcm
            exact hcnot (by rw [hchain]; exact List.mem_cons_of_mem _ hcm)
    · exact Or.inr (Or.inr h3)

/-- Scoring a fresh node and staying in place (pruned or absent far subtree)
preserves the correctness invariant. -/
theorem CInv_score_stay {t : KdTree} (hInv : Inv t) {q : List ℚ} {V : List Nat}
    {idx : Nat} {ct : NodeType} {table : List Int} {bh bh1 : List (Nat × ℚ)}
    (hC : CInv t q V idx ct table bh) {nd : Node}
    (hnd : arenaGet t idx = some nd) (hfresh : idx ∉ V)
    {b2 : Nat} {d2 : ℚ} {bnd2 : Node}
    (hbh1 : bh1 = [(b2, d2)]) (hb2 : arenaGet t b2 = some bnd2)
    (hb2V : b2 ∈ idx :: V) (hd2 : d2 = sqDiffSum bnd2.point q)
    (hmin2 : ∀ j jnd, j ∈ idx :: V → arenaGet t j = some jnd →
      d2 ≤ sqDiffSum jnd.point q)
    (hmono : ∀ p r, bh = p :: r → d2 ≤ p.2)
    (hcover : ∀ j jnd, arenaGet t j = some jnd → InSub t (farChild nd ct) j →
      d2 ≤ sqDiffSum jnd.point q) :
    CInv t q (idx :: V) idx ct (setAt table nd.level (idx : Int)) bh1 := by
  refine ⟨SInv_score hInv hC.toSInv hnd hfresh, ?_, ?_, ?_, ?_⟩
  · intro a ha haV c cnd hc hcp hcmem
    exact hC.rc a ha (fun h => haV (List.mem_cons_of_mem _ h)) c cnd hc hcp hcmem
  · intro nd' hnd' hfresh2
    exact absurd (List.mem_cons_self ..) hfresh2
  · exact Or.inr ⟨b2, d2, bnd2, hbh1, hb2, hb2V, hd2, hmin2⟩
  · intro j jnd hj
    rcases hC.main j jnd hj with hjV | hITV | ⟨p, r, hbhp, hple⟩
    · exact Or.inl (List.mem_cons_of_mem _ hjV)
    · obtain ⟨a, ha, haV, hdis⟩ := hITV
      by_cases haidx : a = idx
      · subst haidx
        rcases hdis with rfl | ⟨-, nd', hnd', hsub⟩ | ⟨hne, -⟩
        · exact Or.inl (List.mem_cons_self ..)
        · rw [hnd] at hnd'
          cases hnd'
          exact Or.inr (Or.inr ⟨(b2, d2), [], by rw [hbh1], hcover j jnd hj hsub⟩)
        · exact absurd rfl hne
      · refine Or.inr (Or.inl ⟨a, ha, ?_, ?_⟩)
        · intro h
          rcases List.mem_cons.1 h with h2 | h2
          · exact haidx h2
          · exact haV h2
        · rcases hdis with rfl | ⟨heq, -⟩ | hiii
          · exact Or.inl rfl
          · exact absurd heq haidx
          · exact Or.inr (Or.inr hiii)
    · exact Or.inr (Or.inr ⟨(b2, d2), [], by rw [hbh1],
        le_trans (hmono p r hbhp) hple⟩)

/-- Scoring a fresh node and jumping into its far subtree preserves the
correctness invariant. -/
theorem CInv_jump {t : KdTree} (hInv : Inv t) {q : List ℚ} {V : List Nat}
    {idx : Nat} {ct : NodeType} {table : List Int} {bh bh1 : List (Nat × ℚ)}
    (hC : CInv t q V idx ct table bh) {nd : Node}
    (hnd : arenaGet t idx = some nd) (hfresh : idx ∉ V) {l : Nat} {cl : NodeType}
    (hgd : go_down t q (farChild nd ct) = some (Except.ok (l, cl)))
    {b2 : Nat} {d2 : ℚ} {bnd2 : Node}
    (hbh1 : bh1 = [(b2, d2)]) (hb2 : arenaGet t b2 = some bnd2)
    (hb2V : b2 ∈ idx :: V) (hd2 : d2 = sqDiffSum bnd2.point q)
    (hmin2 : ∀ j jnd, j ∈ idx :: V → arenaGet t j = some jnd →
      d2 ≤ sqDiffSum jnd.point q)
    (hmono : ∀ p r, bh = p :: r → d2 ≤ p.2) :
    CInv t q (idx :: V) l cl (setAt table nd.level (idx : Int)) bh1 := by
  obtain ⟨hfocc, seg, hlocc, hchl, hsegok, hroute⟩ := go_down_ok_spec hInv hgd
  have hf0 : farChild nd ct ≠ 0 := by
    intro h
    rw [h, arena_zero_none hInv] at hfocc
    simp at hfocc
  obtain ⟨fnd, hfnd, hfp, hflt⟩ := farChild_link hInv hnd hf0
  have hchf : chain t (farChild nd ct) = farChild nd ct :: chain t idx := by
    rw [chain_cons hInv hfnd, hfp]
  have hfl : farChild nd ct ∈ chain t l := by
    rw [hchl]
    exact List.mem_append_right _ (by rw [hchf]; exact List.mem_cons_self ..)
  have hsubidx : chain t idx <:+ chain t l := by
    rw [hchl, hchf]
    exact (List.suffix_cons _ _).trans (List.suffix_append seg _)
  have hcleanV : ∀ a, farChild nd ct ∈ chain t a → a ∉ V := fun a hfa haV =>
    fresh_clean hInv hC.toSInv hnd hfresh a haV ⟨hf0, hfa⟩
  refine ⟨SInv_jump hInv hC.toSInv hnd hfresh hgd, ?_, ?_, ?_, ?_⟩
  · -- rc
    intro a ha haV c cnd hc hcp hcmem
    rcases chain_split hInv hfnd hfp hfl a ha with hain | ⟨hfa, hanotidx⟩
    · have hane : a ≠ idx := fun h => haV (h ▸ List.mem_cons_self ..)
      have hcin := chain_child_stable hInv hsubidx hain hane hc hcp hcmem
      exact hC.rc a hain (fun h => haV (List.mem_cons_of_mem _ h)) c cnd hc hcp hcin
    · have hcseg : c ∈ seg := by
        rw [hchl, hchf] at hcmem
        rcases List.mem_append.1 hcmem with h | h
        · exact h
        · exfalso
          rcases List.mem_cons.1 h with rfl | h2
          · rw [hfnd] at hc
            cases hc
            have haidx : a = idx := by rw [← hcp, hfp]
            exact haV (haidx ▸ List.mem_cons_self ..)
          · have h3 : c ≤ idx := (mem_chain_occ hInv idx c h2).2
            have h4 : farChild nd ct ≤ a := (mem_chain_occ hInv a _ hfa).2
            have h5 : a < c := hcp ▸ parent_lt_self hInv hc
            omega
      exact hsegok c hcseg
  · -- ctr
    intro lnd hlnd hfresh2
    exact route_ctr hroute hlnd
  · exact Or.inr ⟨b2, d2, bnd2, hbh1, hb2, hb2V, hd2, hmin2⟩
  · -- main
    intro j jnd hj
    rcases hC.main j jnd hj with hjV | hITV | ⟨p, r, hbhp, hple⟩
    · exact Or.inl (List.mem_cons_of_mem _ hjV)
    · obtain ⟨a, ha, haV, hdis⟩ := hITV
      by_cases haidx : a = idx
      · subst haidx
        rcases hdis with rfl | ⟨-, nd', hnd', hsub⟩ | ⟨hne, -⟩
        · exact Or.inl (List.mem_cons_self ..)
        · rw [hnd] at hnd'
          cases hnd'
          obtain ⟨a2, ha2j, ha2l, hfa2, hdis2⟩ := chain_meet hInv hfl j hsub.2
          have ha2V : a2 ∉ a :: V := by
            intro h
            rcases List.mem_cons.1 h with h2 | h2
            · have h4 : farChild nd ct ≤ a2 := (mem_chain_occ hInv a2 _ hfa2).2
              omega
            · exact hcleanV a2 hfa2 h2
          rcases hdis2 with rfl | ⟨c, cnd, hc, hcp, hcj, hcl2⟩
          · exact Or.inr (Or.inl ⟨a2, ha2l, ha2V, Or.inl rfl⟩)
          · by_cases ha2l2 : a2 = l
            · subst ha2l2
              obtain ⟨lnd2, hlnd2⟩ := Option.isSome_iff_exists.1 hlocc
              have hfc : farChild lnd2 cl = c := route_far_child hInv hroute hlnd2 hc hcp
              refine Or.inr (Or.inl ⟨a2, ha2l, ha2V, Or.inr (Or.inl ⟨rfl, lnd2, hlnd2, ?_⟩)⟩)
              rw [hfc]
              exact ⟨by have := occ_one_le hInv hc; omega, hcj⟩
            · exact Or.inr (Or.inl ⟨a2, ha2l, ha2V, Or.inr (Or.inr ⟨ha2l2, c, cnd,
                hc, hcp, hcl2, ⟨by have := occ_one_le hInv hc; omega, hcj⟩⟩)⟩)
        · exact absurd rfl hne
      · refine Or.inr (Or.inl ⟨a, hsubidx.mem ha, ?_, ?_⟩)
        · intro h
          rcases List.mem_cons.1 h with h2 | h2
          · exact haidx h2
          · exact haV h2
        · rcases hdis with rfl | ⟨heq, -⟩ | ⟨hne, c, cnd, hc, hcp, hcnot, hcsub⟩
          · exact Or.inl rfl
          · exact absurd heq haidx
          · refine Or.inr (Or.inr ⟨?_, c, cnd, hc, hcp, ?_, hcsub⟩)
            · have h1 : a ≤ idx := (mem_chain_occ hInv idx a ha).2
              have h2 : farChild nd ct ≤ l := (mem_chain_occ hInv l _ hfl).2
              omega
            · intro hcl3
              exact hcnot (chain_child_stable hInv hsubidx ha haidx hc hcp hcl3)
    · exact Or.inr (Or.inr ⟨(b2, d2), [], by rw [hbh1],
        le_trans (hmono p r hbhp) hple⟩)

/-- The `n = 1` backtracking loop runs to completion and returns the
minimum-distance slot: under the correctness invariant and the fuel bound,
it produces `Except.ok` of a heap satisfying `Found1`. -/
theorem fnc_loop_corr1 {t : KdTree} (hInv : Inv t) {q : List ℚ}
    (hqlen : ∀ i ndi, arenaGet t i = some ndi → ndi.point.length = q.length) :
    ∀ fuel (V : List Nat) idx ct table bh, CInv t q V idx ct table bh →
      unscored t V * (t.max_levels + 2) + lvl t idx < fuel →
      ∃ bh2, fnc_loop t q 1 fuel idx ct table bh = some (Except.ok bh2) ∧
        Found1 t q bh2 := by
  intro fuel
  induction fuel using Nat.strong_induction_on with
  | _ fuel ih =>
    intro V idx ct table bh hC hmu
    obtain ⟨f, rfl⟩ : ∃ f, fuel = f + 1 := ⟨fuel - 1, by omega⟩
    rcases hnd : arenaGet t idx with _ | nd
    · refine ⟨bh, by simp [fnc_loop, hnd], ?_⟩
      have hchnil : chain t idx = [] := chain_nil hnd
      rcases hC.heap with ⟨hbhe, hVe⟩ | ⟨b, δ, bnd, hbh, hb, hbV, hδ, hmin⟩
      · refine Or.inl ⟨hbhe, ?_⟩
        intro j jnd hj
        rcases hC.main j jnd hj with hjV | ⟨a, ha, -⟩ | ⟨p, r, hpr, -⟩
        · rw [hVe] at hjV
          simp at hjV
        · rw [hchnil] at ha
          simp at ha
        · rw [hbhe] at hpr
          cases hpr
      · refine Or.inr ⟨b, δ, bnd, hbh, hb, hδ, ?_⟩
        intro j jnd hj
        rcases hC.main j jnd hj with hjV | ⟨a, ha, -⟩ | ⟨p, r, hpr, hple⟩
        · exact hmin j jnd hjV hj
        · rw [hchnil] at ha
          simp at ha
        · rw [hbh] at hpr
          cases hpr
          exact hple
    · have hidxlt : idx < t.last_point := occ_lt_lp hInv hnd
      by_cases hmark : lookupD table nd.level (-1) = (idx : Int)
      · have hC2 := CInv_up hInv hC hnd hmark
        have hlvl2 : lvl t nd.parent < lvl t idx := lvl_parent_lt hInv hnd
        obtain ⟨bh2, hr, hF⟩ := ih f (by omega) V nd.parent nd.child_type table bh hC2
          (measure_up hmu hlvl2)
        exact ⟨bh2, by rw [fnc_loop_eq_up hnd hmark]; exact hr, hF⟩
      · have hfresh : idx ∉ V :=
          fun h => hmark ((hC.onchain idx nd (self_mem_chain hInv hnd) hnd).1 h)
        have hdrop := unscored_drop hnd hidxlt hfresh
        have hnl : nd.point.length = q.length := hqlen idx nd hnd
        have hdist : distance nd.point q = Except.ok (sqDiffSum nd.point q) :=
          distance_ok hnl
        have hctr0 := hC.ctr nd hnd hfresh
        have hcont : ∀ bh1 b2 d2 bnd2, bh1 = [(b2, d2)] →
            arenaGet t b2 = some bnd2 → b2 ∈ idx :: V →
            d2 = sqDiffSum bnd2.point q →
            (∀ j jnd, j ∈ idx :: V → arenaGet t j = some jnd →
              d2 ≤ sqDiffSum jnd.point q) →
            (∀ p r, bh = p :: r → d2 ≤ p.2) →
            ∃ bh2, fncCont t q 1 f idx ct nd (setAt table nd.level (idx : Int)) bh1 =
              some (Except.ok bh2) ∧ Found1 t q bh2 := by
          intro bh1 b2 d2 bnd2 hbh1 hb2 hb2V hd2 hmin2 hmono
          have hsplitlen : (split_plane nd.point nd.dimension).length =
              (split_plane q nd.dimension).length := by
            rw [length_split_plane, length_split_plane, hnl]
          have hsplit := distance_ok hsplitlen
          have hmax1 : get_max_min bh1 = Except.ok d2 := by
            rw [hbh1]
            rfl
          by_cases hlt : sqDiffSum (split_plane nd.point nd.dimension)
              (split_plane q nd.dimension) < d2
          · obtain ⟨v, hv⟩ := go_down_total hInv q (farChild nd ct)
            rcases v with e | ⟨ci, cc⟩
            · have hfnone : arenaGet t (farChild nd ct) = none := go_down_err hv
              have hcover : ∀ j jnd, arenaGet t j = some jnd →
                  InSub t (farChild nd ct) j → d2 ≤ sqDiffSum jnd.point q := by
                intro j jnd hj hsub
                exfalso
                have h1 := (mem_chain_occ hInv j _ hsub.2).1
                rw [hfnone] at h1
                simp at h1
              have hC3 := CInv_score_stay hInv hC hnd hfresh hbh1 hb2 hb2V hd2
                hmin2 hmono hcover
              obtain ⟨bh2, hr, hF⟩ := ih f (by omega) (idx :: V) idx ct _ bh1 hC3
                (measure_score hmu hdrop (by omega))
              exact ⟨bh2, by
                simp only [fncCont, hsplit, hmax1, if_pos hlt, farChild_eq, hv]
                exact hr, hF⟩
            · have hC4 := CInv_jump hInv hC hnd hfresh hv hbh1 hb2 hb2V hd2 hmin2 hmono
              obtain ⟨bh2, hr, hF⟩ := ih f (by omega) (idx :: V) ci cc _ bh1 hC4
                (measure_jump hmu hdrop (by have := lvl_le hInv ci; omega))
              exact ⟨bh2, by
                simp only [fncCont, hsplit, hmax1, if_pos hlt, farChild_eq, hv]
                exact hr, hF⟩
          · have hcover : ∀ j jnd, arenaGet t j = some jnd →
                InSub t (farChild nd ct) j → d2 ≤ sqDiffSum jnd.point q := by
              intro j jnd hj hsub
              have h1 := prune_sound hInv hqlen hnd hctr0.1 hctr0.2 hj hsub
              exact le_trans (le_of_not_lt hlt) h1
            have hC3 := CInv_score_stay hInv hC hnd hfresh hbh1 hb2 hb2V hd2
              hmin2 hmono hcover
            obtain ⟨bh2, hr, hF⟩ := ih f (by omega) (idx :: V) idx ct _ bh1 hC3
              (measure_score hmu hdrop (by omega))
            exact ⟨bh2, by
              simp only [fncCont, hsplit, hmax1, if_neg hlt]
              exact hr, hF⟩
        rcases hC.heap with ⟨hbhe, hVe⟩ | ⟨b, δ, bnd, hbh, hb, hbV, hδ, hmin⟩
        · have hlen : bh.length < 1 := by
            rw [hbhe]
            simp
          have hbh1e : bhPush bh (idx, sqDiffSum nd.point q) =
              [(idx, sqDiffSum nd.point q)] := by
            rw [hbhe]
            rfl
          have hmin2 : ∀ j jnd, j ∈ idx :: V → arenaGet t j = some jnd →
              sqDiffSum nd.point q ≤ sqDiffSum jnd.point q := by
            intro j jnd hjm hj
            rcases List.mem_cons.1 hjm with rfl | hjm2
            · rw [hnd] at hj
              cases hj
              exact le_refl _
            · rw [hVe] at hjm2
              simp at hjm2
          have hmono : ∀ p r, bh = p :: r → sqDiffSum nd.point q ≤ p.2 := by
            intro p r hpr
            rw [hbhe] at hpr
            cases hpr
          obtain ⟨bh2, hr, hF⟩ := hcont (bhPush bh (idx, sqDiffSum nd.point q)) idx
            (sqDiffSum nd.point q) nd hbh1e hnd (List.mem_cons_self ..) rfl hmin2 hmono
          exact ⟨bh2, by rw [fnc_loop_eq_push hnd hmark hdist hlen]; exact hr, hF⟩
        · have hlen : ¬ bh.length < 1 := by
            rw [hbh]
            simp
          have hmax : get_max_min bh = Except.ok δ := by
            rw [hbh]
            rfl
          by_cases hrepl : sqDiffSum nd.point q < δ
          · have hbh1e : (if sqDiffSum nd.point q < δ then
                bhPush bh.tail (idx, sqDiffSum nd.point q) else bh) =
                [(idx, sqDiffSum nd.point q)] := by
              rw [if_pos hrepl, hbh]
              rfl
            have hmin2 : ∀ j jnd, j ∈ idx :: V → arenaGet t j = some jnd →
                sqDiffSum nd.point q ≤ sqDiffSum jnd.point q := by
              intro j jnd hjm hj
              rcases List.mem_cons.1 hjm with rfl | hjm2
              · rw [hnd] at hj
                cases hj
                exact le_refl _
              · exact le_trans (le_of_lt hrepl) (hmin j jnd hjm2 hj)
            have hmono : ∀ p r, bh = p :: r → sqDiffSum nd.point q ≤ p.2 := by
              intro p r hpr
              rw [hbh] at hpr
              cases hpr
              exact le_of_lt hrepl
            obtain ⟨bh2, hr, hF⟩ := hcont _ idx (sqDiffSum nd.point q) nd hbh1e hnd
              (List.mem_cons_self ..) rfl hmin2 hmono
            exact ⟨bh2, by rw [fnc_loop_eq_keep hnd hmark hdist hlen hmax]; exact hr, hF⟩
          · have hbh1e : (if sqDiffSum nd.point q < δ then
                bhPush bh.tail (idx, sqDiffSum nd.point q) else bh) = [(b, δ)] := by
              rw [if_neg hrepl, hbh]
            have hmin2 : ∀ j jnd, j ∈ idx :: V → arenaGet t j = some jnd →
                δ ≤ sqDiffSum jnd.point q := by
              intro j jnd hjm hj
              rcases List.mem_cons.1 hjm with rfl | hjm2
              · rw [hnd] at hj
                cases hj
                exact le_of_not_lt hrepl
              · exact hmin j jnd hjm2 hj
            have hmono : ∀ p r, bh = p :: r → δ ≤ p.2 := by
              intro p r hpr
              rw [hbh] at hpr
              cases hpr
              exact le_refl _
            obtain ⟨bh2, hr, hF⟩ := hcont _ b δ bnd hbh1e hb
              (List.mem_cons_of_mem _ hbV) hδ hmin2 hmono
            exact ⟨bh2, by rw [fnc_loop_eq_keep hnd hmark hdist hlen hmax]; exact hr, hF⟩

theorem measure_entry {t : KdTree} (hInv : Inv t) (idx : Nat) :
    unscored t [] * (t.max_levels + 2) + lvl t idx < fncFuel t := by
  have h1 : unscored t [] ≤ t.last_point := unscored_le t []
  have h2 : lvl t idx < t.max_levels + 2 := by
    have := lvl_le hInv idx
    omega
  have h3 : unscored t [] * (t.max_levels + 2) ≤
      t.last_point * (t.max_levels + 2) := Nat.mul_le_mul_right _ h1
  have h4 : t.last_point * (t.max_levels + 2) + (t.max_levels + 2) =
      (t.last_point + 1) * (t.max_levels + 2) := (Nat.succ_mul ..).symm
  have h5 : fncFuel t = (t.last_point + 1) * (t.max_levels + 2) + 1 := rfl
  omega

theorem to_points_single {t : KdTree} {b : Nat} {δ : ℚ} {bnd : Node}
    (hb : arenaGet t b = some bnd) :
    to_points t [(b, δ)] [] = Except.ok [(bnd.point, δ)] := by
  simp only [to_points, hb, bhPush]

/-- Full characterisation of `find_n_closest` at `n = 1`: it returns the
stored point of minimum squared distance to the query. -/
theorem fnc1_spec {t : KdTree} (hInv : Inv t) {q : List ℚ}
    (hqlen : ∀ i ndi, arenaGet t i = some ndi → ndi.point.length = q.length)
    (hocc1 : (arenaGet t 1).isSome) :
    ∃ b δ bnd, find_n_closest t q 1 = some (Except.ok [(bnd.point, δ)]) ∧
      arenaGet t b = some bnd ∧ δ = sqDiffSum bnd.point q ∧
      ∀ j jnd, arenaGet t j = some jnd → δ ≤ sqDiffSum jnd.point q := by
  obtain ⟨pi, ct, seg, hrun, hpiOcc, -, -, -⟩ := go_down_spec hInv q hocc1
  have hC := CInv_init hInv hrun
  obtain ⟨bh2, hloop, hF⟩ := fnc_loop_corr1 hInv hqlen (fncFuel t) [] pi ct
    (List.replicate (t.max_levels + 1) (-1 : Int)) [] hC (measure_entry hInv pi)
  rcases hF with ⟨hbh2e, hnone⟩ | ⟨b, δ, bnd, hbh2, hbnd, hδ, hmin⟩
  · obtain ⟨rnd, hrnd⟩ := Option.isSome_iff_exists.1 hocc1
    exact (hnone 1 rnd hrnd).elim
  · refine ⟨b, δ, bnd, ?_, hbnd, hδ, hmin⟩
    unfold find_n_closest
    simp only [hrun, hloop, hbh2]
    rw [to_points_single hbnd]

/-- `find_closest` returns the stored point of minimum squared distance. -/
theorem find_closest_min {t : KdTree} (hInv : Inv t) {q : List ℚ}
    (hqlen : ∀ i ndi, arenaGet t i = some ndi → ndi.point.length = q.length)
    (hocc1 : (arenaGet t 1).isSome) :
    ∃ b δ bnd, find_closest t q = some (Except.ok (bnd.point, δ)) ∧
      arenaGet t b = some bnd ∧ δ = sqDiffSum bnd.point q ∧
      ∀ j jnd, arenaGet t j = some jnd → δ ≤ sqDiffSum jnd.point q := by
  obtain ⟨b, δ, bnd, hfn, hbnd, hδ, hmin⟩ := fnc1_spec hInv hqlen hocc1
  refine ⟨b, δ, bnd, ?_, hbnd, hδ, hmin⟩
  unfold find_closest
  simp only [hfn]

/-- The scanning loop of `brute_force` at `n = 1` keeps exactly the running
minimum over the slots already processed. -/
theorem bf_loop1 {t : KdTree} {q : List ℚ}
    (hqlen : ∀ i ndi, arenaGet t i = some ndi → ndi.point.length = q.length) :
    ∀ (l : List (Option Node)) (i : Nat) (bh : List (Nat × ℚ)),
      (∀ k, lookupD l k none = arenaGet t (i + k)) →
      ((bh = [] ∧ ∀ j jnd, j < i → arenaGet t j = some jnd → False) ∨
       ∃ b δ bnd, bh = [(b, δ)] ∧ arenaGet t b = some bnd ∧
         δ = sqDiffSum bnd.point q ∧
         ∀ j jnd, j < i → arenaGet t j = some jnd → δ ≤ sqDiffSum jnd.point q) →
      ∃ bh2, bf_loop q 1 l i bh = Except.ok bh2 ∧
        ((bh2 = [] ∧ ∀ j jnd, j < i + l.length → arenaGet t j = some jnd → False) ∨
         ∃ b δ bnd, bh2 = [(b, δ)] ∧ arenaGet t b = some bnd ∧
           δ = sqDiffSum bnd.point q ∧
           ∀ j jnd, j < i + l.length → arenaGet t j = some jnd →
             δ ≤ sqDiffSum jnd.point q) := by
  intro l
  induction l with
  | nil =>
    intro i bh hconn hinv
    refine ⟨bh, rfl, ?_⟩
    simpa using hinv
  | cons x rest ih =>
    intro i bh hconn hinv
    have hconn2 : ∀ k, lookupD rest k none = arenaGet t (i + 1 + k) := by
      intro k
      have h := hconn (k + 1)
      rw [show i + (k + 1) = i + 1 + k from by omega] at h
      exact h
    have hx2 : x = arenaGet t i := by
      have h := hconn 0
      rwa [Nat.add_zero] at h
    cases x with
    | none =>
      have hocc0 : arenaGet t i = none := hx2.symm
      obtain ⟨bh2, hrun, hres⟩ := ih (i + 1) bh hconn2 (by
        rcases hinv with ⟨h1, h2⟩ | ⟨b, δ, bnd, h1, h2, h3, h4⟩
        · refine Or.inl ⟨h1, ?_⟩
          intro j jnd hj hjo
          rcases Nat.lt_or_ge j i with h | h
          · exact h2 j jnd h hjo
          · have hji : j = i := by omega
            subst hji
            rw [hocc0] at hjo
            cases hjo
        · refine Or.inr ⟨b, δ, bnd, h1, h2, h3, ?_⟩
          intro j jnd hj hjo
          rcases Nat.lt_or_ge j i with h | h
          · exact h4 j jnd h hjo
          · have hji : j = i := by omega
            subst hji
            rw [hocc0] at hjo
            cases hjo)
      refine ⟨bh2, hrun, ?_⟩
      rcases hres with ⟨h1, h2⟩ | ⟨b, δ, bnd, h1, h2, h3, h4⟩
      · exact Or.inl ⟨h1, fun j jnd hj hjo => h2 j jnd (by
          simp only [List.length_cons] at hj
          omega) hjo⟩
      · exact Or.inr ⟨b, δ, bnd, h1, h2, h3, fun j jnd hj hjo => h4 j jnd (by
          simp only [List.length_cons] at hj
          omega) hjo⟩
    | some node =>
      have hocc0 : arenaGet t i = some node := hx2.symm
      have hnl : node.point.length = q.length := hqlen i node hocc0
      have hdist : distance node.point q = Except.ok (sqDiffSum node.point q) :=
        distance_ok hnl
      rcases hinv with ⟨h1, h2⟩ | ⟨b, δ, bnd, h1, h2, h3, h4⟩
      · subst h1
        have hstep : bf_loop q 1 (some node :: rest) i [] =
            bf_loop q 1 rest (i + 1) [(i, sqDiffSum node.point q)] := by
          simp only [bf_loop, hdist]
          rfl
        obtain ⟨bh2, hrun, hres⟩ := ih (i + 1) [(i, sqDiffSum node.point q)] hconn2
          (Or.inr ⟨i, sqDiffSum node.point q, node, rfl, hocc0, rfl, by
            intro j jnd hj hjo
            rcases Nat.lt_or_ge j i with h | h
            · exact (h2 j jnd h hjo).elim
            · have hji : j = i := by omega
              subst hji
              rw [hocc0] at hjo
              cases hjo
              exact le_refl _⟩)
        refine ⟨bh2, by rw [hstep]; exact hrun, ?_⟩
        rcases hres with ⟨h1, h2b⟩ | ⟨b, δ, bnd, h1, h2b, h3, h4⟩
        · exact Or.inl ⟨h1, fun j jnd hj hjo => h2b j jnd (by
            simp only [List.length_cons] at hj
            omega) hjo⟩
        · exact Or.inr ⟨b, δ, bnd, h1, h2b, h3, fun j jnd hj hjo => h4 j jnd (by
            simp only [List.length_cons] at hj
            omega) hjo⟩
      · subst h1
        by_cases hrepl : sqDiffSum node.point q < δ
        · have hstep : bf_loop q 1 (some node :: rest) i [(b, δ)] =
              bf_loop q 1 rest (i + 1) [(i, sqDiffSum node.point q)] := by
            simp only [bf_loop, hdist, get_max_min]
            rw [if_neg (show ¬ ([(b, δ)].length < 1) by simp), if_pos hrepl]
            rfl
          obtain ⟨bh2, hrun, hres⟩ := ih (i + 1) [(i, sqDiffSum node.point q)] hconn2
            (Or.inr ⟨i, sqDiffSum node.point q, node, rfl, hocc0, rfl, by
              intro j jnd hj hjo
              rcases Nat.lt_or_ge j i with h | h
              · exact le_trans (le_of_lt hrepl) (h4 j jnd h hjo)
              · have hji : j = i := by omega
                subst hji
                rw [hocc0] at hjo
                cases hjo
                exact le_refl _⟩)
          refine ⟨bh2, by rw [hstep]; exact hrun, ?_⟩
          rcases hres with ⟨h1, h2b⟩ | ⟨b2, δ2, bnd2, h1, h2b, h3, h4b⟩
          · exact Or.inl ⟨h1, fun j jnd hj hjo => h2b j jnd (by
              simp only [List.length_cons] at hj
              omega) hjo⟩
          · exact Or.inr ⟨b2, δ2, bnd2, h1, h2b, h3, fun j jnd hj hjo => h4b j jnd (by
              simp only [List.length_cons] at hj
              omega) hjo⟩
        · have hstep : bf_loop q 1 (some node :: rest) i [(b, δ)] =
              bf_loop q 1 rest (i + 1) [(b, δ)] := by
            simp only [bf_loop, hdist, get_max_min]
            rw [if_neg (show ¬ ([(b, δ)].length < 1) by simp), if_neg hrepl]
          obtain ⟨bh2, hrun, hres⟩ := ih (i + 1) [(b, δ)] hconn2
            (Or.inr ⟨b, δ, bnd, rfl, h2, h3, by
              intro j jnd hj hjo
              rcases Nat.lt_or_ge j i with h | h
              · exact h4 j jnd h hjo
              · have hji : j = i := by omega
                subst hji
                rw [hocc0] at hjo
                cases hjo
                exact le_of_not_lt hrepl⟩)
          refine ⟨bh2, by rw [hstep]; exact hrun, ?_⟩
          rcases hres with ⟨h1, h2b⟩ | ⟨b2, δ2, bnd2, h1, h2b, h3, h4b⟩
          · exact Or.inl ⟨h1, fun j jnd hj hjo => h2b j jnd (by
              simp only [List.length_cons] at hj
              omega) hjo⟩
          · exact Or.inr ⟨b2, δ2, bnd2, h1, h2b, h3, fun j jnd hj hjo => h4b j jnd (by
              simp only [List.length_cons] at hj
              omega) hjo⟩

/-- `brute_force` at `n = 1` returns the stored point of minimum squared
distance. -/
theorem brute1_spec {t : KdTree} (hInv : Inv t) {q : List ℚ}
    (hqlen : ∀ i ndi, arenaGet t i = some ndi → ndi.point.length = q.length)
    (hocc1 : (arenaGet t 1).isSome) :
    ∃ b δ bnd, brute_force t q 1 = Except.ok [(bnd.point, δ)] ∧
      arenaGet t b = some bnd ∧ δ = sqDiffSum bnd.point q ∧
      ∀ j jnd, arenaGet t j = some jnd → δ ≤ sqDiffSum jnd.point q := by
  have hconn : ∀ k, lookupD t.tree k none = arenaGet t (0 + k) := by
    intro k
    rw [Nat.zero_add]
    rfl
  obtain ⟨bh2, hrun, hres⟩ := bf_loop1 hqlen t.tree 0 []
    hconn (Or.inl ⟨rfl, fun j jnd hj hjo => absurd hj (by omega)⟩)
  rcases hres with ⟨hbh2e, hnone⟩ | ⟨b, δ, bnd, hbh2, hbnd, hδ, hmin⟩
  · obtain ⟨rnd, hrnd⟩ := Option.isSome_iff_exists.1 hocc1
    refine ((hnone 1 rnd ?_ hrnd)).elim
    have := hInv.len3
    omega
  · refine ⟨b, δ, bnd, ?_, hbnd, hδ, ?_⟩
    · unfold brute_force
      simp only [hrun, hbh2]
      rw [to_points_single hbnd]
    · intro j jnd hj
      refine hmin j jnd ?_ hj
      have := lookupD_some_lt_length t.tree j jnd hj
      omega

/-! ## Packaging the search facts of a built tree -/

theorem built_search_facts {d : Nat} {ps : List (List ℚ)} {t : KdTree}
    {q : List ℚ} (hb : Built d ps t) (hne : ps ≠ []) (hq : q.length = d) :
    Inv t ∧ (∀ i ndi, arenaGet t i = some ndi → ndi.point.length = q.length) ∧
    (arenaGet t 1).isSome ∧
    (∀ p, p ∈ ps ↔ ∃ i ndi, arenaGet t i = some ndi ∧ ndi.point = p) := by
  obtain ⟨hInv, hd, hlp, hoP⟩ := built_facts hb
  have hlp2 : 2 ≤ t.last_point := by
    rw [hlp]
    cases ps with
    | nil => exact absurd rfl hne
    | cons a l => simp
  refine ⟨hInv, ?_, (hInv.occ_iff 1).2 ⟨le_refl 1, by omega⟩, ?_⟩
  · intro i ndi h
    rw [hInv.point_len i ndi h, hd, hq]
  · intro p
    rw [← hoP]
    exact mem_occPoints hInv

/-! ## Claim C1: correctness of `find_closest` -/

/-- C1: on every tree built by successful `add_point` calls from at least
one point, and every query of the tree's dimensionality, `find_closest`
returns `Ok` with the minimum over all inserted points of the (squared)
distance to the query, attained by a returned point that is one of the
inserted points, and `brute_force(q, 1)` returns the same distance; in
particular, on the spec's seven-point 3-dimensional scenario,
`find_closest((0.5, 0.2, 0.1))` returns that exact point with distance 0. -/
theorem C1_find_closest_correct (d : Nat) (ps : List (List ℚ)) (t : KdTree)
    (q : List ℚ) (hb : Built d ps t) (hne : ps ≠ []) (hq : q.length = d) :
    (∃ p δ p2, find_closest t q = some (Except.ok (p, δ)) ∧ p ∈ ps ∧
      sqDiffSum p q = δ ∧ (∀ r ∈ ps, δ ≤ sqDiffSum r q) ∧
      brute_force t q 1 = Except.ok [(p2, δ)]) ∧
    find_closest scenarioTree [1/2, 1/5, 1/10] =
      some (Except.ok ([1/2, 1/5, 1/10], 0)) := by
  constructor
  · obtain ⟨hInv, hqlen, hocc1, hmem⟩ := built_search_facts hb hne hq
    obtain ⟨b, δ, bnd, hfc, hbnd, hδ, hmin⟩ := find_closest_min hInv hqlen hocc1
    obtain ⟨b2, δ2, bnd2, hbf, hbnd2, hδ2, hmin2⟩ := brute1_spec hInv hqlen hocc1
    have hδeq : δ2 = δ := by
      have h1 : δ2 ≤ δ := by
        rw [hδ]
        exact hmin2 b bnd hbnd
      have h2 : δ ≤ δ2 := by
        rw [hδ2]
        exact hmin b2 bnd2 hbnd2
      linarith
    refine ⟨bnd.point, δ, bnd2.point, hfc, (hmem bnd.point).2 ⟨b, bnd, hbnd, rfl⟩,
      hδ.symm, ?_, ?_⟩
    · intro r hr
      obtain ⟨i, ndi, hi, hip⟩ := (hmem r).1 hr
      rw [← hip]
      exact hmin i ndi hi
    · rw [← hδeq]
      exact hbf
  · with_unfolding_all rfl

/-- Witness for `C1_find_closest_correct`. -/
theorem C1_find_closest_correct_witness :
    (∃ p δ p2, find_closest scenarioTree [1/2, 1/5, 1/10] =
        some (Except.ok (p, δ)) ∧ p ∈ scenarioPts ∧
      sqDiffSum p [1/2, 1/5, 1/10] = δ ∧
      (∀ r ∈ scenarioPts, δ ≤ sqDiffSum r [1/2, 1/5, 1/10]) ∧
      brute_force scenarioTree [1/2, 1/5, 1/10] 1 = Except.ok [(p2, δ)]) ∧
    find_closest scenarioTree [1/2, 1/5, 1/10] =
      some (Except.ok ([1/2, 1/5, 1/10], 0)) :=
  C1_find_closest_correct 3 scenarioPts scenarioTree [1/2, 1/5, 1/10]
    (by with_unfolding_all rfl) (by decide) (by decide)

/-! ## Claim C3: termination of the backtracking loop -/

/-- C3: on every tree built through the public interface and every query of
the tree's dimensionality, the fuelled backtracking loop of
`find_n_closest` completes within its fuel (the upward walk ends at the
absent sentinel slot 0 after the whole tree has been considered), so
`find_n_closest` always returns a result — never the non-termination
marker `none` — for every `n`. -/
theorem C3_backtracking_terminates (d : Nat) (ps : List (List ℚ)) (t : KdTree)
    (q : List ℚ) (n : Nat) (hb : Built d ps t) (hq : q.length = d) :
    ∃ r, find_n_closest t q n = some r := by
  obtain ⟨hInv, -, -, -⟩ := built_facts hb
  exact find_n_closest_total hInv q n

/-- Witness for `C3_backtracking_terminates`. -/
theorem C3_backtracking_terminates_witness :
    ∃ r, find_n_closest scenarioTree [0, 0, 0] 3 = some r :=
  C3_backtracking_terminates 3 scenarioPts scenarioTree [0, 0, 0] 3
    (by with_unfolding_all rfl) (by decide)

/-! ## Claim C2 (amended): k-set equivalence at `n = 1` -/

/-- C2 (amended): the k-set equivalence of `find_n_closest` with
`brute_force` holds at `n = 1`: both return a single pair carrying the same
distance — the minimum squared distance over the inserted points — and the
returned points agree whenever the minimum is attained by a unique point
value (for `n ≥ 2` the unguarded pruning refutes the original claim, see
the counterexample). -/
theorem C2_kset_equiv_amended (d : Nat) (ps : List (List ℚ)) (t : KdTree)
    (q : List ℚ) (hb : Built d ps t) (hne : ps ≠ []) (hq : q.length = d) :
    ∃ δ p1 p2, find_n_closest t q 1 = some (Except.ok [(p1, δ)]) ∧
      brute_force t q 1 = Except.ok [(p2, δ)] ∧
      p1 ∈ ps ∧ p2 ∈ ps ∧ sqDiffSum p1 q = δ ∧ sqDiffSum p2 q = δ ∧
      (∀ r ∈ ps, δ ≤ sqDiffSum r q) ∧
      ((∀ r1 r2, r1 ∈ ps → r2 ∈ ps → sqDiffSum r1 q = δ → sqDiffSum r2 q = δ →
          r1 = r2) → p1 = p2) := by
  obtain ⟨hInv, hqlen, hocc1, hmem⟩ := built_search_facts hb hne hq
  obtain ⟨b, δ, bnd, hfn, hbnd, hδ, hmin⟩ := fnc1_spec hInv hqlen hocc1
  obtain ⟨b2, δ2, bnd2, hbf, hbnd2, hδ2, hmin2⟩ := brute1_spec hInv hqlen hocc1
  have hδeq : δ2 = δ := by
    have h1 : δ2 ≤ δ := by
      rw [hδ]
      exact hmin2 b bnd hbnd
    have h2 : δ ≤ δ2 := by
      rw [hδ2]
      exact hmin b2 bnd2 hbnd2
    linarith
  have hp1 : bnd.point ∈ ps := (hmem bnd.point).2 ⟨b, bnd, hbnd, rfl⟩
  have hp2 : bnd2.point ∈ ps := (hmem bnd2.point).2 ⟨b2, bnd2, hbnd2, rfl⟩
  refine ⟨δ, bnd.point, bnd2.point, hfn, by rw [← hδeq]; exact hbf, hp1, hp2,
    hδ.symm, by rw [← hδeq]; exact hδ2.symm, ?_, ?_⟩
  · intro r hr
    obtain ⟨i, ndi, hi, hip⟩ := (hmem r).1 hr
    rw [← hip]
    exact hmin i ndi hi
  · intro huniq
    exact huniq bnd.point bnd2.point hp1 hp2 hδ.symm (by rw [← hδeq]; exact hδ2.symm)

/-- Witness for `C2_kset_equiv_amended`. -/
theorem C2_kset_equiv_amended_witness :
    ∃ δ p1 p2, find_n_closest cexTreeA [10] 1 = some (Except.ok [(p1, δ)]) ∧
      brute_force cexTreeA [10] 1 = Except.ok [(p2, δ)] ∧
      p1 ∈ [[(0 : ℚ)], [5], [-5]] ∧ p2 ∈ [[(0 : ℚ)], [5], [-5]] ∧
      sqDiffSum p1 [10] = δ ∧ sqDiffSum p2 [10] = δ ∧
      (∀ r ∈ [[(0 : ℚ)], [5], [-5]], δ ≤ sqDiffSum r [10]) ∧
      ((∀ r1 r2, r1 ∈ [[(0 : ℚ)], [5], [-5]] → r2 ∈ [[(0 : ℚ)], [5], [-5]] →
          sqDiffSum r1 [10] = δ → sqDiffSum r2 [10] = δ → r1 = r2) → p1 = p2) :=
  C2_kset_equiv_amended 1 [[(0 : ℚ)], [5], [-5]] cexTreeA [10]
    (by with_unfolding_all rfl) (by decide) (by decide)

/-! ## Claim C9 (amended): insertion-order invariance of `find_closest` -/

/-- C9 (amended): for a fixed final point set, the distance returned by
`find_closest` is the same for every insertion order — it is the minimum
squared distance over the set — and the returned points agree whenever the
minimum is attained by a unique point value (`find_n_closest` with `n ≥ 2`
is not insertion-order invariant, see the counterexample). -/
theorem C9_order_invariance_amended (d : Nat) (ps1 ps2 : List (List ℚ))
    (t1 t2 : KdTree) (q : List ℚ) (hb1 : Built d ps1 t1) (hb2 : Built d ps2 t2)
    (hperm : ps1.Perm ps2) (hne : ps1 ≠ []) (hq : q.length = d) :
    ∃ δ p1 p2, find_closest t1 q = some (Except.ok (p1, δ)) ∧
      find_closest t2 q = some (Except.ok (p2, δ)) ∧
      p1 ∈ ps1 ∧ p2 ∈ ps1 ∧ sqDiffSum p1 q = δ ∧ sqDiffSum p2 q = δ ∧
      ((∀ r1 r2, r1 ∈ ps1 → r2 ∈ ps1 → sqDiffSum r1 q = δ → sqDiffSum r2 q = δ →
          r1 = r2) → p1 = p2) := by
  have hne2 : ps2 ≠ [] := by
    intro h
    rw [h] at hperm
    exact hne hperm.eq_nil
  obtain ⟨hInv1, hqlen1, hocc11, hmem1⟩ := built_search_facts hb1 hne hq
  obtain ⟨hInv2, hqlen2, hocc12, hmem2⟩ := built_search_facts hb2 hne2 hq
  obtain ⟨b1, δ1, bnd1, hfc1, hbnd1, hδ1, hmin1⟩ := find_closest_min hInv1 hqlen1 hocc11
  obtain ⟨b2, δ2, bnd2, hfc2, hbnd2, hδ2, hmin2⟩ := find_closest_min hInv2 hqlen2 hocc12
  have hp1 : bnd1.point ∈ ps1 := (hmem1 bnd1.point).2 ⟨b1, bnd1, hbnd1, rfl⟩
  have hp2 : bnd2.point ∈ ps1 := hperm.mem_iff.2 ((hmem2 bnd2.point).2 ⟨b2, bnd2, hbnd2, rfl⟩)
  have hle1 : δ1 ≤ δ2 := by
    obtain ⟨i, ndi, hi, hip⟩ := (hmem1 bnd2.point).1 hp2
    rw [hδ2, ← hip]
    exact hmin1 i ndi hi
  have hle2 : δ2 ≤ δ1 := by
    obtain ⟨i, ndi, hi, hip⟩ := (hmem2 bnd1.point).1 (hperm.mem_iff.1 hp1)
    rw [hδ1, ← hip]
    exact hmin2 i ndi hi
  have hδeq : δ2 = δ1 := le_antisymm hle2 hle1
  refine ⟨δ1, bnd1.point, bnd2.point, hfc1, by rw [← hδeq]; exact hfc2, hp1, hp2,
    hδ1.symm, by rw [← hδeq]; exact hδ2.symm, ?_⟩
  intro huniq
  exact huniq bnd1.point bnd2.point hp1 hp2 hδ1.symm (by rw [← hδeq]; exact hδ2.symm)

/-- Witness for `C9_order_invariance_amended`. -/
theorem C9_order_invariance_amended_witness :
    ∃ δ p1 p2, find_closest cexTreeA [10] = some (Except.ok (p1, δ)) ∧
      find_closest cexTreeB [10] = some (Except.ok (p2, δ)) ∧
      p1 ∈ [[(0 : ℚ)], [5], [-5]] ∧ p2 ∈ [[(0 : ℚ)], [5], [-5]] ∧
      sqDiffSum p1 [10] = δ ∧ sqDiffSum p2 [10] = δ ∧
      ((∀ r1 r2, r1 ∈ [[(0 : ℚ)], [5], [-5]] → r2 ∈ [[(0 : ℚ)], [5], [-5]] →
          sqDiffSum r1 [10] = δ → sqDiffSum r2 [10] = δ → r1 = r2) → p1 = p2) :=
  C9_order_invariance_amended 1 [[(0 : ℚ)], [5], [-5]] [[(-5 : ℚ)], [0], [5]]
    cexTreeA cexTreeB [10] (by with_unfolding_all rfl) (by with_unfolding_all rfl)
    (by with_unfolding_all decide) (by decide) (by decide)

end KD
